import Mathlib

/-!
Verification of the lazysorted partial-sort engine (src/lazysorted.c).

The engine keeps a partially sorted list `xs` together with a treap of
"pivot" indices (`PivotNode` in the C source).  We embed the C code
shallowly:

* `PTree` is the pivot tree.  The C tree carries parent pointers used
  only for upward navigation (`next_pivot`) and for the rotation loop of
  `insert_pivot`; a purely functional tree represents the same data, and
  the parent-walking operations are modelled by their effect on the
  tree (`next_pivot` is the in-order successor, the rotation loop is the
  bubble-up pass `bubbleUp` applied after the plain BST attachment).
* Machine integers (`Py_ssize_t`) are far from overflow in every claim
  considered, so indices are plain `Int`.
* The element comparators (`PyObject_RichCompareBool` with `Py_LT` /
  `Py_EQ`) may fail; they are modelled as `α → α → Option Bool`,
  `none` being a raised exception.  Each comparator call bumps the
  counter `cc` of the state (the "comparator call counter" of the spec).
* `rand()` is modelled by an arbitrary stream `rng : Nat → Nat` consumed
  at index `rc`, which the state threads.
* Fallible C functions return `Except Err β` together with the state as
  mutated so far: a failing comparator in the C leaves all array and
  tree mutations performed before the failure in place, and the model
  does the same.
* The model follows the release build (NDEBUG): `assert` statements are
  not executed.  Where skipped assertions are immediately followed by
  undefined behaviour in the C (dereference of a NULL result of
  `bound_idx`/`next_pivot`, or of a node already freed by
  `delete_node`), the model aborts with a distinguished error
  (`Err.nullDeref`, `Err.useAfterFree`): the C has no defined result
  there.  `delete_node` frees its node with `PyMem_Free`; the model
  removes it from the tree, and any later dereference of that node
  (the C reads freed memory through a dangling local) is the
  `useAfterFree` abort.
* `params.h` is not part of the sources.  Modelled from the spec:
  `SORT_THRESH` ("below SORT_THRESH elements, stop recursing and
  insertion-sort", suggested 12-16) is the parameter `thresh` of `Ctx`;
  concrete evaluations use 12, theorems quantify over it where they can.
-/

/-- Abort causes of the modelled C code. -/
inductive Err where
  /-- a comparator raised (`PyObject_RichCompareBool` returned -1) -/
  | cmpFail
  /-- `insert_pivot` found the index already present (`SystemError`) -/
  | dupPivot
  /-- dereference of a node already freed by `delete_node` -/
  | useAfterFree
  /-- dereference of a NULL pointer (e.g. `bound_idx` produced no left bound) -/
  | nullDeref
  /-- a debug assertion that guards no undefined behaviour; used for the
      entry assertion of `sort_range` -/
  | assertViol
  /-- `ls_subscript`: list index out of range (`IndexError`) -/
  | indexErr
  /-- `ls_index`: item not in list (`ValueError`) -/
  | notFound
  /-- guard of a case the source cannot reach (kept to make recursion
      well-founded); proved dead where needed -/
  | unreachable
deriving DecidableEq, Repr

/-- The pivot BST (a treap in the C code): `PivotNode` with
`idx`, the two flag bits `SORTED_LEFT`/`SORTED_RIGHT` and `priority`.
`sl` models the `SORTED_LEFT` bit, `sr` the `SORTED_RIGHT` bit. -/
inductive PTree where
  | leaf : PTree
  | node (idx : Int) (sl sr : Bool) (prio : Nat) (l r : PTree) : PTree
deriving DecidableEq, Repr

namespace PTree

/-- In-order list of pivot indices of the tree. -/
def keys : PTree → List Int
  | leaf => []
  | node i _ _ _ l r => keys l ++ i :: keys r

/-- Number of nodes. -/
def size : PTree → Nat
  | leaf => 0
  | node _ _ _ _ l r => size l + size r + 1

/-- The in-order list of `(idx, sl, sr)` entries of the tree; tree
rotations preserve it. -/
def entries : PTree → List (Int × Bool × Bool)
  | leaf => []
  | node i sl sr _ l r => entries l ++ (i, sl, sr) :: entries r

/-- Is the index present (a live node)?  This is the model of "the local
pointer still points into the tree": `delete_node` removes the node, so
absence means the C would be touching freed memory. -/
def memT (t : PTree) (i : Int) : Bool := (keys t).contains i

/-- Locate the subtree rooted at the node with index `i` (scanning the
whole tree, as a pointer dereference does not depend on BST order). -/
def findNode : PTree → Int → Option PTree
  | leaf, _ => none
  | node j sl sr p l r, i =>
    if i = j then some (node j sl sr p l r)
    else match findNode l i with
      | some s => some s
      | none => findNode r i

/-- The flag bits of the node with index `i`, if it is live (looked up
through the in-order entry list; on the unique-key trees the engine
builds this is the node's field pair). -/
def flagsAt (t : PTree) (i : Int) : Option (Bool × Bool) :=
  ((entries t).find? (fun e => decide (e.1 = i))).map (fun e => e.2)

/-- `n->flags |= ...` on the node with index `i` (no-op when absent;
callers check liveness first). -/
def orFlagsAt : PTree → Int → Bool → Bool → PTree
  | leaf, _, _, _ => leaf
  | node j sl sr p l r, i, asl, asr =>
    if i = j then node j (sl || asl) (sr || asr) p l r
    else node j sl sr p (orFlagsAt l i asl asr) (orFlagsAt r i asl asr)

/-- `n->flags = f` on the node with index `i` (used by `uniq_pivots`). -/
def setFlagsAt : PTree → Int → Bool → Bool → PTree
  | leaf, _, _, _ => leaf
  | node j sl sr p l r, i, nsl, nsr =>
    if i = j then node j nsl nsr p l r
    else node j sl sr p (setFlagsAt l i nsl nsr) (setFlagsAt r i nsl nsr)

/-- Plain BST attachment of a fresh node, descending from the root of
the given tree exactly as the placement loop of `insert_pivot` does.
`none` models the `SystemError` raised on a duplicate index. -/
def attach (k : Int) (sl sr : Bool) (prio : Nat) : PTree → Option PTree
  | leaf => some (node k sl sr prio leaf leaf)
  | node j jsl jsr jp l r =>
    if j < k then
      match attach k sl sr prio r with
      | some r2 => some (node j jsl jsr jp l r2)
      | none => none
    else if k < j then
      match attach k sl sr prio l with
      | some l2 => some (node j jsl jsr jp l2 r)
      | none => none
    else none

/-- The rotation loop of `insert_pivot`: after the new node `k` has been
attached as a leaf, it is rotated up while its priority strictly
exceeds its parent's.  Modelled on the path to `k`: on unwinding, if the
child subtree's root has become `k` and violates heap order, one
rotation is performed at this level. -/
def bubbleUp (k : Int) : PTree → PTree
  | leaf => leaf
  | node i sl sr p l r =>
    if k < i then
      match bubbleUp k l with
      | leaf => node i sl sr p leaf r
      | node li lsl lsr lp ll lr =>
        if li = k && decide (p < lp) then
          -- right rotation: parent adopts the bubbled node's right subtree
          node li lsl lsr lp ll (node i sl sr p lr r)
        else node i sl sr p (node li lsl lsr lp ll lr) r
    else if i < k then
      match bubbleUp k r with
      | leaf => node i sl sr p l leaf
      | node ri rsl rsr rp rl rr =>
        if ri = k && decide (p < rp) then
          -- left rotation: parent adopts the bubbled node's left subtree
          node ri rsl rsr rp (node i sl sr p l rl) rr
        else node i sl sr p l (node ri rsl rsr rp rl rr)
    else node i sl sr p l r

/-- BST attachment started at the node `hint` instead of the root
(`insert_pivot`'s `start` argument).  The hint's subtree is located by a
full scan (a pointer dereference); `Err.useAfterFree` when the hint has
been freed, `Err.dupPivot` when the descent from the hint meets `k`. -/
def attachFrom (hint k : Int) (sl sr : Bool) (prio : Nat) :
    PTree → Except Err PTree
  | leaf => .error .useAfterFree
  | node j jsl jsr jp l r =>
    if hint = j then
      match attach k sl sr prio (node j jsl jsr jp l r) with
      | some t2 => .ok t2
      | none => .error .dupPivot
    else
      match attachFrom hint k sl sr prio l with
      | .ok l2 => .ok (node j jsl jsr jp l2 r)
      | .error .useAfterFree =>
        match attachFrom hint k sl sr prio r with
        | .ok r2 => .ok (node j jsl jsr jp l r2)
        | .error e => .error e
      | .error e => .error e

/-- `merge_trees`: merge two treaps, all of `l` smaller than all of `r`,
letting the higher-priority root survive (`left->priority >
right->priority` keeps the left root). -/
def mergeF : Nat → PTree → PTree → PTree
  | 0, _, _ => leaf
  | _ + 1, leaf, r => r
  | _ + 1, node li lsl lsr lp ll lr, leaf => node li lsl lsr lp ll lr
  | fuel + 1, node li lsl lsr lp ll lr, node ri rsl rsr rp rl rr =>
    if rp < lp then
      node li lsl lsr lp ll (mergeF fuel lr (node ri rsl rsr rp rl rr))
    else
      node ri rsl rsr rp (mergeF fuel (node li lsl lsr lp ll lr) rl) rr

def mergeT (l r : PTree) : PTree := mergeF (l.size + r.size + 1) l r

/-- `delete_node` on the node with index `i` (located by BST descent,
which under the BST invariant finds exactly the node the C frees):
no children - unlink; one child - promote it; two children - replace by
`merge_trees` of the children. -/
def deleteIdx (i : Int) : PTree → PTree
  | leaf => leaf
  | node j sl sr p l r =>
    if i < j then node j sl sr p (deleteIdx i l) r
    else if j < i then node j sl sr p l (deleteIdx i r)
    else match l, r with
      | leaf, _ => r
      | node a b c d e f, leaf => node a b c d e f
      | node a b c d e f, node a2 b2 c2 d2 e2 f2 =>
        mergeT (node a b c d e f) (node a2 b2 c2 d2 e2 f2)

/-- `bound_idx`: descend from the root recording the last node with
index `< k` and the last with index `> k`; stops on an exact hit.
Returns (left, right) as the C does through its out-parameters. -/
def boundGo (k : Int) : PTree → Option Int → Option Int → Option Int × Option Int
  | leaf, l, r => (l, r)
  | node j _ _ _ tl tr, l, r =>
    if j < k then boundGo k tr (some j) r
    else if k < j then boundGo k tl l (some j)
    else (some j, r)

/-- `bound_idx` from the root. -/
def boundIdx (t : PTree) (k : Int) : Option Int × Option Int :=
  boundGo k t none none

/-- `next_pivot`: the in-order successor of index `i` (the C walks
child/parent pointers; on a BST this yields the smallest key `> i`). -/
def succIdx (t : PTree) (i : Int) : Option Int :=
  ((keys t).filter (fun j => decide (i < j))).head?

end PTree

/-- The collaborators of the engine: the two comparators, the random
stream and the `SORT_THRESH` constant (see the header comment). -/
structure Ctx (α : Type) where
  lt : α → α → Option Bool
  eq : α → α → Option Bool
  rng : Nat → Nat
  thresh : Nat

/-- The engine state: the list `xs`, the pivot tree root, the position
`rc` in the random stream, and the comparator call counter `cc`. -/
structure St (α : Type) where
  xs : List α
  root : PTree
  rc : Nat
  cc : Nat
deriving DecidableEq, Repr

section Engine

variable {α : Type} [Inhabited α] (ctx : Ctx α)

/-- `ob_item[i]` for `0 ≤ i` (all modelled reads are in bounds in the
verified paths). -/
def getI (A : List α) (i : Int) : α :=
  if i < 0 then default else A.getD i.toNat default

/-- `ob_item[i] = v`. -/
def setI (A : List α) (i : Int) (v : α) : List α :=
  if i < 0 then A else A.set i.toNat v

/-- The `SWAP(i, j)` macro. -/
def swapI (A : List α) (i j : Int) : List α :=
  let x := getI A i
  let y := getI A j
  setI (setI A i y) j x

/-- `rand()`. -/
def randSt (st : St α) : Nat × St α :=
  (ctx.rng st.rc, { st with rc := st.rc + 1 })

/-- A `Py_LT` comparison (`ISLT` with its error checked by the caller,
as in `IFLT`): bumps the call counter, `none` is a raised exception. -/
def callLt (a b : α) (st : St α) : St α × Except Err Bool :=
  match ctx.lt a b with
  | some v => ({ st with cc := st.cc + 1 }, .ok v)
  | none => ({ st with cc := st.cc + 1 }, .error .cmpFail)

/-- The unchecked `ISLT` of `insertion_sort`: a raised exception (-1)
is nonzero and therefore acts as `true` in the loop condition. -/
def isltLoose (a b : α) (st : St α) : St α × Bool :=
  match ctx.lt a b with
  | some v => ({ st with cc := st.cc + 1 }, v)
  | none => ({ st with cc := st.cc + 1 }, true)

/-- A `Py_EQ` comparison, error checked (`< 0`) by every caller. -/
def callEq (a b : α) (st : St α) : St α × Except Err Bool :=
  match ctx.eq a b with
  | some v => ({ st with cc := st.cc + 1 }, .ok v)
  | none => ({ st with cc := st.cc + 1 }, .error .cmpFail)

/-- `pick_pivot`: `left + rand() % (right - left)`. -/
def pick_pivot (l r : Int) (st : St α) : Int × St α :=
  let (v, st1) := randSt ctx st
  (l + (v % (r - l).toNat : Nat), st1)

/-- The scan loop of `partition` (Lomuto): for `i` in `[i0, r)`, if
`ob_item[i] < pivot` then `last_less++; SWAP(i, last_less)`.  The `Nat`
fuel makes the recursion structural so the kernel can evaluate it; every
caller passes more fuel than the loop has iterations, so the
fuel-exhausted branch is dead.  The same device is used for every loop
below.  -/
def partitionLoop (pivot : α) (r : Int) : Nat → Int → Int → St α → St α × Except Err Int
  | 0, _, _, st => (st, .error .unreachable)
  | fuel + 1, i, ll, st =>
    if i < r then
      match callLt ctx (getI st.xs i) pivot st with
      | (st1, .error e) => (st1, .error e)
      | (st1, .ok true) =>
        partitionLoop pivot r fuel (i + 1) (ll + 1) { st1 with xs := swapI st1.xs i (ll + 1) }
      | (st1, .ok false) => partitionLoop pivot r fuel (i + 1) ll st1
    else (st, .ok ll)

/-- `partition`: pick a random pivot in `[l, r)`, swap it to the front,
run the Lomuto scan, swap the pivot into place and return its index.
On a comparator failure the swaps already performed stay in place. -/
def partitionC (l r : Int) (st : St α) : St α × Except Err Int :=
  let (piv, st1) := pick_pivot ctx l r st
  let pivot := getI st1.xs piv
  let st2 := { st1 with xs := swapI st1.xs l piv }
  match partitionLoop ctx pivot r ((r - (l + 1)).toNat + 1) (l + 1) l st2 with
  | (st3, .error e) => (st3, .error e)
  | (st3, .ok ll) => ({ st3 with xs := swapI st3.xs l ll }, .ok ll)

/-- The inner shift loop of `insertion_sort`: while `j > 0` and
`tmp < ob_item[j-1]` (a raised comparator error counting as true),
shift `ob_item[j-1]` to `j`. -/
def insSortInner (tmp : α) : Nat → Int → St α → St α × Int
  | 0, j, st => (st, j)
  | fuel + 1, j, st =>
    if 0 < j then
      match isltLoose ctx tmp (getI st.xs (j - 1)) st with
      | (st1, true) =>
        insSortInner tmp fuel (j - 1) { st1 with xs := setI st1.xs j (getI st1.xs (j - 1)) }
      | (st1, false) => (st1, j)
    else (st, j)

/-- The outer loop of `insertion_sort` over `i` in `[i0, r)`. -/
def insSortOuter (r : Int) : Nat → Int → St α → St α
  | 0, _, st => st
  | fuel + 1, i, st =>
    if i < r then
      let tmp := getI st.xs i
      let (st1, j) := insSortInner ctx tmp (i.toNat + 1) i st
      insSortOuter r fuel (i + 1) { st1 with xs := setI st1.xs j tmp }
    else st

/-- `insertion_sort` on `[l, r)` (void in the C: comparator errors are
not propagated). -/
def insertion_sort (l r : Int) (st : St α) : St α :=
  insSortOuter ctx r ((r - l).toNat + 1) l st

/-- The recursion of `quick_sort`, fuelled: the fuel bounds the
recursion depth, and the top-level call provides enough. -/
def quickSortF : Nat → Int → Int → St α → St α × Except Err Unit
  | 0, _, _, st => (st, .error .unreachable)
  | fuel + 1, l, r, st =>
    if r - l ≤ (ctx.thresh : Int) then (insertion_sort ctx l r st, .ok ())
    else
      match partitionC ctx l r st with
      | (st1, .error e) => (st1, .error e)
      | (st1, .ok piv) =>
        match quickSortF fuel l piv st1 with
        | (st2, .error e) => (st2, .error e)
        | (st2, .ok _) => quickSortF fuel (piv + 1) r st2

/-- `quick_sort` on `[l, r)`: plain quicksort, no pivot bookkeeping.
Regions of at most `SORT_THRESH` elements go to `insertion_sort`. -/
def quick_sort (l r : Int) (st : St α) : St α × Except Err Unit :=
  quickSortF ctx ((r - l).toNat + 1) l r st

/-- `insert_pivot`: allocate a node, draw its priority from `rand()`,
place it by BST descent from `hint` and rotate it up.  The empty-tree
special case only occurs during construction. -/
def insert_pivot (k : Int) (sl sr : Bool) (hint : Int) (st : St α) :
    St α × Except Err Unit :=
  let (p, st1) := randSt ctx st
  match st1.root with
  | .leaf => ({ st1 with root := .node k sl sr p .leaf .leaf }, .ok ())
  | t =>
    match PTree.attachFrom hint k sl sr p t with
    | .ok t2 => ({ st1 with root := PTree.bubbleUp k t2 }, .ok ())
    | .error e => (st1, .error e)

/-- `uniq_pivots(left, middle, right)`: if the value at `middle` equals
the value at `left` (for non-sentinel `left`), `middle` inherits
`left`'s flags and `left` is deleted; symmetrically on the right. -/
def uniq_pivots (l m r : Int) (st : St α) : St α × Except Err Unit :=
  let N := (st.xs.length : Int)
  let step1 : St α × Except Err Unit :=
    if 0 ≤ l then
      match callEq ctx (getI st.xs l) (getI st.xs m) st with
      | (st1, .error e) => (st1, .error e)
      | (st1, .ok true) =>
        match st1.root.flagsAt l with
        | none => (st1, .error .useAfterFree)
        | some (lsl, lsr) =>
          ({ st1 with root := (st1.root.setFlagsAt m lsl lsr).deleteIdx l }, .ok ())
      | (st1, .ok false) => (st1, .ok ())
    else (st, .ok ())
  match step1 with
  | (st1, .error e) => (st1, .error e)
  | (st1, .ok _) =>
    if r < N then
      match callEq ctx (getI st1.xs m) (getI st1.xs r) st1 with
      | (st2, .error e) => (st2, .error e)
      | (st2, .ok true) =>
        match st2.root.flagsAt r with
        | none => (st2, .error .useAfterFree)
        | some (rsl, rsr) =>
          ({ st2 with root := (st2.root.setFlagsAt m rsl rsr).deleteIdx r }, .ok ())
      | (st2, .ok false) => (st2, .ok ())
    else (st1, .ok ())

/-- `depivot(left, right)`: remove a bound that now sits between two
sorted regions (`left` when it also has `SORTED_RIGHT`, `right` when it
also has `SORTED_LEFT`). -/
def depivot (l r : Int) (st : St α) : St α × Except Err Unit :=
  match st.root.flagsAt l, st.root.flagsAt r with
  | some (_, lsr), some (rsl, _) =>
    let st1 := if lsr then { st with root := st.root.deleteIdx l } else st
    let st2 := if rsl then { st1 with root := st1.root.deleteIdx r } else st1
    (st2, .ok ())
  | _, _ => (st, .error .useAfterFree)

/-- The quickselect loop of `sort_point`, with the current bounding
pivots held as indices `l`, `r` (the C holds dangling-capable node
pointers; each loop-condition read of `left->idx`/`right->idx` is a
dereference, modelled by the liveness checks).  On a comparator failure
inside `partition` the C carries on with `piv_idx == -1` into
`insert_pivot`, which either raises `SystemError` at the `-1` sentinel
or commits out-of-bounds reads in `uniq_pivots`; every such
continuation ends the operation with an error, which the model returns
directly. -/
def sortPointLoop (k : Int) : Nat → Int → Int → St α → St α × Except Err Unit
  | 0, _, _, st => (st, .error .unreachable)
  | fuel + 1, l, r, st =>
    if ¬ st.root.memT l then (st, .error .useAfterFree)
    else if ¬ st.root.memT r then (st, .error .useAfterFree)
    else if l + 1 + (ctx.thresh : Int) ≤ r then
      match partitionC ctx (l + 1) r st with
      | (st1, .error e) => (st1, .error e)
      | (st1, .ok piv) =>
        -- hint: the left bound when it has no right child, else the right
        let hint := match st1.root.findNode l with
          | some (.node _ _ _ _ _ .leaf) => l
          | _ => r
        match insert_pivot ctx piv false false hint st1 with
        | (st2, .error e) => (st2, .error e)
        | (st2, .ok _) =>
          match uniq_pivots ctx l piv r st2 with
          | (st3, .error e) => (st3, .error e)
          | (st3, .ok _) =>
            if piv < k then sortPointLoop k fuel piv r st3
            else if k < piv then sortPointLoop k fuel l piv st3
            else (st3, .ok ())
    else
      let st1 := insertion_sort ctx (l + 1) r st
      let st2 := { st1 with
        root := (st1.root.orFlagsAt l true false).orFlagsAt r false true }
      depivot l r st2

/-- `sort_point(k)`: make `ob_item[k]` the k-th order statistic.  The
release build executes no assertions; a NULL `left` or `right` from
`bound_idx` is dereferenced right here, which the model reports as
`nullDeref`. -/
def sort_point (k : Int) (st : St α) : St α × Except Err Unit :=
  match st.root.boundIdx k with
  | (none, _) => (st, .error .nullDeref)
  | (some l, ro) =>
    if l = k then (st, .ok ())
    else
      match ro with
      | none => (st, .error .nullDeref)
      | some r =>
        match st.root.flagsAt r with
        | none => (st, .error .useAfterFree)
        | some (_, rsr) =>
          if rsr then (st, .ok ())
          else sortPointLoop ctx k ((r - l).toNat + 1) l r st

/-- The after-loop epilogue of `sort_range`: delete the terminal pivot
when it has become `SORTED_BOTH`. -/
def sortRangeExit (stop : Int) (cur : Int) (st : St α) : St α × Except Err Unit :=
  match st.root.flagsAt cur with
  | none => (st, .error .useAfterFree)
  | some (csl, _) =>
    (if csl then { st with root := st.root.deleteIdx cur } else st, .ok ())

/-- The region walk of `sort_range`.  The C computes `next =
next_pivot(current)` at the end of the previous iteration with no tree
mutation in between, so recomputing it at the head of the body is the
same value.  Note the result of `quick_sort` is discarded exactly as
the C discards it. -/
def sortRangeLoop (stop : Int) : Nat → Int → St α → St α × Except Err Unit
  | 0, _, st => (st, .error .unreachable)
  | fuel + 1, cur, st =>
    if cur < stop then
      match st.root.flagsAt cur with
      | none => (st, .error .useAfterFree)
      | some (csl, _) =>
        match st.root.succIdx cur with
        | none => (st, .error .nullDeref)
        | some nxt =>
          let st1 := if csl then st
            else
              let (stq, _) := quick_sort ctx (cur + 1) nxt st
              { stq with
                root := (stq.root.orFlagsAt cur true false).orFlagsAt nxt false true }
          match st1.root.flagsAt cur with
          | none => (st1, .error .useAfterFree)
          | some (_, csr) =>
            let st2 := if csr then { st1 with root := st1.root.deleteIdx cur } else st1
            sortRangeLoop stop fuel nxt st2
    else sortRangeExit stop cur st

/-- `sort_range(start, stop)`: sort everything in `[start, stop)`.  The
entry assertion `0 <= start && start < stop && stop <= N` documents the
precondition established by every caller (the slice machinery); it is
modelled as a guard. -/
def sort_range (start stop : Int) (st : St α) : St α × Except Err Unit :=
  if 0 ≤ start ∧ start < stop ∧ stop ≤ (st.xs.length : Int) then
    match sort_point ctx start st with
    | (st1, .error e) => (st1, .error e)
    | (st1, .ok _) =>
      match sort_point ctx stop st1 with
      | (st2, .error e) => (st2, .error e)
      | (st2, .ok _) =>
        match st2.root.boundIdx start with
        | (none, _) => (st2, .error .nullDeref)
        | (some cur, _) => sortRangeLoop ctx stop ((stop - cur).toNat + 1) cur st2
  else (st, .error .assertViol)

/-- The BST descent of `find_item`, keyed by `lt(ob_item[node->idx],
item)`; the sentinels compare asymmetrically. -/
def findDescent (x : α) (xsLen : Int) :
    PTree → Option Int → Option Int → St α → St α × Except Err (Option Int × Option Int)
  | .leaf, l, r, st => (st, .ok (l, r))
  | .node j _ _ _ tl tr, l, r, st =>
    if j = -1 then findDescent x xsLen tr (some j) r st
    else if j = xsLen then findDescent x xsLen tl l (some j) st
    else
      match callLt ctx (getI st.xs j) x st with
      | (st1, .error e) => (st1, .error e)
      | (st1, .ok true) => findDescent x xsLen tr (some j) r st1
      | (st1, .ok false) => findDescent x xsLen tl l (some j) st1

/-- Outcome of the quickselect loop of `find_item`: final bounds, the
`-1` returned when `uniq_pivots` fails (the C folds this comparator
failure into its not-found result), or an abort. -/
inductive FindOut where
  | bounds (l r : Int)
  | uniqFailNotFound
  | fail (e : Err)
deriving DecidableEq, Repr

/-- The quickselect loop of `find_item`, steering by comparing the
partition pivot's value with the searched item. -/
def findLoop (x : α) : Nat → Int → Int → St α → St α × FindOut
  | 0, _, _, st => (st, .fail .unreachable)
  | fuel + 1, l, r, st =>
    if ¬ st.root.memT l then (st, .fail .useAfterFree)
    else if ¬ st.root.memT r then (st, .fail .useAfterFree)
    else if l + 1 + (ctx.thresh : Int) ≤ r then
      match partitionC ctx (l + 1) r st with
      | (st1, .error e) => (st1, .fail e)
      | (st1, .ok piv) =>
        match callLt ctx (getI st1.xs piv) x st1 with
        | (st2, .error e) => (st2, .fail e)
        | (st2, .ok ltRes) =>
          let hint := match st2.root.findNode l with
            | some (.node _ _ _ _ _ .leaf) => l
            | _ => r
          match insert_pivot ctx piv false false hint st2 with
          | (st3, .error e) => (st3, .fail e)
          | (st3, .ok _) =>
            match uniq_pivots ctx l piv r st3 with
            | (st4, .error .cmpFail) => (st4, .uniqFailNotFound)
            | (st4, .error e) => (st4, .fail e)
            | (st4, .ok _) =>
              if ltRes then findLoop x fuel piv r st4
              else findLoop x fuel l piv st4
    else (st, .bounds l r)

/-- The final linear scan of `find_item` for the first index holding a
value equal to `item` (`-1` when the region holds none). -/
def findScan (x : α) (rIdx : Int) : Nat → Int → St α → St α × Except Err Int
  | 0, _, st => (st, .error .unreachable)
  | fuel + 1, k, st =>
    if k < rIdx then
      match callEq ctx x (getI st.xs k) st with
      | (st1, .error e) => (st1, .error e)
      | (st1, .ok true) => (st1, .ok k)
      | (st1, .ok false) => findScan x rIdx fuel (k + 1) st1
    else (st, .ok (-1))

/-- `find_item(item)`: first index of `item`, `-1` when absent
(modelled result `.ok (-1)`); comparator failures surface as errors
(`-2` in the C), except the `uniq_pivots` failure the C reports as a
plain not-found. -/
def find_item (x : α) (st : St α) : St α × Except Err Int :=
  match findDescent ctx x (st.xs.length : Int) st.root none none st with
  | (st1, .error e) => (st1, .error e)
  | (st1, .ok (none, _)) => (st1, .error .nullDeref)
  | (st1, .ok (some l0, ro)) =>
    match st1.root.flagsAt l0 with
    | none => (st1, .error .useAfterFree)
    | some (lsl, _) =>
      match ro with
      | none => (st1, .error .nullDeref)
      | some r0 =>
        if lsl then
          let rIdx := if r0 = (st1.xs.length : Int) then r0 else r0 + 1
          findScan ctx x rIdx ((rIdx - (l0 + 1)).toNat + 1) (l0 + 1) st1
        else
          match findLoop ctx x ((r0 - l0).toNat + 1) l0 r0 st1 with
          | (st2, .uniqFailNotFound) => (st2, .ok (-1))
          | (st2, .fail e) => (st2, .error e)
          | (st2, .bounds l r) =>
            let rIdx := if r = (st2.xs.length : Int) then r else r + 1
            let st3 := insertion_sort ctx (l + 1) r st2
            let st4 := { st3 with
              root := (st3.root.orFlagsAt l true false).orFlagsAt r false true }
            match depivot l r st4 with
            | (st5, .error e) => (st5, .error e)
            | (st5, .ok _) => findScan ctx x rIdx ((rIdx - (l + 1)).toNat + 1) (l + 1) st5

/-- The integer-index case of `ls_subscript` (`get(k)`). -/
def ls_subscript_int (k0 : Int) (st : St α) : St α × Except Err α :=
  let N := (st.xs.length : Int)
  let k := if k0 < 0 then k0 + N else k0
  if k < 0 ∨ N ≤ k then (st, .error .indexErr)
  else
    match sort_point ctx k st with
    | (st1, .error e) => (st1, .error e)
    | (st1, .ok _) => (st1, .ok (getI st1.xs k))

/-- `between(a, b)`: clamp the bounds (exactly as the C does), then
`sort_point` each end and return the occupants of `[a, b)`. -/
def between (a b : Int) (st : St α) : St α × Except Err (List α) :=
  let xlen := (st.xs.length : Int)
  let l := if a < 0 then a + xlen else if xlen < a then xlen else a
  let r := if b < 0 then b + xlen else if xlen < b then xlen else b
  if r ≤ l ∨ r ≤ 0 then (st, .ok [])
  else
    let step1 : St α × Except Err Unit :=
      if l ≠ 0 then sort_point ctx l st else (st, .ok ())
    match step1 with
    | (st1, .error e) => (st1, .error e)
    | (st1, .ok _) =>
      let step2 : St α × Except Err Unit :=
        if r ≠ xlen then sort_point ctx r st1 else (st1, .ok ())
      match step2 with
      | (st2, .error e) => (st2, .error e)
      | (st2, .ok _) => (st2, .ok ((st2.xs.drop l.toNat).take (r - l).toNat))

/-- `ls_index`: `find_item`, reporting absence as the distinct
not-found error (`ValueError` in the C). -/
def ls_index (x : α) (st : St α) : St α × Except Err Int :=
  match find_item ctx x st with
  | (st1, .error e) => (st1, .error e)
  | (st1, .ok v) => if v = -1 then (st1, .error .notFound) else (st1, .ok v)

/-- `ls_contains`. -/
def ls_contains (x : α) (st : St α) : St α × Except Err Bool :=
  match find_item ctx x st with
  | (st1, .error e) => (st1, .error e)
  | (st1, .ok v) => (st1, .ok (decide (v ≠ -1)))

/-- The pivot walk of `ls_count`: advance `right` through the pivots
while the value there still equals `item`; the final `right` is the
successor of the first pivot that differs. -/
def countPivotWalk (x : α) (xsLen : Int) : Nat → Int → St α → St α × Except Err Int
  | 0, _, st => (st, .error .unreachable)
  | fuel + 1, r, st =>
    if r < xsLen then
      match callEq ctx x (getI st.xs r) st with
      | (st1, .error e) => (st1, .error e)
      | (st1, .ok c) =>
        match st1.root.succIdx r with
        | none => (st1, .error .nullDeref)
        | some r2 =>
          if c then countPivotWalk x xsLen fuel r2 st1
          else (st1, .ok r2)
    else (st, .ok r)

/-- The counting scan of `ls_count` over `[k, stop)`. -/
def countScan (x : α) (stop : Int) : Nat → Int → Nat → St α → St α × Except Err Nat
  | 0, _, acc, st => (st, .ok acc)
  | fuel + 1, k, acc, st =>
    if k < stop then
      match callEq ctx x (getI st.xs k) st with
      | (st1, .error e) => (st1, .error e)
      | (st1, .ok true) => countScan x stop fuel (k + 1) (acc + 1) st1
      | (st1, .ok false) => countScan x stop fuel (k + 1) acc st1
    else (st, .ok acc)

/-- `ls_count`. -/
def ls_count (x : α) (st : St α) : St α × Except Err Nat :=
  match find_item ctx x st with
  | (st1, .error e) => (st1, .error e)
  | (st1, .ok v) =>
    if v = -1 then (st1, .ok 0)
    else
      match st1.root.boundIdx v with
      | (none, _) => (st1, .error .nullDeref)
      | (some l, ro) =>
        let r0 := match ro with
          | some r => some r
          | none => st1.root.succIdx l
        match r0 with
        | none => (st1, .error .nullDeref)
        | some r =>
          match countPivotWalk ctx x (st1.xs.length : Int) (((st1.xs.length : Int) - r).toNat + 1) r st1 with
          | (st2, .error e) => (st2, .error e)
          | (st2, .ok rFin) => countScan ctx x rFin ((rFin - (v + 1)).toNat + 1) (v + 1) 1 st2

/-- Construction: `newLSObject` installs the `-1` sentinel,
`LS_init` the `N` sentinel (with the root, the `-1` node, as hint). -/
def initSt (A : List α) : St α :=
  let st0 : St α := { xs := A, root := .leaf, rc := 0, cc := 0 }
  let st1 := (insert_pivot ctx (-1) false false (-1) st0).1
  (insert_pivot ctx (A.length : Int) false false (-1) st1).1

/-- The public operations of the container facade; each is a thin
reduction to the engine primitives. -/
inductive Op (α : Type) where
  | get (k : Int)
  | slice (a b : Int)
  | betw (a b : Int)
  | indexOf (x : α)
  | countOf (x : α)
  | containsItem (x : α)

/-- Apply one public operation, keeping the state it leaves behind
(also on error: an aborted operation leaves its mutations in place). -/
def applyOp (op : Op α) (st : St α) : St α :=
  match op with
  | .get k => (ls_subscript_int ctx k st).1
  | .slice a b => (sort_range ctx a b st).1
  | .betw a b => (between ctx a b st).1
  | .indexOf x => (ls_index ctx x st).1
  | .countOf x => (ls_count ctx x st).1
  | .containsItem x => (ls_contains ctx x st).1

/-- Run a sequence of public operations. -/
def runOps (ops : List (Op α)) (st : St α) : St α :=
  ops.foldl (fun s op => applyOp ctx op s) st

end Engine


/-! ## Concrete instances

Contexts and states used to evaluate the engine at specific inputs.
`intCtx` is the canonical comparator over `Int` (never failing, agreeing
with the linear order); `failCtx`-style contexts fail on the marker
value 999, modelling an element whose comparison raises. -/

/-- Canonical integer context: comparators from the linear order of
`Int`, the random stream drawn from a list (0 beyond its end), and the
given `SORT_THRESH`. -/
def intCtx (rs : List Nat) (th : Nat) : Ctx Int :=
  { lt := fun a b => some (decide (a < b)),
    eq := fun a b => some (decide (a = b)),
    rng := fun i => rs.getD i 0,
    thresh := th }

/-- Context whose comparators raise whenever the marker element 999 is
involved. -/
def failCtx (rs : List Nat) (th : Nat) : Ctx Int :=
  { lt := fun a b => if a = 999 ∨ b = 999 then none else some (decide (a < b)),
    eq := fun a b => if a = 999 ∨ b = 999 then none else some (decide (a = b)),
    rng := fun i => rs.getD i 0,
    thresh := th }

/-- A 28-element list with a duplicated value 50: twelve values below
50, three copies of 50, thirteen values above it. -/
def uafList : List Int :=
  [0, 1, 2, 3, 4, 5, 6, 7, 8, 9, 10, 11] ++ [50, 50, 50] ++
  [60, 61, 62, 63, 64, 65, 66, 67, 68, 69, 70, 71, 72]

/-- The drawn pivots for the four queries of the use-after-free trace
(`SORT_THRESH` = 12, within the spec's 12-16 suggestion). -/
def uafCtx : Ctx Int := intCtx [0, 0, 12, 0, 0, 0, 0, 0, 12, 0] 12

/-- Fresh engine on `uafList`. -/
def uafState0 : St Int := initSt uafCtx uafList

/-- After `get(12)` (answered 50, pivot 12 created). -/
def uafState1 : St Int := (ls_subscript_int uafCtx 12 uafState0).1

/-- After `get(13)` (answered 50; `uniq_pivots` merged pivot 12 into the
new pivot 13 because both hold 50). -/
def uafState2 : St Int := (ls_subscript_int uafCtx 13 uafState1).1

/-- After `get(14)` (answered 50; pivot 13 merged into 14 likewise).
The live pivots are now `{-1, 14, 28}` with stale copies of 50 at
positions 12 and 13 inside the region `(-1, 14)`. -/
def uafState3 : St Int := (ls_subscript_int uafCtx 14 uafState2).1

/-- The list for the `sort_range` comparator-failure run: separators at
12 (value 20) and 26 (value 1000), and an unsorted middle region
containing the failing marker 999. -/
def srList : List Int :=
  [0, 1, 2, 3, 4, 5, 6, 7, 8, 9, 10, 11] ++ [20] ++
  [30, 41, 999, 31, 40, 32, 39, 33, 38, 34, 37, 35, 36] ++ [1000]

/-- A valid engine state on `srList`: pivots `{-1, 12, 26, 27}`, all
`UNSORTED`; 12 and 26 are genuine separators of `srList`, the tree is a
BST with equal priorities.  (Reachable by two exact-hit point queries;
written out directly.) -/
def srState : St Int :=
  { xs := srList,
    root := .node (-1) false false 0 .leaf
      (.node 27 false false 0
        (.node 12 false false 0 .leaf (.node 26 false false 0 .leaf .leaf)) .leaf),
    rc := 0, cc := 0 }

/-- The failing-comparator context for the `sort_range` run. -/
def srCtx : Ctx Int := failCtx [] 12

/-- Fresh 3-element engine for the `between` clamping run. -/
def btwState : St Int := initSt (intCtx [] 12) [10, 20, 30]

/-- 5-element list with the failing marker in the middle: the Lomuto
scan of `partition` performs its initial swap, then dies at 999. -/
def pfList : List Int := [1, 5, 2, 999, 0]

/-- State wrapping `pfList` (partition reads no tree). -/
def pfState : St Int := { xs := pfList, root := .leaf, rc := 0, cc := 0 }

/-- Failing context drawing pivot index 1 for `pfList`. -/
def pfCtx : Ctx Int := failCtx [1] 12

/-- The same drawing with the canonical (never-failing) comparator:
what the completed partition would produce. -/
def pfOkCtx : Ctx Int := intCtx [1] 12

/-! ## Specification predicates

The global invariants of spec section 3, phrased over the embedding. -/

section Predicates

variable {α : Type} [Inhabited α] [LinearOrder α]

/-- The canonical context over a linear order: the comparators decide
the order and never fail. -/
def canonCtx (rng : Nat → Nat) (th : Nat) : Ctx α :=
  { lt := fun a b => some (decide (a < b)),
    eq := fun a b => some (decide (a = b)),
    rng := rng,
    thresh := th }

/-- The sorted permutation of a list (`sorted(A)` of the spec). -/
def sortedL (A : List α) : List α := A.insertionSort (· ≤ ·)

/-- Positions `[l, r)` of `A` hold a nondecreasing run. -/
def sortedSeg (A : List α) (l r : Int) : Prop :=
  ∀ i j : Int, l ≤ i → i ≤ j → j < r → getI A i ≤ getI A j

/-- Position `p` is a separator of `A`: everything at a smaller position
is `≤ A[p]`, everything at a larger position is `≥ A[p]` (invariant 3 of
the spec, the quickselect invariant). -/
def sepAt (A : List α) (p : Int) : Prop :=
  (∀ j : Int, 0 ≤ j → j < p → getI A j ≤ getI A p) ∧
  (∀ j : Int, p < j → j < (A.length : Int) → getI A p ≤ getI A j)

/-- `B` is reachable from `A` by swaps confined to positions `[lo, hi)`:
same length, identical outside, and every value inside is a value `A`
held inside (the image form is what the invariant proofs consume). -/
def PermWithin (A B : List α) (lo hi : Int) : Prop :=
  B.length = A.length ∧
  (∀ i : Int, i < lo ∨ hi ≤ i → getI B i = getI A i) ∧
  (∀ j : Int, lo ≤ j → j < hi → ∃ j0 : Int, lo ≤ j0 ∧ j0 < hi ∧ getI B j = getI A j0)

end Predicates

namespace PTree

/-- A tree is a BST exactly when its in-order key list is strictly
increasing. -/
def IsBST (t : PTree) : Prop := (keys t).Sorted (· < ·)

/-- Root priority bounded by `p` (for the treap heap order). -/
def PrioLe : PTree → Nat → Prop
  | leaf, _ => True
  | node _ _ _ q _ _, p => q ≤ p

/-- The treap max-heap order on priorities. -/
def IsHeap : PTree → Prop
  | leaf => True
  | node _ _ _ p l r => PrioLe l p ∧ PrioLe r p ∧ IsHeap l ∧ IsHeap r

/-- The `SORTED_LEFT` bit of the node at `i` (false when absent). -/
def slAt (t : PTree) (i : Int) : Bool :=
  match flagsAt t i with
  | some (s, _) => s
  | none => false

/-- The `SORTED_RIGHT` bit of the node at `i` (false when absent). -/
def srAt (t : PTree) (i : Int) : Bool :=
  match flagsAt t i with
  | some (_, s) => s
  | none => false

/-- The in-order predecessor key of `i` (largest key `< i`). -/
def predIdx (t : PTree) (i : Int) : Option Int :=
  ((keys t).filter (fun j => decide (j < i))).getLast?

end PTree

section Invariant

variable {α : Type} [Inhabited α] [LinearOrder α]

/-- The global invariants of spec section 3 that hold between public
operations, without the sorted-region semantics: the tree is a BST, the
two sentinels are present, keys are in range, every interior pivot is a
separator, the `SORTED_LEFT`/`SORTED_RIGHT` bits pair up between
in-order neighbours, and sentinels never carry the flag that would mark
them removable. -/
structure EngInv (st : St α) : Prop where
  bst : st.root.IsBST
  sentL : st.root.memT (-1) = true
  sentR : st.root.memT (st.xs.length : Int) = true
  range : ∀ k ∈ st.root.keys, -1 ≤ k ∧ k ≤ (st.xs.length : Int)
  seps : ∀ k ∈ st.root.keys, 0 ≤ k → k < (st.xs.length : Int) → sepAt st.xs k
  strictVals : ∀ p ∈ st.root.keys, 0 ≤ p → ∀ q ∈ st.root.keys, p < q →
    q < (st.xs.length : Int) → getI st.xs p < getI st.xs q
  slOK : ∀ k ∈ st.root.keys, st.root.slAt k = true →
    ∃ q, st.root.succIdx k = some q ∧ st.root.srAt q = true
  srOK : ∀ k ∈ st.root.keys, st.root.srAt k = true →
    ∃ p, st.root.predIdx k = some p ∧ st.root.slAt p = true
  sentLFlag : st.root.srAt (-1) = false
  sentRFlag : st.root.slAt (st.xs.length : Int) = false

/-- `EngInv` together with the meaning of the flags (invariant 4 of the
spec): the region to the right of a `SORTED_LEFT` pivot, up to its
in-order successor, really is sorted. -/
structure RegInv (st : St α) : Prop where
  toEngInv : EngInv st
  slSorted : ∀ k ∈ st.root.keys, st.root.slAt k = true →
    ∀ q, st.root.succIdx k = some q → sortedSeg st.xs (k + 1) q

end Invariant


section Canon

variable {α : Type} [Inhabited α] [LinearOrder α]

/-- The `lt` comparator decides the order and never fails. -/
def CanonLt (ctx : Ctx α) : Prop := ∀ a b : α, ctx.lt a b = some (decide (a < b))

/-- The `eq` comparator decides equality and never fails. -/
def CanonEq (ctx : Ctx α) : Prop := ∀ a b : α, ctx.eq a b = some (decide (a = b))

end Canon


/-- 5-element state for the insertion-sort frame witness: position 1
(value 1) is a separator of its list. -/
def insFrameState : St Int := { xs := [0, 1, 5, 3, 9], root := .leaf, rc := 0, cc := 0 }

/-! ## Lemmas -/

section ListLemmas

variable {α : Type} [Inhabited α]

theorem length_setI (A : List α) (i : Int) (v : α) : (setI A i v).length = A.length := by
  unfold setI
  split <;> simp

theorem getI_setI_same (A : List α) {i : Int} (v : α) (h0 : 0 ≤ i)
    (h : i < (A.length : Int)) : getI (setI A i v) i = v := by
  unfold getI setI
  rw [if_neg (by omega), if_neg (by omega)]
  have hlt : i.toNat < A.length := by omega
  simp [List.getD, List.getElem?_set_self, hlt]

theorem getI_setI_other (A : List α) {i j : Int} (v : α) (h : j ≠ i) :
    getI (setI A i v) j = getI A j := by
  unfold getI setI
  by_cases hj : j < 0
  · simp [hj]
  · rw [if_neg hj]
    split
    · rfl
    · rename_i hi
      have hne : i.toNat ≠ j.toNat := by omega
      simp [List.getD, List.getElem?_set_ne hne]

theorem length_swapI (A : List α) (i j : Int) : (swapI A i j).length = A.length := by
  unfold swapI
  simp [length_setI]

theorem getI_swapI_fst (A : List α) {i j : Int} (h0 : 0 ≤ i) (hi : i < (A.length : Int))
    (hj : j ≠ i) : getI (swapI A i j) i = getI A j := by
  unfold swapI
  rw [getI_setI_other _ _ hj.symm, getI_setI_same _ _ h0 hi]

theorem getI_swapI_snd (A : List α) {i j : Int} (h0 : 0 ≤ j) (hjl : j < (A.length : Int)) :
    getI (swapI A i j) j = getI A i := by
  unfold swapI
  rw [getI_setI_same]
  · exact h0
  · rw [length_setI]; exact hjl

theorem getI_swapI_other (A : List α) {i j m : Int} (hmi : m ≠ i) (hmj : m ≠ j) :
    getI (swapI A i j) m = getI A m := by
  unfold swapI
  rw [getI_setI_other _ _ hmj, getI_setI_other _ _ hmi]

end ListLemmas

section PermWithinLemmas

variable {α : Type} [Inhabited α] [LinearOrder α]

theorem permWithin_refl (A : List α) (lo hi : Int) : PermWithin A A lo hi :=
  ⟨rfl, fun _ _ => rfl, fun j hj hj2 => ⟨j, hj, hj2, rfl⟩⟩

theorem permWithin_trans {A B C : List α} {lo hi : Int}
    (h1 : PermWithin A B lo hi) (h2 : PermWithin B C lo hi) : PermWithin A C lo hi := by
  obtain ⟨hl1, hf1, hp1⟩ := h1
  obtain ⟨hl2, hf2, hp2⟩ := h2
  refine ⟨hl2.trans hl1, fun i hi => (hf2 i hi).trans (hf1 i hi), fun j hj hj2 => ?_⟩
  obtain ⟨j1, hj1, hj12, he1⟩ := hp2 j hj hj2
  obtain ⟨j0, hj0, hj02, he0⟩ := hp1 j1 hj1 hj12
  exact ⟨j0, hj0, hj02, he1.trans he0⟩

theorem permWithin_mono {A B : List α} {lo hi lo2 hi2 : Int}
    (h : PermWithin A B lo hi) (hlo : lo2 ≤ lo) (hhi : hi ≤ hi2) :
    PermWithin A B lo2 hi2 := by
  obtain ⟨hl, hf, hp⟩ := h
  refine ⟨hl, fun i hi => hf i (by omega), fun j hj hj2 => ?_⟩
  by_cases hin : lo ≤ j ∧ j < hi
  · obtain ⟨j0, hj0, hj02, he⟩ := hp j hin.1 hin.2
    exact ⟨j0, by omega, by omega, he⟩
  · exact ⟨j, hj, hj2, hf j (by omega)⟩

theorem permWithin_swap (A : List α) {lo hi i j : Int}
    (h1 : lo ≤ i) (h2 : i < hi) (h3 : lo ≤ j) (h4 : j < hi)
    (h5 : 0 ≤ lo) (h6 : hi ≤ (A.length : Int)) :
    PermWithin A (swapI A i j) lo hi := by
  refine ⟨length_swapI A i j, fun m hm => ?_, fun m hm hm2 => ?_⟩
  · exact getI_swapI_other A (by omega) (by omega)
  · by_cases hmj : m = j
    · refine ⟨i, h1, h2, ?_⟩
      rw [hmj]
      exact getI_swapI_snd A (by omega) (by omega)
    · by_cases hmi : m = i
      · refine ⟨j, h3, h4, ?_⟩
        rw [hmi]
        refine getI_swapI_fst A (by omega) (by omega) ?_
        intro hji
        exact hmj (by rw [hmi, hji])
      · exact ⟨m, hm, hm2, getI_swapI_other A hmi hmj⟩

theorem sepAt_of_permWithin {A B : List α} {lo hi p : Int}
    (h : PermWithin A B lo hi) (hlo : 0 ≤ lo) (hhi : hi ≤ (A.length : Int))
    (hp : p < lo ∨ hi ≤ p) (hs : sepAt A p) : sepAt B p := by
  obtain ⟨hl, hf, hi2⟩ := h
  obtain ⟨hs1, hs2⟩ := hs
  have hBp : getI B p = getI A p := hf p hp
  constructor
  · intro j hj0 hjp
    by_cases hin : lo ≤ j ∧ j < hi
    · obtain ⟨j0, hj0l, hj0h, he⟩ := hi2 j hin.1 hin.2
      rw [he, hBp]
      rcases hp with hp | hp
      · omega
      · exact hs1 j0 (by omega) (by omega)
    · rw [hf j (by omega), hBp]
      exact hs1 j hj0 hjp
  · intro j hjp hjl
    rw [hl] at hjl
    by_cases hin : lo ≤ j ∧ j < hi
    · obtain ⟨j0, hj0l, hj0h, he⟩ := hi2 j hin.1 hin.2
      rw [he, hBp]
      rcases hp with hp | hp
      · exact hs2 j0 (by omega) (by omega)
      · omega
    · rw [hf j (by omega), hBp]
      exact hs2 j hjp hjl

theorem sortedSeg_of_permWithin {A B : List α} {lo hi a b : Int}
    (h : PermWithin A B lo hi) (hd : b ≤ lo ∨ hi ≤ a) (hs : sortedSeg A a b) :
    sortedSeg B a b := by
  intro i j hi hij hj
  rw [h.2.1 i (by omega), h.2.1 j (by omega)]
  exact hs i j hi hij hj

end PermWithinLemmas


section PartitionLemmas

variable {α : Type} [Inhabited α] [LinearOrder α] (ctx : Ctx α)

theorem canonCtx_lt (rng : Nat → Nat) (th : Nat) :
    CanonLt (canonCtx (α := α) rng th) := fun _ _ => rfl

theorem canonCtx_eq (rng : Nat → Nat) (th : Nat) :
    CanonEq (canonCtx (α := α) rng th) := fun _ _ => rfl

theorem intCtx_lt (rs : List Nat) (th : Nat) : CanonLt (intCtx rs th) := fun _ _ => rfl

theorem intCtx_eq (rs : List Nat) (th : Nat) : CanonEq (intCtx rs th) := fun _ _ => rfl

theorem callLt_canon {ctx : Ctx α} (hc : CanonLt ctx) (a b : α) (st : St α) :
    callLt ctx a b st = ({ st with cc := st.cc + 1 }, .ok (decide (a < b))) := by
  unfold callLt
  rw [hc a b]

theorem callEq_canon {ctx : Ctx α} (hc : CanonEq ctx) (a b : α) (st : St α) :
    callEq ctx a b st = ({ st with cc := st.cc + 1 }, .ok (decide (a = b))) := by
  unfold callEq
  rw [hc a b]

theorem callLt_state (a b : α) (st : St α) :
    (callLt ctx a b st).1.xs = st.xs ∧ (callLt ctx a b st).1.root = st.root ∧
      (callLt ctx a b st).1.rc = st.rc := by
  unfold callLt
  cases ctx.lt a b <;> simp

theorem callEq_state (a b : α) (st : St α) :
    (callEq ctx a b st).1.xs = st.xs ∧ (callEq ctx a b st).1.root = st.root ∧
      (callEq ctx a b st).1.rc = st.rc := by
  unfold callEq
  cases ctx.eq a b <;> simp

theorem pick_pivot_mem {l r : Int} (st : St α) (h : l < r) :
    l ≤ (pick_pivot ctx l r st).1 ∧ (pick_pivot ctx l r st).1 < r := by
  unfold pick_pivot randSt
  simp only
  have h2 : 0 < (r - l).toNat := by omega
  have h3 := Nat.mod_lt (ctx.rng st.rc) h2
  have h4 : ((ctx.rng st.rc % (r - l).toNat : Nat) : Int) < ((r - l).toNat : Int) := by
    exact_mod_cast h3
  have h5 : (0 : Int) ≤ ((ctx.rng st.rc % (r - l).toNat : Nat) : Int) := Int.natCast_nonneg _
  have h6 : ((r - l).toNat : Int) = r - l := by omega
  omega

/-- Frame facts about the Lomuto scan, independent of the comparator:
the tree and random counter are untouched, the array is permuted within
`(ll, r)`, and a successful scan returns `last_less` within bounds. -/
theorem partitionLoop_frame (pivot : α) (r : Int) :
    ∀ (fuel : Nat) (i ll : Int) (st : St α), ll < i → 0 ≤ ll →
      r ≤ (st.xs.length : Int) →
      (partitionLoop ctx pivot r fuel i ll st).1.root = st.root ∧
      (partitionLoop ctx pivot r fuel i ll st).1.rc = st.rc ∧
      PermWithin st.xs (partitionLoop ctx pivot r fuel i ll st).1.xs (ll + 1) r ∧
      (∀ llf, (partitionLoop ctx pivot r fuel i ll st).2 = .ok llf →
        ll ≤ llf ∧ llf < max i r) := by
  intro fuel
  induction fuel with
  | zero =>
    intro i ll st h1 h2 h3
    refine ⟨rfl, rfl, permWithin_refl _ _ _, ?_⟩
    intro llf h
    simp [partitionLoop] at h
  | succ fuel ih =>
    intro i ll st h1 h2 h3
    by_cases hir : i < r
    · rcases hcl : callLt ctx (getI st.xs i) pivot st with ⟨st1, res⟩
      have hst1 := callLt_state ctx (getI st.xs i) pivot st
      rw [hcl] at hst1
      obtain ⟨hxs, hroot, hrc⟩ := hst1
      cases res with
      | error e =>
        have hred : partitionLoop ctx pivot r (fuel + 1) i ll st = (st1, .error e) := by
          simp only [partitionLoop, if_pos hir, hcl]
        rw [hred]
        refine ⟨hroot, hrc, ?_, ?_⟩
        · rw [hxs]
          exact permWithin_refl _ _ _
        · intro llf h
          cases h
      | ok b =>
        cases b with
        | true =>
          have hred : partitionLoop ctx pivot r (fuel + 1) i ll st =
              partitionLoop ctx pivot r fuel (i + 1) (ll + 1)
                { st1 with xs := swapI st1.xs i (ll + 1) } := by
            simp only [partitionLoop, if_pos hir, hcl]
          rw [hred]
          set st2 : St α := { st1 with xs := swapI st1.xs i (ll + 1) } with hst2
          have hxs2 : st2.xs = swapI st1.xs i (ll + 1) := rfl
          have hlen2 : r ≤ (st2.xs.length : Int) := by
            rw [hxs2, length_swapI, hxs]
            exact h3
          obtain ⟨ihroot, ihrc, ihperm, ihok⟩ :=
            ih (i + 1) (ll + 1) st2 (by omega) (by omega) hlen2
          have hroot2 : st2.root = st.root := hroot
          have hrc2 : st2.rc = st.rc := hrc
          refine ⟨ihroot.trans hroot2, ihrc.trans hrc2, ?_, ?_⟩
          · have hswap : PermWithin st.xs st2.xs (ll + 1) r := by
              rw [hxs2, ← hxs]
              exact permWithin_swap st1.xs (by omega) hir (by omega) (by omega) (by omega)
                (by rw [hxs]; exact h3)
            exact permWithin_trans hswap (permWithin_mono ihperm (by omega) le_rfl)
          · intro llf hok
            obtain ⟨hle, hlt⟩ := ihok llf hok
            refine ⟨by omega, ?_⟩
            have : max (i + 1) r = r := by omega
            rw [this] at hlt
            omega
        | false =>
          have hred : partitionLoop ctx pivot r (fuel + 1) i ll st =
              partitionLoop ctx pivot r fuel (i + 1) ll st1 := by
            simp only [partitionLoop, if_pos hir, hcl]
          rw [hred]
          obtain ⟨ihroot, ihrc, ihperm, ihok⟩ :=
            ih (i + 1) ll st1 (by omega) h2 (by rw [hxs]; exact h3)
          refine ⟨ihroot.trans hroot, ihrc.trans hrc, ?_, ?_⟩
          · rw [← hxs]
            exact ihperm
          · intro llf hok
            obtain ⟨hle, hlt⟩ := ihok llf hok
            refine ⟨hle, ?_⟩
            have : max (i + 1) r = r := by omega
            rw [this] at hlt
            omega
    · have hred : partitionLoop ctx pivot r (fuel + 1) i ll st = (st, .ok ll) := by
        simp only [partitionLoop, if_neg hir]
      rw [hred]
      refine ⟨rfl, rfl, permWithin_refl _ _ _, ?_⟩
      intro llf hok
      cases hok
      have := le_max_left i r
      exact ⟨le_refl _, by omega⟩

/-- Value facts about the Lomuto scan under the canonical comparator:
it never fails, `[lo, last_less]` ends up strictly below the pivot and
`(last_less, r)` at or above it. -/
theorem partitionLoop_canon {ctx : Ctx α} (hc : CanonLt ctx) (pivot : α) (r : Int) :
    ∀ (fuel : Nat) (i ll lo : Int) (st : St α),
      (r - i).toNat < fuel → ll < i → 0 ≤ ll → r ≤ (st.xs.length : Int) →
      (∀ m, lo ≤ m → m ≤ ll → getI st.xs m < pivot) →
      (∀ m, ll < m → m < i → pivot ≤ getI st.xs m) →
      ∃ llf st1, partitionLoop ctx pivot r fuel i ll st = (st1, .ok llf) ∧
        (∀ m, lo ≤ m → m ≤ llf → getI st1.xs m < pivot) ∧
        (∀ m, llf < m → m < r → pivot ≤ getI st1.xs m) := by
  intro fuel
  induction fuel with
  | zero =>
    intro i ll lo st hfuel h1 h2 h3 hlts hges
    omega
  | succ fuel ih =>
    intro i ll lo st hfuel h1 h2 h3 hlts hges
    by_cases hir : i < r
    · by_cases hless : getI st.xs i < pivot
      · have hd : (decide (getI st.xs i < pivot)) = true := decide_eq_true hless
        have hred : partitionLoop ctx pivot r (fuel + 1) i ll st =
            partitionLoop ctx pivot r fuel (i + 1) (ll + 1)
              { st with cc := st.cc + 1, xs := swapI st.xs i (ll + 1) } := by
          simp only [partitionLoop, if_pos hir, callLt_canon hc, hd]
        rw [hred]
        set st2 : St α := { st with cc := st.cc + 1, xs := swapI st.xs i (ll + 1) } with hst2
        have hget : ∀ m, m ≠ i → m ≠ ll + 1 → getI st2.xs m = getI st.xs m := by
          intro m hmi hml
          rw [hst2]
          exact getI_swapI_other st.xs hmi hml
        by_cases hii : i = ll + 1
        · -- the swap is a no-op position-wise only when i = ll+1
          have hsame : getI st2.xs (ll + 1) = getI st.xs i := by
            rw [hst2]
            simp only
            rw [← hii]
            exact getI_swapI_snd st.xs (by omega) (by omega)
          refine ih (i + 1) (ll + 1) lo st2 (by omega) (by omega) (by omega)
            (by rw [hst2]; simpa [length_swapI] using h3) ?_ ?_
          · intro m hm1 hm2
            rcases eq_or_lt_of_le hm2 with he | hlt2
            · rw [he, hsame]
              exact hless
            · rw [hget m (by omega) (by omega)]
              exact hlts m hm1 (by omega)
          · intro m hm1 hm2
            omega
        · have hfst : getI st2.xs (ll + 1) = getI st.xs i := by
            rw [hst2]
            simp only
            rw [getI_swapI_snd st.xs (by omega) (by omega)]
          have hsnd : getI st2.xs i = getI st.xs (ll + 1) := by
            rw [hst2]
            simp only
            rw [getI_swapI_fst st.xs (by omega) (by omega) (by omega)]
          refine ih (i + 1) (ll + 1) lo st2 (by omega) (by omega) (by omega)
            (by rw [hst2]; simpa [length_swapI] using h3) ?_ ?_
          · intro m hm1 hm2
            rcases eq_or_lt_of_le hm2 with he | hlt2
            · rw [he, hfst]
              exact hless
            · rw [hget m (by omega) (by omega)]
              exact hlts m hm1 (by omega)
          · intro m hm1 hm2
            by_cases hmi : m = i
            · rw [hmi, hsnd]
              exact hges (ll + 1) (by omega) (by omega)
            · rw [hget m hmi (by omega)]
              exact hges m (by omega) (by omega)
      · have hd : (decide (getI st.xs i < pivot)) = false := decide_eq_false hless
        have hred : partitionLoop ctx pivot r (fuel + 1) i ll st =
            partitionLoop ctx pivot r fuel (i + 1) ll { st with cc := st.cc + 1 } := by
          simp only [partitionLoop, if_pos hir, callLt_canon hc, hd]
        rw [hred]
        refine ih (i + 1) ll lo { st with cc := st.cc + 1 } (by omega) (by omega) h2 h3 hlts ?_
        intro m hm1 hm2
        by_cases hmi : m = i
        · rw [hmi]
          exact le_of_not_lt hless
        · exact hges m hm1 (by omega)
    · have hred : partitionLoop ctx pivot r (fuel + 1) i ll st = (st, .ok ll) := by
        simp only [partitionLoop, if_neg hir]
      rw [hred]
      refine ⟨ll, st, rfl, hlts, ?_⟩
      intro m hm1 hm2
      exact hges m hm1 (by omega)

end PartitionLemmas

section PartitionCLemmas

variable {α : Type} [Inhabited α] [LinearOrder α] (ctx : Ctx α)

/-- `partition` (any comparator): the tree is untouched, one random
number is consumed, the array is permuted within `[l, r)` — also on a
comparator failure — and a returned pivot index lies in `[l, r)`. -/
theorem partitionC_frame {l r : Int} (st : St α) (hlr : l < r) (h0 : 0 ≤ l)
    (hlen : r ≤ (st.xs.length : Int)) :
    (partitionC ctx l r st).1.root = st.root ∧
    (partitionC ctx l r st).1.rc = st.rc + 1 ∧
    PermWithin st.xs (partitionC ctx l r st).1.xs l r ∧
    (∀ piv, (partitionC ctx l r st).2 = .ok piv → l ≤ piv ∧ piv < r) := by
  obtain ⟨hp1, hp2⟩ := pick_pivot_mem ctx st hlr
  rcases hpick : pick_pivot ctx l r st with ⟨piv0, stp⟩
  rw [hpick] at hp1 hp2
  simp only at hp1 hp2
  have hstpxs : stp.xs = st.xs := by
    have h := congrArg (fun q => q.2.xs) hpick
    exact h.symm.trans rfl
  have hstproot : stp.root = st.root := by
    have h := congrArg (fun q => q.2.root) hpick
    exact h.symm.trans rfl
  have hstprc : stp.rc = st.rc + 1 := by
    have h := congrArg (fun q => q.2.rc) hpick
    exact h.symm.trans rfl
  set st2 : St α := { stp with xs := swapI stp.xs l piv0 } with hst2
  have hxs2 : st2.xs = swapI stp.xs l piv0 := rfl
  have hlen2 : r ≤ (st2.xs.length : Int) := by
    rw [hxs2, length_swapI, hstpxs]
    exact hlen
  have hswap : PermWithin st.xs st2.xs l r := by
    rw [hxs2, ← hstpxs]
    exact permWithin_swap stp.xs le_rfl hlr hp1 hp2 h0 (by rw [hstpxs]; exact hlen)
  obtain ⟨hfr, hfrc, hfperm, hfok⟩ := partitionLoop_frame ctx (getI stp.xs piv0) r
    ((r - (l + 1)).toNat + 1) (l + 1) l st2 (by omega) h0 hlen2
  rcases hloop : partitionLoop ctx (getI stp.xs piv0) r ((r - (l + 1)).toNat + 1)
      (l + 1) l st2 with ⟨st3, res⟩
  rw [hloop] at hfr hfrc hfperm hfok
  simp only at hfr hfrc hfperm hfok
  rw [← hxs2] at hfperm
  have hst2r : st2.root = st.root := by rw [hst2]; exact hstproot
  have hst2c : st2.rc = st.rc + 1 := by rw [hst2]; exact hstprc
  cases res with
  | error e =>
    have hred : partitionC ctx l r st = (st3, .error e) := by
      simp only [partitionC, hpick, ← hst2, hloop]
    rw [hred]
    refine ⟨hfr.trans hst2r, hfrc.trans hst2c, ?_, ?_⟩
    · exact permWithin_trans hswap (permWithin_mono hfperm (by omega) le_rfl)
    · intro piv h
      cases h
  | ok llf =>
    obtain ⟨hll1, hll2⟩ := hfok llf rfl
    have hllr : llf < r := by omega
    have hred : partitionC ctx l r st = ({ st3 with xs := swapI st3.xs l llf }, .ok llf) := by
      simp only [partitionC, hpick, ← hst2, hloop]
    rw [hred]
    have hlen3 : st3.xs.length = st.xs.length := by
      have h1 := hfperm.1
      rw [hxs2, length_swapI, hstpxs] at h1
      exact h1
    refine ⟨hfr.trans hst2r, hfrc.trans hst2c, ?_, ?_⟩
    · refine permWithin_trans
        (permWithin_trans hswap (permWithin_mono hfperm (by omega) le_rfl)) ?_
      exact permWithin_swap st3.xs le_rfl hlr hll1 hllr h0 (by rw [hlen3]; exact hlen)
    · intro piv h
      cases h
      omega

/-- `partition` under the canonical comparator: it succeeds, and the
returned index truly partitions `[l, r)`. -/
theorem partitionC_canon {ctx : Ctx α} (hc : CanonLt ctx) {l r : Int} (st : St α)
    (hlr : l < r) (h0 : 0 ≤ l) (hlen : r ≤ (st.xs.length : Int)) :
    ∃ piv st1, partitionC ctx l r st = (st1, .ok piv) ∧
      (∀ m, l ≤ m → m < piv → getI st1.xs m < getI st1.xs piv) ∧
      (∀ m, piv < m → m < r → getI st1.xs piv ≤ getI st1.xs m) := by
  obtain ⟨hp1, hp2⟩ := pick_pivot_mem ctx st hlr
  rcases hpick : pick_pivot ctx l r st with ⟨piv0, stp⟩
  rw [hpick] at hp1 hp2
  simp only at hp1 hp2
  have hstpxs : stp.xs = st.xs := by
    have h := congrArg (fun q => q.2.xs) hpick
    exact h.symm.trans rfl
  set st2 : St α := { stp with xs := swapI stp.xs l piv0 } with hst2
  have hxs2 : st2.xs = swapI stp.xs l piv0 := rfl
  have hlen2 : r ≤ (st2.xs.length : Int) := by
    rw [hxs2, length_swapI, hstpxs]
    exact hlen
  have hpiv : getI st2.xs l = getI stp.xs piv0 := by
    rw [hxs2]
    by_cases he : piv0 = l
    · rw [he]
      rw [getI_swapI_snd stp.xs h0 (by rw [hstpxs]; omega)]
    · rw [getI_swapI_fst stp.xs h0 (by rw [hstpxs]; omega) he]
  obtain ⟨llf, st3, hloop, hlts, hges⟩ := partitionLoop_canon hc (getI stp.xs piv0) r
    ((r - (l + 1)).toNat + 1) (l + 1) l (l + 1) st2 (by omega) (by omega) h0 hlen2
    (by intro m h1 h2; omega) (by intro m h1 h2; omega)
  obtain ⟨hfr, hfrc, hfperm, hfok⟩ := partitionLoop_frame ctx (getI stp.xs piv0) r
    ((r - (l + 1)).toNat + 1) (l + 1) l st2 (by omega) h0 hlen2
  rw [hloop] at hfr hfrc hfperm hfok
  simp only at hfr hfrc hfperm hfok
  rw [← hxs2] at hfperm
  obtain ⟨hll1, hll2⟩ := hfok llf rfl
  have hllr : llf < r := by omega
  have hred : partitionC ctx l r st = ({ st3 with xs := swapI st3.xs l llf }, .ok llf) := by
    simp only [partitionC, hpick, ← hst2, hloop]
  rw [hred]
  have hl3 : getI st3.xs l = getI stp.xs piv0 := by
    rw [hfperm.2.1 l (by omega), hpiv]
  have hlen3 : st3.xs.length = st.xs.length := by
    have h1 := hfperm.1
    rw [hxs2, length_swapI, hstpxs] at h1
    exact h1
  have hvllf : getI (swapI st3.xs l llf) llf = getI stp.xs piv0 := by
    rw [getI_swapI_snd st3.xs (by omega) (by rw [hlen3]; omega), hl3]
  refine ⟨llf, _, rfl, ?_, ?_⟩
  · intro m hm1 hm2
    simp only
    rw [hvllf]
    by_cases hml : m = l
    · rw [hml, getI_swapI_fst st3.xs h0 (by rw [hlen3]; omega) (by omega)]
      exact hlts llf (by omega) le_rfl
    · rw [getI_swapI_other st3.xs hml (by omega)]
      exact hlts m (by omega) (by omega)
  · intro m hm1 hm2
    simp only
    rw [hvllf]
    rw [getI_swapI_other st3.xs (by omega) (by omega)]
    exact hges m hm1 hm2

end PartitionCLemmas

section InsertionSortLemmas

variable {α : Type} [Inhabited α] [LinearOrder α] (ctx : Ctx α)

theorem isltLoose_canon {ctx : Ctx α} (hc : CanonLt ctx) (a b : α) (st : St α) :
    isltLoose ctx a b st = ({ st with cc := st.cc + 1 }, decide (a < b)) := by
  unfold isltLoose
  rw [hc a b]

theorem isltLoose_state (a b : α) (st : St α) :
    (isltLoose ctx a b st).1.xs = st.xs ∧ (isltLoose ctx a b st).1.root = st.root ∧
      (isltLoose ctx a b st).1.rc = st.rc := by
  unfold isltLoose
  cases ctx.lt a b <;> simp

/-- The inner shift loop touches neither the tree nor the random
counter, and keeps the array length (any comparator). -/
theorem insSortInner_state (tmp : α) :
    ∀ (fuel : Nat) (j : Int) (st : St α),
      (insSortInner ctx tmp fuel j st).1.xs.length = st.xs.length ∧
      (insSortInner ctx tmp fuel j st).1.root = st.root ∧
      (insSortInner ctx tmp fuel j st).1.rc = st.rc := by
  intro fuel
  induction fuel with
  | zero => intro j st; exact ⟨rfl, rfl, rfl⟩
  | succ fuel ih =>
    intro j st
    by_cases hj : 0 < j
    · rcases hisl : isltLoose ctx tmp (getI st.xs (j - 1)) st with ⟨st1, b⟩
      have hst1 := isltLoose_state ctx tmp (getI st.xs (j - 1)) st
      rw [hisl] at hst1
      obtain ⟨hxs, hroot, hrc⟩ := hst1
      simp only at hxs hroot hrc
      cases b with
      | true =>
        have hred : insSortInner ctx tmp (fuel + 1) j st =
            insSortInner ctx tmp fuel (j - 1)
              { st1 with xs := setI st1.xs j (getI st1.xs (j - 1)) } := by
          simp only [insSortInner, if_pos hj, hisl]
        rw [hred]
        obtain ⟨il, ir, ic⟩ := ih (j - 1) { st1 with xs := setI st1.xs j (getI st1.xs (j - 1)) }
        refine ⟨?_, ir.trans hroot, ic.trans hrc⟩
        rw [il]
        simp only [length_setI, hxs]
      | false =>
        have hred : insSortInner ctx tmp (fuel + 1) j st = (st1, j) := by
          simp only [insSortInner, if_pos hj, hisl]
        rw [hred]
        exact ⟨by rw [hxs], hroot, hrc⟩
    · have hred : insSortInner ctx tmp (fuel + 1) j st = (st, j) := by
        simp only [insSortInner, if_neg hj]
      rw [hred]
      exact ⟨rfl, rfl, rfl⟩

/-- The outer loop of `insertion_sort` touches neither the tree nor the
random counter, and keeps the array length (any comparator). -/
theorem insSortOuter_state (r : Int) :
    ∀ (fuel : Nat) (i : Int) (st : St α),
      (insSortOuter ctx r fuel i st).xs.length = st.xs.length ∧
      (insSortOuter ctx r fuel i st).root = st.root ∧
      (insSortOuter ctx r fuel i st).rc = st.rc := by
  intro fuel
  induction fuel with
  | zero => intro i st; exact ⟨rfl, rfl, rfl⟩
  | succ fuel ih =>
    intro i st
    by_cases hir : i < r
    · rcases hin : insSortInner ctx (getI st.xs i) (i.toNat + 1) i st with ⟨st1, j⟩
      have hst1 := insSortInner_state ctx (getI st.xs i) (i.toNat + 1) i st
      rw [hin] at hst1
      obtain ⟨hlen, hroot, hrc⟩ := hst1
      simp only at hlen hroot hrc
      have hred : insSortOuter ctx r (fuel + 1) i st =
          insSortOuter ctx r fuel (i + 1) { st1 with xs := setI st1.xs j (getI st.xs i) } := by
        simp only [insSortOuter, if_pos hir, hin]
      rw [hred]
      obtain ⟨il, ir2, ic⟩ := ih (i + 1) { st1 with xs := setI st1.xs j (getI st.xs i) }
      refine ⟨?_, ir2.trans hroot, ic.trans hrc⟩
      rw [il]
      simp only [length_setI, hlen]
    · have hred : insSortOuter ctx r (fuel + 1) i st = st := by
        simp only [insSortOuter, if_neg hir]
      rw [hred]
      exact ⟨rfl, rfl, rfl⟩

/-- `insertion_sort` state facts (any comparator). -/
theorem insertion_sort_state (l r : Int) (st : St α) :
    (insertion_sort ctx l r st).xs.length = st.xs.length ∧
    (insertion_sort ctx l r st).root = st.root ∧
    (insertion_sort ctx l r st).rc = st.rc :=
  insSortOuter_state ctx r ((r - l).toNat + 1) l st

/-- The inner shift loop under the canonical comparator: it stops no
earlier than `l` thanks to the sentinel condition, shifts `(jf, j]` one
position right, and reports why it stopped. -/
theorem insSortInner_canon {ctx : Ctx α} (hc : CanonLt ctx) (tmp : α) (l : Int) :
    ∀ (fuel : Nat) (j : Int) (st : St α), j.toNat < fuel → 0 ≤ l → l ≤ j →
      j < (st.xs.length : Int) →
      (0 < l → getI st.xs (l - 1) ≤ tmp) →
      ∃ jf st1, insSortInner ctx tmp fuel j st = (st1, jf) ∧
        l ≤ jf ∧ jf ≤ j ∧
        (∀ m : Int, m ≤ jf ∨ j < m → getI st1.xs m = getI st.xs m) ∧
        (∀ m : Int, jf < m → m ≤ j → getI st1.xs m = getI st.xs (m - 1)) ∧
        (0 < jf → getI st.xs (jf - 1) ≤ tmp) ∧
        (∀ m : Int, jf ≤ m → m < j → tmp < getI st.xs m) := by
  intro fuel
  induction fuel with
  | zero =>
    intro j st hfuel
    omega
  | succ fuel ih =>
    intro j st hfuel h0 hlj hjlen hB
    by_cases hj : 0 < j
    · by_cases hless : tmp < getI st.xs (j - 1)
      · have hd : (decide (tmp < getI st.xs (j - 1))) = true := decide_eq_true hless
        have hred : insSortInner ctx tmp (fuel + 1) j st =
            insSortInner ctx tmp fuel (j - 1)
              { st with cc := st.cc + 1, xs := setI st.xs j (getI st.xs (j - 1)) } := by
          simp only [insSortInner, if_pos hj, isltLoose_canon hc, hd]
        rw [hred]
        by_cases hjl : j = l
        · exfalso
          have := hB (by omega)
          rw [hjl] at hless
          exact absurd this (not_le.mpr hless)
        · set st2 : St α := { st with cc := st.cc + 1, xs := setI st.xs j (getI st.xs (j - 1)) }
            with hst2
          have hxs2 : st2.xs = setI st.xs j (getI st.xs (j - 1)) := rfl
          have hlen2 : st2.xs.length = st.xs.length := by rw [hxs2, length_setI]
          have hget2 : ∀ m : Int, m ≠ j → getI st2.xs m = getI st.xs m := by
            intro m hm
            rw [hxs2]
            exact getI_setI_other st.xs _ hm
          have hget2j : getI st2.xs j = getI st.xs (j - 1) := by
            rw [hxs2]
            exact getI_setI_same st.xs _ (by omega) hjlen
          obtain ⟨jf, st1, heq, hjf1, hjf2, hfr, hsh, hstop, hgt⟩ :=
            ih (j - 1) st2 (by omega) h0 (by omega)
              (by rw [hlen2]; omega)
              (by intro hl; rw [hget2 (l - 1) (by omega)]; exact hB hl)
          refine ⟨jf, st1, heq, hjf1, by omega, ?_, ?_, ?_, ?_⟩
          · intro m hm
            rcases hm with hm | hm
            · rw [hfr m (Or.inl hm), hget2 m (by omega)]
            · rw [hfr m (Or.inr (by omega)), hget2 m (by omega)]
          · intro m hm1 hm2
            rcases eq_or_lt_of_le hm2 with he | hlt2
            · rw [he, hfr j (Or.inr (by omega)), hget2j]
            · rw [hsh m hm1 (by omega), hget2 (m - 1) (by omega)]
          · intro hjf
            have := hstop hjf
            rw [hget2 (jf - 1) (by omega)] at this
            exact this
          · intro m hm1 hm2
            rcases eq_or_lt_of_le (show m ≤ j - 1 by omega) with he | hlt2
            · rw [he] at hm2 ⊢
              exact hless
            · have := hgt m hm1 (by omega)
              rw [hget2 m (by omega)] at this
              exact this
      · have hd : (decide (tmp < getI st.xs (j - 1))) = false := decide_eq_false hless
        have hred : insSortInner ctx tmp (fuel + 1) j st =
            ({ st with cc := st.cc + 1 }, j) := by
          simp only [insSortInner, if_pos hj, isltLoose_canon hc, hd]
        rw [hred]
        refine ⟨j, _, rfl, hlj, le_rfl, ?_, ?_, ?_, ?_⟩
        · intro m _
          rfl
        · intro m hm1 hm2
          omega
        · intro _
          exact le_of_not_lt hless
        · intro m hm1 hm2
          omega
    · have hred : insSortInner ctx tmp (fuel + 1) j st = (st, j) := by
        simp only [insSortInner, if_neg hj]
      rw [hred]
      refine ⟨j, st, rfl, hlj, le_rfl, fun m _ => rfl, ?_, ?_, ?_⟩
      · intro m hm1 hm2
        omega
      · intro hjpos
        omega
      · intro m hm1 hm2
        omega

end InsertionSortLemmas

section InsertionSortOuterLemmas

variable {α : Type} [Inhabited α] [LinearOrder α]

/-- The outer loop of `insertion_sort` under the canonical comparator:
from a sorted prefix `[l, i)` it produces a sorted `[l, r)`, permuting
only within `[l, r)`, provided the sentinel position `l-1` (when it
exists) is below every region value. -/
theorem insSortOuter_canon {ctx : Ctx α} (hc : CanonLt ctx) (l r : Int) :
    ∀ (fuel : Nat) (i : Int) (st : St α), (r - i).toNat < fuel → 0 ≤ l → l ≤ i →
      r ≤ (st.xs.length : Int) →
      sortedSeg st.xs l i →
      (0 < l → ∀ m, l ≤ m → m < r → getI st.xs (l - 1) ≤ getI st.xs m) →
      PermWithin st.xs (insSortOuter ctx r fuel i st).xs l r ∧
      sortedSeg (insSortOuter ctx r fuel i st).xs l r := by
  intro fuel
  induction fuel with
  | zero =>
    intro i st hfuel
    omega
  | succ fuel ih =>
    intro i st hfuel h0 hli hrlen hpre hB
    by_cases hir : i < r
    · rcases hin : insSortInner ctx (getI st.xs i) (i.toNat + 1) i st with ⟨st1, jf⟩
      have hred : insSortOuter ctx r (fuel + 1) i st =
          insSortOuter ctx r fuel (i + 1) { st1 with xs := setI st1.xs jf (getI st.xs i) } := by
        simp only [insSortOuter, if_pos hir, hin]
      rw [hred]
      obtain ⟨jf2, st12, heq, hjf1, hjf2, hfr, hsh, hstop, hgt⟩ :=
        insSortInner_canon hc (getI st.xs i) l (i.toNat + 1) i st (by omega) h0 hli
          (by omega)
          (by intro hl; exact hB hl i hli hir)
      rw [hin] at heq
      obtain ⟨he1, he2⟩ := Prod.mk.injEq _ _ _ _ ▸ heq
      subst he1
      subst he2
      have hst1 := insSortInner_state ctx (getI st.xs i) (i.toNat + 1) i st
      rw [hin] at hst1
      obtain ⟨hlen1, _, _⟩ := hst1
      simp only at hlen1
      set st2 : St α := { st1 with xs := setI st1.xs jf (getI st.xs i) } with hst2
      have hxs2 : st2.xs = setI st1.xs jf (getI st.xs i) := rfl
      have hlen2 : st2.xs.length = st.xs.length := by
        rw [hxs2, length_setI, hlen1]
      -- value characterization of st2
      have hvout : ∀ m : Int, m < jf ∨ i < m → getI st2.xs m = getI st.xs m := by
        intro m hm
        rw [hxs2, getI_setI_other st1.xs _ (by omega)]
        exact hfr m (by omega)
      have hvjf : getI st2.xs jf = getI st.xs i := by
        rw [hxs2]
        exact getI_setI_same st1.xs _ (by omega) (by rw [hlen1]; omega)
      have hvsh : ∀ m : Int, jf < m → m ≤ i → getI st2.xs m = getI st.xs (m - 1) := by
        intro m hm1 hm2
        rw [hxs2, getI_setI_other st1.xs _ (by omega)]
        exact hsh m hm1 hm2
      -- sortedness of the prefix [l, i+1) of st2
      have hpre2 : sortedSeg st2.xs l (i + 1) := by
        intro a b ha hab hb
        have hv : ∀ m : Int, l ≤ m → m ≤ i →
            (m < jf → getI st2.xs m = getI st.xs m) ∧
            (m = jf → getI st2.xs m = getI st.xs i) ∧
            (jf < m → getI st2.xs m = getI st.xs (m - 1)) := by
          intro m hm1 hm2
          exact ⟨fun h => hvout m (Or.inl h), fun h => h ▸ hvjf, fun h => hvsh m h hm2⟩
        obtain ⟨hva1, hva2, hva3⟩ := hv a ha (by omega)
        obtain ⟨hvb1, hvb2, hvb3⟩ := hv b (by omega) (by omega)
        rcases lt_trichotomy a jf with haj | haj | haj
        · rcases lt_trichotomy b jf with hbj | hbj | hbj
          · rw [hva1 haj, hvb1 hbj]
            exact hpre a b ha hab (by omega)
          · rw [hva1 haj, hvb2 hbj]
            rcases eq_or_lt_of_le (show a ≤ jf - 1 by omega) with he | hlt
            · rw [he]
              exact hstop (by omega)
            · exact le_trans (hpre a (jf - 1) ha (by omega) (by omega)) (hstop (by omega))
          · rw [hva1 haj, hvb3 hbj]
            rcases eq_or_lt_of_le (show a ≤ b - 1 by omega) with he | hlt
            · rw [he]
            · exact hpre a (b - 1) ha (by omega) (by omega)
        · rcases eq_or_lt_of_le hab with he | hbgt
          · rw [← he]
          · rw [hva2 haj, hvb3 (by omega)]
            exact le_of_lt (hgt (b - 1) (by omega) (by omega))
        · rw [hva3 haj, hvb3 (by omega)]
          rcases eq_or_lt_of_le hab with he | hbgt
          · rw [he]
          · exact hpre (a - 1) (b - 1) (by omega) (by omega) (by omega)
      -- boundary condition for st2
      have hB2 : 0 < l → ∀ m, l ≤ m → m < r → getI st2.xs (l - 1) ≤ getI st2.xs m := by
        intro hl m hm1 hm2
        have hll : getI st2.xs (l - 1) = getI st.xs (l - 1) := hvout (l - 1) (Or.inl (by omega))
        rw [hll]
        rcases lt_trichotomy m jf with hmj | hmj | hmj
        · rw [hvout m (Or.inl hmj)]
          exact hB hl m hm1 hm2
        · rw [hmj, hvjf]
          exact hB hl i hli hir
        · by_cases hmi : m ≤ i
          · rw [hvsh m hmj hmi]
            exact hB hl (m - 1) (by omega) (by omega)
          · rw [hvout m (Or.inr (by omega))]
            exact hB hl m hm1 hm2
      -- permutation step
      have hperm2 : PermWithin st.xs st2.xs l r := by
        refine ⟨hlen2, ?_, ?_⟩
        · intro m hm
          rcases hm with hm | hm
          · exact hvout m (Or.inl (by omega))
          · exact hvout m (Or.inr (by omega))
        · intro m hm1 hm2
          rcases lt_trichotomy m jf with hmj | hmj | hmj
          · exact ⟨m, hm1, hm2, hvout m (Or.inl hmj)⟩
          · exact ⟨i, hli, hir, hmj ▸ hvjf⟩
          · by_cases hmi : m ≤ i
            · exact ⟨m - 1, by omega, by omega, hvsh m hmj hmi⟩
            · exact ⟨m, hm1, hm2, hvout m (Or.inr (by omega))⟩
      obtain ⟨ihperm, ihsort⟩ := ih (i + 1) st2 (by omega) h0 (by omega)
        (by rw [hlen2]; exact hrlen) hpre2 hB2
      exact ⟨permWithin_trans hperm2 ihperm, ihsort⟩
    · have hred : insSortOuter ctx r (fuel + 1) i st = st := by
        simp only [insSortOuter, if_neg hir]
      rw [hred]
      refine ⟨permWithin_refl _ _ _, ?_⟩
      intro a b ha hab hb
      exact hpre a b ha hab (by omega)

/-- `insertion_sort` under the canonical comparator: sorts `[l, r)` in
place, permuting only inside it, given the sentinel condition at
`l - 1`. -/
theorem insertion_sort_canon {ctx : Ctx α} (hc : CanonLt ctx) {l r : Int} (st : St α)
    (h0 : 0 ≤ l) (hrlen : r ≤ (st.xs.length : Int))
    (hB : 0 < l → ∀ m, l ≤ m → m < r → getI st.xs (l - 1) ≤ getI st.xs m) :
    PermWithin st.xs (insertion_sort ctx l r st).xs l r ∧
    sortedSeg (insertion_sort ctx l r st).xs l r := by
  unfold insertion_sort
  exact insSortOuter_canon hc l r ((r - l).toNat + 1) l st (by omega) h0 le_rfl hrlen
    (by intro a b ha hab hb; omega) hB

end InsertionSortOuterLemmas

namespace PTree

theorem keys_eq_entries_map : ∀ t : PTree, keys t = (entries t).map (fun e => e.1)
  | leaf => rfl
  | node i sl sr p l r => by
    simp [keys, entries, keys_eq_entries_map l, keys_eq_entries_map r]

theorem memT_iff (t : PTree) (i : Int) : memT t i = true ↔ i ∈ keys t := by
  simp [memT]

theorem flagsAt_isSome_iff (t : PTree) (i : Int) :
    (flagsAt t i).isSome = true ↔ i ∈ keys t := by
  unfold flagsAt
  rw [keys_eq_entries_map]
  have hiso : ∀ (o : Option (Int × Bool × Bool)), (o.map (fun e => e.2)).isSome = o.isSome := by
    intro o
    cases o <;> rfl
  rw [hiso, List.find?_isSome]
  simp

end PTree

section SortedListHelpers

theorem sorted_head_min {s : List Int} (hs : s.Sorted (· < ·)) {q : Int}
    (hq : s.head? = some q) : ∀ j ∈ s, q ≤ j := by
  cases s with
  | nil => cases hq
  | cons a tl =>
    cases hq
    intro j hj
    rcases List.mem_cons.mp hj with h | h
    · omega
    · exact le_of_lt (List.rel_of_sorted_cons hs j h)

theorem sorted_getLast_max {s : List Int} (hs : s.Sorted (· < ·)) {q : Int}
    (hq : s.getLast? = some q) : ∀ j ∈ s, j ≤ q := by
  induction s with
  | nil => cases hq
  | cons a tl ih =>
    intro j hj
    cases tl with
    | nil =>
      simp at hq
      rcases List.mem_cons.mp hj with h | h
      · omega
      · cases h
    | cons b tl2 =>
      rw [List.getLast?_cons_cons] at hq
      have hq2 := ih (List.sorted_cons.mp hs).2 hq
      rcases List.mem_cons.mp hj with h | h
      · have hb : q ∈ b :: tl2 := by
          have := List.getLast?_eq_getLast (b :: tl2) (by simp)
          rw [hq] at this
          have hmem := List.getLast_mem (l := b :: tl2) (by simp)
          rw [← Option.some_inj.mp this] at hmem
          exact hmem
        have := (List.sorted_cons.mp hs).1 q hb
        omega
      · exact hq2 j h

end SortedListHelpers

namespace PTree

theorem succIdx_mem {t : PTree} {i q : Int} (h : succIdx t i = some q) :
    q ∈ keys t ∧ i < q := by
  unfold succIdx at h
  have hmem : q ∈ (keys t).filter (fun j => decide (i < j)) := by
    cases hf : (keys t).filter (fun j => decide (i < j)) with
    | nil => rw [hf] at h; cases h
    | cons a tl =>
      rw [hf, List.head?_cons, Option.some_inj] at h
      rw [← h]
      exact List.mem_cons_self a tl
  have h2 := List.mem_filter.mp hmem
  exact ⟨h2.1, by simpa using h2.2⟩

theorem succIdx_min {t : PTree} {i q : Int} (hb : IsBST t) (h : succIdx t i = some q) :
    ∀ j ∈ keys t, i < j → q ≤ j := by
  intro j hj hij
  unfold succIdx at h
  have hsf : ((keys t).filter (fun j => decide (i < j))).Sorted (· < ·) :=
    List.Sorted.filter _ hb
  have hmem : j ∈ (keys t).filter (fun j => decide (i < j)) := by
    rw [List.mem_filter]
    exact ⟨hj, by simpa using hij⟩
  exact sorted_head_min hsf h j hmem

theorem succIdx_isSome {t : PTree} {i j : Int} (hj : j ∈ keys t) (hij : i < j) :
    ∃ q, succIdx t i = some q := by
  unfold succIdx
  have hmem : j ∈ (keys t).filter (fun j => decide (i < j)) := by
    rw [List.mem_filter]
    exact ⟨hj, by simpa using hij⟩
  cases hf : (keys t).filter (fun j => decide (i < j)) with
  | nil => rw [hf] at hmem; cases hmem
  | cons a tl => exact ⟨a, rfl⟩

theorem succIdx_none {t : PTree} {i : Int} (h : succIdx t i = none) :
    ∀ j ∈ keys t, j ≤ i := by
  intro j hj
  by_contra hc
  obtain ⟨q, hq⟩ := succIdx_isSome (i := i) hj (by omega)
  rw [h] at hq
  cases hq

theorem predIdx_mem {t : PTree} {i q : Int} (h : predIdx t i = some q) :
    q ∈ keys t ∧ q < i := by
  unfold predIdx at h
  have hmem : q ∈ (keys t).filter (fun j => decide (j < i)) := by
    have hne : (keys t).filter (fun j => decide (j < i)) ≠ [] := by
      intro hnil
      rw [hnil] at h
      cases h
    have := List.getLast?_eq_getLast _ hne
    rw [h] at this
    have hmem := List.getLast_mem hne
    rw [← Option.some_inj.mp this] at hmem
    exact hmem
  have := List.mem_filter.mp hmem
  simpa using this

theorem predIdx_max {t : PTree} {i q : Int} (hb : IsBST t) (h : predIdx t i = some q) :
    ∀ j ∈ keys t, j < i → j ≤ q := by
  intro j hj hij
  unfold predIdx at h
  have hsf : ((keys t).filter (fun j => decide (j < i))).Sorted (· < ·) :=
    List.Sorted.filter _ hb
  have hmem : j ∈ (keys t).filter (fun j => decide (j < i)) := by
    rw [List.mem_filter]
    exact ⟨hj, by simpa using hij⟩
  exact sorted_getLast_max hsf h j hmem

theorem predIdx_isSome {t : PTree} {i j : Int} (hj : j ∈ keys t) (hij : j < i) :
    ∃ q, predIdx t i = some q := by
  unfold predIdx
  have hmem : j ∈ (keys t).filter (fun j => decide (j < i)) := by
    rw [List.mem_filter]
    exact ⟨hj, by simpa using hij⟩
  have hne : (keys t).filter (fun j => decide (j < i)) ≠ [] := by
    intro hnil
    rw [hnil] at hmem
    cases hmem
  rw [List.getLast?_eq_getLast _ hne]
  exact ⟨_, rfl⟩

theorem predIdx_none {t : PTree} {i : Int} (h : predIdx t i = none) :
    ∀ j ∈ keys t, i ≤ j := by
  intro j hj
  by_contra hc
  obtain ⟨q, hq⟩ := predIdx_isSome (i := i) hj (by omega)
  rw [h] at hq
  cases hq

end PTree

namespace PTree

theorem isBST_node {j : Int} {sl sr : Bool} {p : Nat} {l r : PTree} :
    IsBST (node j sl sr p l r) ↔
      IsBST l ∧ IsBST r ∧ (∀ x ∈ keys l, x < j) ∧ (∀ y ∈ keys r, j < y) := by
  show (keys l ++ j :: keys r).Pairwise (· < ·) ↔ _
  rw [List.pairwise_append, List.pairwise_cons]
  constructor
  · rintro ⟨h1, ⟨h2, h3⟩, h4⟩
    exact ⟨h1, h3, fun x hx => h4 x hx j (List.mem_cons_self _ _), h2⟩
  · rintro ⟨h1, h2, h3, h4⟩
    refine ⟨h1, ⟨h4, h2⟩, ?_⟩
    intro x hx y hy
    rcases List.mem_cons.mp hy with hy | hy
    · rw [hy]
      exact h3 x hx
    · exact lt_trans (h3 x hx) (h4 y hy)

theorem keys_orFlagsAt : ∀ (t : PTree) (i : Int) (a b : Bool),
    keys (orFlagsAt t i a b) = keys t
  | leaf, _, _, _ => rfl
  | node j sl sr p l r, i, a, b => by
    unfold orFlagsAt
    by_cases hij : i = j
    · rw [if_pos hij]
      rfl
    · rw [if_neg hij]
      show keys _ ++ j :: keys _ = _
      rw [keys_orFlagsAt l, keys_orFlagsAt r]
      rfl

theorem keys_setFlagsAt : ∀ (t : PTree) (i : Int) (a b : Bool),
    keys (setFlagsAt t i a b) = keys t
  | leaf, _, _, _ => rfl
  | node j sl sr p l r, i, a, b => by
    unfold setFlagsAt
    by_cases hij : i = j
    · rw [if_pos hij]
      rfl
    · rw [if_neg hij]
      show keys _ ++ j :: keys _ = _
      rw [keys_setFlagsAt l, keys_setFlagsAt r]
      rfl

theorem entries_map_of_not_mem {t : PTree} {i : Int}
    (h : i ∉ keys t) (g : Int × Bool × Bool → Int × Bool × Bool) :
    (entries t).map (fun e => if e.1 = i then g e else e) = entries t := by
  have : ∀ e ∈ entries t, (if e.1 = i then g e else e) = e := by
    intro e he
    rw [if_neg]
    intro hc
    apply h
    rw [keys_eq_entries_map]
    exact List.mem_map.mpr ⟨e, he, hc⟩
  calc (entries t).map (fun e => if e.1 = i then g e else e)
      = (entries t).map id := List.map_congr_left this
    _ = entries t := List.map_id _

theorem entries_orFlagsAt : ∀ (t : PTree), (keys t).Nodup → ∀ (i : Int) (a b : Bool),
    entries (orFlagsAt t i a b) =
      (entries t).map (fun e => if e.1 = i then (e.1, e.2.1 || a, e.2.2 || b) else e)
  | leaf, _, _, _, _ => rfl
  | node j sl sr p l r, hnd, i, a, b => by
    have hnd2 := hnd
    rw [show keys (node j sl sr p l r) = keys l ++ j :: keys r from rfl] at hnd2
    have hndl : (keys l).Nodup := (List.nodup_append.mp hnd2).1
    have hndr : (keys r).Nodup := (List.nodup_cons.mp (List.nodup_append.mp hnd2).2.1).2
    have hdisj := (List.nodup_append.mp hnd2).2.2
    have hjl : j ∉ keys l := fun hc => hdisj hc (List.mem_cons_self _ _)
    have hjr : j ∉ keys r := (List.nodup_cons.mp (List.nodup_append.mp hnd2).2.1).1
    by_cases hij : i = j
    · subst hij
      unfold orFlagsAt
      rw [if_pos rfl]
      show entries l ++ (i, sl || a, sr || b) :: entries r
          = (entries l ++ (i, sl, sr) :: entries r).map
              (fun e => if e.1 = i then (e.1, e.2.1 || a, e.2.2 || b) else e)
      rw [List.map_append, List.map_cons,
        entries_map_of_not_mem hjl, entries_map_of_not_mem hjr]
      simp
    · unfold orFlagsAt
      rw [if_neg hij]
      show entries (orFlagsAt l i a b) ++ (j, sl, sr) :: entries (orFlagsAt r i a b)
          = (entries l ++ (j, sl, sr) :: entries r).map
              (fun e => if e.1 = i then (e.1, e.2.1 || a, e.2.2 || b) else e)
      rw [entries_orFlagsAt l hndl i a b, entries_orFlagsAt r hndr i a b,
        List.map_append, List.map_cons]
      have hji : (j : Int) ≠ i := fun hc => hij hc.symm
      simp [hji]

theorem entries_setFlagsAt : ∀ (t : PTree), (keys t).Nodup → ∀ (i : Int) (a b : Bool),
    entries (setFlagsAt t i a b) =
      (entries t).map (fun e => if e.1 = i then (e.1, a, b) else e)
  | leaf, _, _, _, _ => rfl
  | node j sl sr p l r, hnd, i, a, b => by
    have hnd2 := hnd
    rw [show keys (node j sl sr p l r) = keys l ++ j :: keys r from rfl] at hnd2
    have hndl : (keys l).Nodup := (List.nodup_append.mp hnd2).1
    have hndr : (keys r).Nodup := (List.nodup_cons.mp (List.nodup_append.mp hnd2).2.1).2
    have hdisj := (List.nodup_append.mp hnd2).2.2
    have hjl : j ∉ keys l := fun hc => hdisj hc (List.mem_cons_self _ _)
    have hjr : j ∉ keys r := (List.nodup_cons.mp (List.nodup_append.mp hnd2).2.1).1
    by_cases hij : i = j
    · subst hij
      unfold setFlagsAt
      rw [if_pos rfl]
      show entries l ++ (i, a, b) :: entries r
          = (entries l ++ (i, sl, sr) :: entries r).map
              (fun e => if e.1 = i then (e.1, a, b) else e)
      rw [List.map_append, List.map_cons,
        entries_map_of_not_mem hjl, entries_map_of_not_mem hjr]
      simp
    · unfold setFlagsAt
      rw [if_neg hij]
      show entries (setFlagsAt l i a b) ++ (j, sl, sr) :: entries (setFlagsAt r i a b)
          = (entries l ++ (j, sl, sr) :: entries r).map
              (fun e => if e.1 = i then (e.1, a, b) else e)
      rw [entries_setFlagsAt l hndl i a b, entries_setFlagsAt r hndr i a b,
        List.map_append, List.map_cons]
      have hji : (j : Int) ≠ i := fun hc => hij hc.symm
      simp [hji]

theorem entries_bubbleUp : ∀ (t : PTree) (k : Int), entries (bubbleUp k t) = entries t
  | leaf, _ => rfl
  | node i sl sr p l r, k => by
    unfold bubbleUp
    by_cases hki : k < i
    · rw [if_pos hki]
      have hbl := entries_bubbleUp l k
      split
      · rename_i hb
        rw [hb] at hbl
        show entries leaf ++ (i, sl, sr) :: entries r = entries l ++ (i, sl, sr) :: entries r
        rw [← hbl]
      · rename_i li lsl lsr lp ll lr hb
        rw [hb] at hbl
        by_cases hrot : li = k ∧ p < lp
        · rw [if_pos (by
            simp only [Bool.and_eq_true, decide_eq_true_eq]
            exact hrot)]
          show entries ll ++ (li, lsl, lsr) :: (entries lr ++ (i, sl, sr) :: entries r)
              = entries l ++ (i, sl, sr) :: entries r
          rw [← hbl]
          show _ = (entries ll ++ (li, lsl, lsr) :: entries lr) ++ (i, sl, sr) :: entries r
          simp
        · rw [if_neg (by
            simp only [Bool.and_eq_true, decide_eq_true_eq]
            exact fun hc => hrot hc)]
          show entries (node li lsl lsr lp ll lr) ++ (i, sl, sr) :: entries r = _
          rw [hbl]
          rfl
    · rw [if_neg hki]
      by_cases hik : i < k
      · rw [if_pos hik]
        have hbr := entries_bubbleUp r k
        split
        · rename_i hb
          rw [hb] at hbr
          show entries l ++ (i, sl, sr) :: entries leaf = entries l ++ (i, sl, sr) :: entries r
          rw [← hbr]
        · rename_i ri rsl rsr rp rl rr hb
          rw [hb] at hbr
          by_cases hrot : ri = k ∧ p < rp
          · rw [if_pos (by
              simp only [Bool.and_eq_true, decide_eq_true_eq]
              exact hrot)]
            show (entries l ++ (i, sl, sr) :: entries rl) ++ (ri, rsl, rsr) :: entries rr
                = entries l ++ (i, sl, sr) :: entries r
            rw [← hbr]
            show _ = entries l ++ (i, sl, sr) :: (entries rl ++ (ri, rsl, rsr) :: entries rr)
            simp
          · rw [if_neg (by
              simp only [Bool.and_eq_true, decide_eq_true_eq]
              exact fun hc => hrot hc)]
            show entries l ++ (i, sl, sr) :: entries (node ri rsl rsr rp rl rr) = _
            rw [hbr]
            rfl
      · rw [if_neg hik]

theorem entries_mergeF : ∀ (n : Nat) (l r : PTree), l.size + r.size < n →
    entries (mergeF n l r) = entries l ++ entries r := by
  intro n
  induction n with
  | zero =>
    intro l r hn
    exact absurd hn (Nat.not_lt_zero _)
  | succ n ih =>
    intro l r hn
    cases l with
    | leaf => cases r <;> rfl
    | node li lsl lsr lp ll lr =>
      cases r with
      | leaf =>
        show entries (node li lsl lsr lp ll lr) = _
        rw [show entries leaf = [] from rfl, List.append_nil]
      | node ri rsl rsr rp rl rr =>
        show entries (if rp < lp
            then node li lsl lsr lp ll (mergeF n lr (node ri rsl rsr rp rl rr))
            else node ri rsl rsr rp (mergeF n (node li lsl lsr lp ll lr) rl) rr) = _
        by_cases hp : rp < lp
        · rw [if_pos hp]
          show entries ll ++ (li, lsl, lsr)
              :: entries (mergeF n lr (node ri rsl rsr rp rl rr)) = _
          rw [ih lr (node ri rsl rsr rp rl rr) (by simp [size] at hn ⊢; omega)]
          show _ = (entries ll ++ (li, lsl, lsr) :: entries lr)
              ++ entries (node ri rsl rsr rp rl rr)
          simp
        · rw [if_neg hp]
          show entries (mergeF n (node li lsl lsr lp ll lr) rl)
              ++ (ri, rsl, rsr) :: entries rr = _
          rw [ih (node li lsl lsr lp ll lr) rl (by simp [size] at hn ⊢; omega)]
          show _ = entries (node li lsl lsr lp ll lr)
              ++ (entries rl ++ (ri, rsl, rsr) :: entries rr)
          simp

theorem entries_mergeT (l r : PTree) :
    entries (mergeT l r) = entries l ++ entries r :=
  entries_mergeF (l.size + r.size + 1) l r (Nat.lt_succ_self _)

end PTree

namespace PTree

theorem key_mem_of_entry_mem {t : PTree} {x : Int × Bool × Bool}
    (hx : x ∈ entries t) : x.1 ∈ keys t := by
  rw [keys_eq_entries_map]
  exact List.mem_map.mpr ⟨x, hx, rfl⟩

theorem entry_mem_of_key_mem {t : PTree} {i : Int} (hi : i ∈ keys t) :
    ∃ x ∈ entries t, x.1 = i := by
  rw [keys_eq_entries_map] at hi
  obtain ⟨x, hx, he⟩ := List.mem_map.mp hi
  exact ⟨x, hx, he⟩

/-- The BST placement loop of `insert_pivot` (from the root): on a BST
without the key it succeeds and splices the new entry exactly at its
in-order position. -/
theorem attach_spec : ∀ (t : PTree), IsBST t → ∀ (k : Int) (sl sr : Bool) (prio : Nat),
    k ∉ keys t →
    ∃ t2 e1 e2, attach k sl sr prio t = some t2 ∧
      entries t = e1 ++ e2 ∧ entries t2 = e1 ++ (k, sl, sr) :: e2 ∧
      (∀ x ∈ e1, x.1 < k) ∧ (∀ x ∈ e2, k < x.1)
  | leaf, _, k, sl, sr, prio, _ =>
    ⟨node k sl sr prio leaf leaf, [], [], rfl, rfl, rfl, by simp, by simp⟩
  | node j jsl jsr jp l r, hbst, k, sl, sr, prio, hk => by
    obtain ⟨hbl, hbr, hkl, hkr⟩ := isBST_node.mp hbst
    rw [show keys (node j jsl jsr jp l r) = keys l ++ j :: keys r from rfl] at hk
    simp only [List.mem_append, List.mem_cons, not_or] at hk
    obtain ⟨hknl, hkj, hknr⟩ := hk
    rcases lt_trichotomy j k with hjk | hjk | hjk
    · obtain ⟨r2, e1r, e2r, ha, he, he2, hb1, hb2⟩ := attach_spec r hbr k sl sr prio hknr
      refine ⟨node j jsl jsr jp l r2, entries l ++ (j, jsl, jsr) :: e1r, e2r,
        ?_, ?_, ?_, ?_, hb2⟩
      · unfold attach
        rw [if_pos hjk, ha]
      · show entries l ++ (j, jsl, jsr) :: entries r = _
        rw [he]
        simp
      · show entries l ++ (j, jsl, jsr) :: entries r2 = _
        rw [he2]
        simp
      · intro x hx
        rcases List.mem_append.mp hx with hx | hx
        · exact lt_trans (hkl _ (key_mem_of_entry_mem hx)) hjk
        · rcases List.mem_cons.mp hx with hx | hx
          · rw [hx]
            exact hjk
          · exact hb1 x hx
    · exact absurd hjk.symm hkj
    · obtain ⟨l2, e1l, e2l, ha, he, he2, hb1, hb2⟩ := attach_spec l hbl k sl sr prio hknl
      refine ⟨node j jsl jsr jp l2 r, e1l, e2l ++ (j, jsl, jsr) :: entries r,
        ?_, ?_, ?_, hb1, ?_⟩
      · unfold attach
        rw [if_neg (by omega), if_pos hjk, ha]
      · show entries l ++ (j, jsl, jsr) :: entries r = _
        rw [he]
        simp
      · show entries l2 ++ (j, jsl, jsr) :: entries r = _
        rw [he2]
        simp
      · intro x hx
        rcases List.mem_append.mp hx with hx | hx
        · exact hb2 x hx
        · rcases List.mem_cons.mp hx with hx | hx
          · rw [hx]
            exact hjk
          · exact lt_trans hjk (hkr _ (key_mem_of_entry_mem hx))

theorem deleteIdx_node_lt {i j : Int} {sl sr : Bool} {p : Nat} {l r : PTree}
    (hij : i < j) :
    deleteIdx i (node j sl sr p l r) = node j sl sr p (deleteIdx i l) r := by
  rw [show deleteIdx i (node j sl sr p l r) =
      (if i < j then node j sl sr p (deleteIdx i l) r
       else if j < i then node j sl sr p l (deleteIdx i r)
       else match l, r with
         | leaf, _ => r
         | node a1 b1 c1 d1 g1 h1, leaf => node a1 b1 c1 d1 g1 h1
         | node a1 b1 c1 d1 g1 h1, node a2 b2 c2 d2 g2 h2 =>
           mergeT (node a1 b1 c1 d1 g1 h1) (node a2 b2 c2 d2 g2 h2)) from rfl]
  rw [if_pos hij]

theorem deleteIdx_node_gt {i j : Int} {sl sr : Bool} {p : Nat} {l r : PTree}
    (hij : j < i) :
    deleteIdx i (node j sl sr p l r) = node j sl sr p l (deleteIdx i r) := by
  rw [show deleteIdx i (node j sl sr p l r) =
      (if i < j then node j sl sr p (deleteIdx i l) r
       else if j < i then node j sl sr p l (deleteIdx i r)
       else match l, r with
         | leaf, _ => r
         | node a1 b1 c1 d1 g1 h1, leaf => node a1 b1 c1 d1 g1 h1
         | node a1 b1 c1 d1 g1 h1, node a2 b2 c2 d2 g2 h2 =>
           mergeT (node a1 b1 c1 d1 g1 h1) (node a2 b2 c2 d2 g2 h2)) from rfl]
  rw [if_neg (by omega), if_pos hij]

/-- `delete_node` on a BST: it removes exactly the in-order entry with
the given index, keeping everything else in order. -/
theorem deleteIdx_spec : ∀ (t : PTree), IsBST t → ∀ (i : Int), i ∈ keys t →
    ∃ fl e1 e2, entries t = e1 ++ (i, fl) :: e2 ∧
      entries (deleteIdx i t) = e1 ++ e2 ∧
      (∀ x ∈ e1, x.1 < i) ∧ (∀ x ∈ e2, i < x.1)
  | leaf, _, i, hi => absurd hi (by simp [keys])
  | node j sl sr p l r, hbst, i, hi => by
    obtain ⟨hbl, hbr, hkl, hkr⟩ := isBST_node.mp hbst
    rw [show keys (node j sl sr p l r) = keys l ++ j :: keys r from rfl] at hi
    rcases lt_trichotomy i j with hij | hij | hij
    · have hil : i ∈ keys l := by
        rcases List.mem_append.mp hi with h | h
        · exact h
        · rcases List.mem_cons.mp h with h | h
          · omega
          · exact absurd (hkr i h) (by omega)
      obtain ⟨fl, e1, e2, he, hd, hb1, hb2⟩ := deleteIdx_spec l hbl i hil
      refine ⟨fl, e1, e2 ++ (j, sl, sr) :: entries r, ?_, ?_, hb1, ?_⟩
      · show entries l ++ (j, sl, sr) :: entries r = _
        rw [he]
        simp
      · have hred : deleteIdx i (node j sl sr p l r) = node j sl sr p (deleteIdx i l) r :=
          deleteIdx_node_lt hij
        rw [hred]
        show entries (deleteIdx i l) ++ (j, sl, sr) :: entries r = _
        rw [hd]
        simp
      · intro x hx
        rcases List.mem_append.mp hx with hx | hx
        · exact hb2 x hx
        · rcases List.mem_cons.mp hx with hx | hx
          · rw [hx]
            exact hij
          · exact lt_trans hij (hkr _ (key_mem_of_entry_mem hx))
    · subst hij
      refine ⟨(sl, sr), entries l, entries r, rfl, ?_,
        fun x hx => hkl _ (key_mem_of_entry_mem hx),
        fun x hx => hkr _ (key_mem_of_entry_mem hx)⟩
      cases l with
      | leaf =>
        have hred : deleteIdx i (node i sl sr p leaf r) = r := by
          unfold deleteIdx
          rw [if_neg (lt_irrefl i), if_neg (lt_irrefl i)]
        rw [hred]
        rfl
      | node a b c d e f =>
        cases r with
        | leaf =>
          have hred : deleteIdx i (node i sl sr p (node a b c d e f) leaf) =
              node a b c d e f := by
            unfold deleteIdx
            rw [if_neg (lt_irrefl i), if_neg (lt_irrefl i)]
          rw [hred]
          rw [show entries (leaf) = ([] : List (Int × Bool × Bool)) from rfl, List.append_nil]
        | node a2 b2 c2 d2 e2 f2 =>
          have hred : deleteIdx i (node i sl sr p (node a b c d e f) (node a2 b2 c2 d2 e2 f2)) =
              mergeT (node a b c d e f) (node a2 b2 c2 d2 e2 f2) := by
            unfold deleteIdx
            rw [if_neg (lt_irrefl i), if_neg (lt_irrefl i)]
          rw [hred, entries_mergeT]
    · have hir : i ∈ keys r := by
        rcases List.mem_append.mp hi with h | h
        · exact absurd (hkl i h) (by omega)
        · rcases List.mem_cons.mp h with h | h
          · omega
          · exact h
      obtain ⟨fl, e1, e2, he, hd, hb1, hb2⟩ := deleteIdx_spec r hbr i hir
      refine ⟨fl, entries l ++ (j, sl, sr) :: e1, e2, ?_, ?_, ?_, hb2⟩
      · show entries l ++ (j, sl, sr) :: entries r = _
        rw [he]
        simp
      · have hred : deleteIdx i (node j sl sr p l r) = node j sl sr p l (deleteIdx i r) :=
          deleteIdx_node_gt hij
        rw [hred]
        show entries l ++ (j, sl, sr) :: entries (deleteIdx i r) = _
        rw [hd]
        simp
      · intro x hx
        rcases List.mem_append.mp hx with hx | hx
        · exact lt_trans (hkl _ (key_mem_of_entry_mem hx)) hij
        · rcases List.mem_cons.mp hx with hx | hx
          · rw [hx]
            exact hij
          · exact hb1 x hx

/-- Splicing an entry with a fresh middle key into a sorted entry list
keeps the key list sorted. -/
theorem isBST_of_insert {t t2 : PTree} {e1 e2 : List (Int × Bool × Bool)}
    {k : Int} {sl sr : Bool}
    (hbst : IsBST t) (he : entries t = e1 ++ e2)
    (he2 : entries t2 = e1 ++ (k, sl, sr) :: e2)
    (hb1 : ∀ x ∈ e1, x.1 < k) (hb2 : ∀ x ∈ e2, k < x.1) : IsBST t2 := by
  have hold : ((e1 ++ e2).map (fun e => e.1)).Pairwise (· < ·) := by
    have := hbst
    rw [IsBST, keys_eq_entries_map, he] at this
    exact this
  rw [List.map_append] at hold
  obtain ⟨h1, h2, h12⟩ := List.pairwise_append.mp hold
  show (keys t2).Pairwise (· < ·)
  rw [keys_eq_entries_map, he2, List.map_append, List.map_cons]
  rw [List.pairwise_append]
  refine ⟨h1, ?_, ?_⟩
  · rw [List.pairwise_cons]
    refine ⟨?_, h2⟩
    intro y hy
    obtain ⟨x, hx, hxy⟩ := List.mem_map.mp hy
    rw [← hxy]
    exact hb2 x hx
  · intro a ha b hb
    obtain ⟨x, hx, hax⟩ := List.mem_map.mp ha
    rcases List.mem_cons.mp hb with hb | hb
    · rw [hb, ← hax]
      exact hb1 x hx
    · exact h12 a ha b hb

/-- Removing an entry from a sorted entry list keeps it sorted. -/
theorem isBST_of_delete {t t2 : PTree} {e1 e2 : List (Int × Bool × Bool)}
    {k : Int} {fl : Bool × Bool}
    (hbst : IsBST t) (he : entries t = e1 ++ (k, fl) :: e2)
    (he2 : entries t2 = e1 ++ e2) : IsBST t2 := by
  have hold : ((e1 ++ (k, fl) :: e2).map (fun e => e.1)).Pairwise (· < ·) := by
    have := hbst
    rw [IsBST, keys_eq_entries_map, he] at this
    exact this
  show (keys t2).Pairwise (· < ·)
  rw [keys_eq_entries_map, he2]
  refine List.Pairwise.sublist (List.Sublist.map _ ?_) hold
  exact List.Sublist.append_left (List.sublist_cons_self _ _) e1

theorem find?_entries_none {e1 : List (Int × Bool × Bool)} {i : Int}
    (h : ∀ x ∈ e1, x.1 ≠ i) :
    e1.find? (fun e => decide (e.1 = i)) = none :=
  List.find?_eq_none.mpr (by
    intro x hx
    simp only [decide_eq_true_eq]
    exact h x hx)

/-- `flagsAt` after an entry splice: the new key reads its flags. -/
theorem flagsAt_insert_self {t2 : PTree} {e1 e2 : List (Int × Bool × Bool)}
    {k : Int} {sl sr : Bool}
    (he2 : entries t2 = e1 ++ (k, sl, sr) :: e2)
    (hb1 : ∀ x ∈ e1, x.1 < k) :
    flagsAt t2 k = some (sl, sr) := by
  unfold flagsAt
  rw [he2, List.find?_append,
    find?_entries_none (fun x hx => ne_of_lt (hb1 x hx)), Option.none_or,
    List.find?_cons_of_pos _ (by simp)]
  rfl

/-- `flagsAt` after an entry splice: other keys are untouched. -/
theorem flagsAt_insert_other {t t2 : PTree} {e1 e2 : List (Int × Bool × Bool)}
    {k : Int} {sl sr : Bool} (i : Int) (hik : i ≠ k)
    (he : entries t = e1 ++ e2) (he2 : entries t2 = e1 ++ (k, sl, sr) :: e2) :
    flagsAt t2 i = flagsAt t i := by
  unfold flagsAt
  rw [he, he2, List.find?_append, List.find?_append,
    List.find?_cons_of_neg _ (by simp; omega)]

/-- `flagsAt` after an entry removal: the removed key is gone. -/
theorem flagsAt_delete_self {t2 : PTree} {e1 e2 : List (Int × Bool × Bool)}
    {k : Int} (he2 : entries t2 = e1 ++ e2)
    (hb1 : ∀ x ∈ e1, x.1 < k) (hb2 : ∀ x ∈ e2, k < x.1) :
    flagsAt t2 k = none := by
  unfold flagsAt
  rw [he2, List.find?_append,
    find?_entries_none (fun x hx => ne_of_lt (hb1 x hx)), Option.none_or,
    find?_entries_none (fun x hx => ne_of_gt (hb2 x hx))]
  rfl

/-- `flagsAt` after an entry removal: other keys are untouched. -/
theorem flagsAt_delete_other {t t2 : PTree} {e1 e2 : List (Int × Bool × Bool)}
    {k : Int} {fl : Bool × Bool} (i : Int) (hik : i ≠ k)
    (he : entries t = e1 ++ (k, fl) :: e2) (he2 : entries t2 = e1 ++ e2) :
    flagsAt t2 i = flagsAt t i := by
  unfold flagsAt
  rw [he, he2, List.find?_append, List.find?_append,
    List.find?_cons_of_neg _ (by simp; omega)]

/-- Key membership after an entry splice. -/
theorem mem_keys_insert {t t2 : PTree} {e1 e2 : List (Int × Bool × Bool)}
    {k : Int} {sl sr : Bool}
    (he : entries t = e1 ++ e2) (he2 : entries t2 = e1 ++ (k, sl, sr) :: e2)
    (i : Int) : i ∈ keys t2 ↔ i = k ∨ i ∈ keys t := by
  rw [keys_eq_entries_map, keys_eq_entries_map, he, he2]
  simp only [List.map_append, List.map_cons, List.mem_append, List.mem_cons]
  constructor
  · rintro (h | h | h)
    · exact Or.inr (Or.inl h)
    · exact Or.inl h
    · exact Or.inr (Or.inr h)
  · rintro (h | h | h)
    · exact Or.inr (Or.inl h)
    · exact Or.inl h
    · exact Or.inr (Or.inr h)

/-- Key membership after an entry removal. -/
theorem mem_keys_delete {t t2 : PTree} {e1 e2 : List (Int × Bool × Bool)}
    {k : Int} {fl : Bool × Bool}
    (he : entries t = e1 ++ (k, fl) :: e2) (he2 : entries t2 = e1 ++ e2)
    (hb1 : ∀ x ∈ e1, x.1 < k) (hb2 : ∀ x ∈ e2, k < x.1)
    (i : Int) : i ∈ keys t2 ↔ i ∈ keys t ∧ i ≠ k := by
  rw [keys_eq_entries_map, keys_eq_entries_map, he, he2]
  simp only [List.map_append, List.map_cons, List.mem_append, List.mem_cons]
  constructor
  · rintro (h | h)
    · obtain ⟨x, hx, hxe⟩ := List.mem_map.mp h
      exact ⟨Or.inl h, by rw [← hxe]; exact ne_of_lt (hb1 x hx)⟩
    · obtain ⟨x, hx, hxe⟩ := List.mem_map.mp h
      exact ⟨Or.inr (Or.inr h), by rw [← hxe]; exact ne_of_gt (hb2 x hx)⟩
  · rintro ⟨h | h | h, hne⟩
    · exact Or.inl h
    · exact absurd h hne
    · exact Or.inr h

end PTree

namespace PTree

theorem succIdx_eq_of {t : PTree} {i q : Int} (hbst : IsBST t)
    (hq : q ∈ keys t) (hiq : i < q) (hmin : ∀ j ∈ keys t, i < j → q ≤ j) :
    succIdx t i = some q := by
  obtain ⟨q2, hq2⟩ := succIdx_isSome (i := i) hq hiq
  have h1 := succIdx_min hbst hq2 q hq hiq
  obtain ⟨hq2mem, hq2gt⟩ := succIdx_mem hq2
  have h2 := hmin q2 hq2mem hq2gt
  rw [hq2]
  congr 1
  omega

theorem predIdx_eq_of {t : PTree} {i q : Int} (hbst : IsBST t)
    (hq : q ∈ keys t) (hqi : q < i) (hmax : ∀ j ∈ keys t, j < i → j ≤ q) :
    predIdx t i = some q := by
  obtain ⟨q2, hq2⟩ := predIdx_isSome (i := i) hq hqi
  have h1 := predIdx_max hbst hq2 q hq hqi
  obtain ⟨hq2mem, hq2lt⟩ := predIdx_mem hq2
  have h2 := hmax q2 hq2mem hq2lt
  rw [hq2]
  congr 1
  omega

theorem predIdx_node_lt2 {k j : Int} {sl sr : Bool} {p : Nat} {tl tr : PTree}
    (hkl : ∀ x ∈ keys tl, x < j) (hjk : j < k) :
    predIdx (node j sl sr p tl tr) k =
      (match predIdx tr k with
       | some q => some q
       | none => some j) := by
  unfold predIdx
  rw [show keys (node j sl sr p tl tr) = keys tl ++ j :: keys tr from rfl]
  rw [List.filter_append, List.filter_cons]
  have htl : (keys tl).filter (fun x => decide (x < k)) = keys tl :=
    List.filter_eq_self.mpr (by
      intro x hx
      simp only [decide_eq_true_eq]
      exact lt_trans (hkl x hx) hjk)
  rw [htl, if_pos (by simpa using hjk)]
  cases hf : (keys tr).filter (fun x => decide (x < k)) with
  | nil => simp
  | cons a tl2 =>
    rw [List.getLast?_append, List.getLast?_cons_cons]
    have hne : (a :: tl2) ≠ ([] : List Int) := by simp
    rw [List.getLast?_eq_getLast _ hne]
    rfl

theorem predIdx_node_gt2 {k j : Int} {sl sr : Bool} {p : Nat} {tl tr : PTree}
    (hkr : ∀ y ∈ keys tr, j < y) (hkj : k < j) :
    predIdx (node j sl sr p tl tr) k = predIdx tl k := by
  unfold predIdx
  rw [show keys (node j sl sr p tl tr) = keys tl ++ j :: keys tr from rfl]
  have htr : (keys tr).filter (fun x => decide (x < k)) = [] :=
    List.filter_eq_nil_iff.mpr (by
      intro y hy
      simp only [decide_eq_true_eq]
      have := hkr y hy
      omega)
  rw [List.filter_append, List.filter_cons, if_neg (by simp; omega), htr,
    List.append_nil]

theorem succIdx_node_gt2 {k j : Int} {sl sr : Bool} {p : Nat} {tl tr : PTree}
    (hkr : ∀ y ∈ keys tr, j < y) (hkj : k < j) :
    succIdx (node j sl sr p tl tr) k =
      (match succIdx tl k with
       | some q => some q
       | none => some j) := by
  unfold succIdx
  rw [show keys (node j sl sr p tl tr) = keys tl ++ j :: keys tr from rfl]
  rw [List.filter_append, List.filter_cons, if_pos (by simpa using hkj)]
  have htr : (keys tr).filter (fun x => decide (k < x)) = keys tr :=
    List.filter_eq_self.mpr (by
      intro y hy
      simp only [decide_eq_true_eq]
      exact lt_trans hkj (hkr y hy))
  rw [htr, List.head?_append]
  cases hf : (keys tl).filter (fun x => decide (k < x)) with
  | nil => rfl
  | cons a tl2 =>
    rw [List.head?_cons]
    rfl

theorem succIdx_node_lt2 {k j : Int} {sl sr : Bool} {p : Nat} {tl tr : PTree}
    (hkl : ∀ x ∈ keys tl, x < j) (hjk : j < k) :
    succIdx (node j sl sr p tl tr) k = succIdx tr k := by
  unfold succIdx
  rw [show keys (node j sl sr p tl tr) = keys tl ++ j :: keys tr from rfl]
  have htl : (keys tl).filter (fun x => decide (k < x)) = [] :=
    List.filter_eq_nil_iff.mpr (by
      intro x hx
      simp only [decide_eq_true_eq]
      have := hkl x hx
      omega)
  rw [List.filter_append, htl, List.filter_cons, if_neg (by simp; omega)]
  rfl

/-- `bound_idx` on a tree without the key: the accumulators are replaced
exactly when the subtree offers a predecessor/successor. -/
theorem boundGo_not_mem {k : Int} : ∀ (t : PTree), IsBST t → k ∉ keys t →
    ∀ (aL aR : Option Int),
    boundGo k t aL aR =
      ((match predIdx t k with | some q => some q | none => aL),
       (match succIdx t k with | some q => some q | none => aR))
  | leaf, _, _, aL, aR => by
    show (aL, aR) = _
    rw [show predIdx leaf k = none from rfl, show succIdx leaf k = none from rfl]
  | node j sl sr p tl tr, hbst, hk, aL, aR => by
    obtain ⟨hbl, hbr, hkl, hkr⟩ := isBST_node.mp hbst
    have hkj : k ≠ j := by
      intro hc
      apply hk
      rw [hc, show keys (node j sl sr p tl tr) = keys tl ++ j :: keys tr from rfl]
      simp
    rw [show keys (node j sl sr p tl tr) = keys tl ++ j :: keys tr from rfl] at hk
    simp only [List.mem_append, List.mem_cons, not_or] at hk
    obtain ⟨hknl, _, hknr⟩ := hk
    rcases lt_trichotomy j k with hjk | hjk | hjk
    · have hred : boundGo k (node j sl sr p tl tr) aL aR = boundGo k tr (some j) aR := by
        show (if j < k then boundGo k tr (some j) aR
          else if k < j then boundGo k tl aL (some j) else (some j, aR)) = _
        rw [if_pos hjk]
      rw [hred, boundGo_not_mem tr hbr hknr (some j) aR,
        predIdx_node_lt2 hkl hjk, succIdx_node_lt2 hkl hjk]
      cases predIdx tr k <;> rfl
    · exact absurd hjk.symm hkj
    · have hred : boundGo k (node j sl sr p tl tr) aL aR = boundGo k tl aL (some j) := by
        show (if j < k then boundGo k tr (some j) aR
          else if k < j then boundGo k tl aL (some j) else (some j, aR)) = _
        rw [if_neg (by omega), if_pos hjk]
      rw [hred, boundGo_not_mem tl hbl hknl aL (some j),
        predIdx_node_gt2 hkr hjk, succIdx_node_gt2 hkr hjk]
      cases succIdx tl k <;> rfl

/-- `bound_idx` with the key present: the left output is the exact hit. -/
theorem boundGo_mem {k : Int} : ∀ (t : PTree), IsBST t → k ∈ keys t →
    ∀ (aL aR : Option Int), (boundGo k t aL aR).1 = some k
  | leaf, _, hk, _, _ => absurd hk (by simp [keys])
  | node j sl sr p tl tr, hbst, hk, aL, aR => by
    obtain ⟨hbl, hbr, hkl, hkr⟩ := isBST_node.mp hbst
    rw [show keys (node j sl sr p tl tr) = keys tl ++ j :: keys tr from rfl] at hk
    rcases lt_trichotomy j k with hjk | hjk | hjk
    · have hktr : k ∈ keys tr := by
        rcases List.mem_append.mp hk with h | h
        · exact absurd (hkl k h) (by omega)
        · rcases List.mem_cons.mp h with h | h
          · omega
          · exact h
      have hred : boundGo k (node j sl sr p tl tr) aL aR = boundGo k tr (some j) aR := by
        show (if j < k then boundGo k tr (some j) aR
          else if k < j then boundGo k tl aL (some j) else (some j, aR)) = _
        rw [if_pos hjk]
      rw [hred]
      exact boundGo_mem tr hbr hktr (some j) aR
    · have hred : boundGo k (node j sl sr p tl tr) aL aR = (some j, aR) := by
        show (if j < k then boundGo k tr (some j) aR
          else if k < j then boundGo k tl aL (some j) else (some j, aR)) = _
        rw [if_neg (by omega), if_neg (by omega)]
      rw [hred, hjk]
    · have hktl : k ∈ keys tl := by
        rcases List.mem_append.mp hk with h | h
        · exact h
        · rcases List.mem_cons.mp h with h | h
          · omega
          · exact absurd (hkr k h) (by omega)
      have hred : boundGo k (node j sl sr p tl tr) aL aR = boundGo k tl aL (some j) := by
        show (if j < k then boundGo k tr (some j) aR
          else if k < j then boundGo k tl aL (some j) else (some j, aR)) = _
        rw [if_neg (by omega), if_pos hjk]
      rw [hred]
      exact boundGo_mem tl hbl hktl aL (some j)

theorem boundIdx_not_mem {t : PTree} {k : Int} (hbst : IsBST t) (hk : k ∉ keys t) :
    boundIdx t k = (predIdx t k, succIdx t k) := by
  unfold boundIdx
  rw [boundGo_not_mem t hbst hk none none]
  cases predIdx t k <;> cases succIdx t k <;> rfl

theorem boundIdx_mem {t : PTree} {k : Int} (hbst : IsBST t) (hk : k ∈ keys t) :
    (boundIdx t k).1 = some k :=
  boundGo_mem t hbst hk none none

/-- The successor of the predecessor of an absent key is the successor
of the key itself. -/
theorem succIdx_of_predIdx {t : PTree} {k p : Int} (hbst : IsBST t)
    (hk : k ∉ keys t) (hp : predIdx t k = some p) :
    succIdx t p = succIdx t k := by
  obtain ⟨hpmem, hpk⟩ := predIdx_mem hp
  cases hq : succIdx t k with
  | some q =>
    obtain ⟨hqmem, hkq⟩ := succIdx_mem hq
    refine succIdx_eq_of hbst hqmem (by omega) ?_
    intro j hj hpj
    rcases lt_trichotomy j k with hjk | hjk | hjk
    · exact absurd (predIdx_max hbst hp j hj hjk) (by omega)
    · exact absurd hjk (by intro hc; exact hk (hc ▸ hj))
    · exact succIdx_min hbst hq j hj hjk
  | none =>
    rw [show succIdx t p = ((keys t).filter (fun j => decide (p < j))).head? from rfl]
    rw [List.filter_eq_nil_iff.mpr ?_]
    · rfl
    · intro j hj
      simp only [decide_eq_true_eq]
      intro hpj
      rcases lt_trichotomy j k with hjk | hjk | hjk
      · exact absurd (predIdx_max hbst hp j hj hjk) (by omega)
      · exact hk (hjk ▸ hj)
      · exact absurd (succIdx_none hq j hj) (by omega)

/-- The predecessor of the successor of an absent key is the
predecessor of the key itself. -/
theorem predIdx_of_succIdx {t : PTree} {k q : Int} (hbst : IsBST t)
    (hk : k ∉ keys t) (hq : succIdx t k = some q) :
    predIdx t q = predIdx t k := by
  obtain ⟨hqmem, hkq⟩ := succIdx_mem hq
  cases hp : predIdx t k with
  | some p =>
    obtain ⟨hpmem, hpk⟩ := predIdx_mem hp
    refine predIdx_eq_of hbst hpmem (by omega) ?_
    intro j hj hjq
    rcases lt_trichotomy j k with hjk | hjk | hjk
    · exact predIdx_max hbst hp j hj hjk
    · exact absurd hjk (by intro hc; exact hk (hc ▸ hj))
    · exact absurd (succIdx_min hbst hq j hj hjk) (by omega)
  | none =>
    rw [show predIdx t q = ((keys t).filter (fun j => decide (j < q))).getLast? from rfl]
    rw [List.filter_eq_nil_iff.mpr ?_]
    · rfl
    · intro j hj
      simp only [decide_eq_true_eq]
      intro hjq
      rcases lt_trichotomy j k with hjk | hjk | hjk
      · exact absurd (predIdx_none hp j hj) (by omega)
      · exact hk (hjk ▸ hj)
      · exact absurd (succIdx_min hbst hq j hj hjk) (by omega)

end PTree

namespace PTree

/-- The descent from a freed hint scans the whole tree and fails. -/
theorem attachFrom_not_mem {hint k : Int} {sl sr : Bool} {prio : Nat} :
    ∀ (t : PTree), hint ∉ keys t →
    attachFrom hint k sl sr prio t = .error .useAfterFree
  | leaf, _ => rfl
  | node j jsl jsr jp l r, hh => by
    rw [show keys (node j jsl jsr jp l r) = keys l ++ j :: keys r from rfl] at hh
    simp only [List.mem_append, List.mem_cons, not_or] at hh
    obtain ⟨hhl, hhj, hhr⟩ := hh
    have hred : attachFrom hint k sl sr prio (node j jsl jsr jp l r) =
        (if hint = j then
          match attach k sl sr prio (node j jsl jsr jp l r) with
          | some t2 => Except.ok t2
          | none => Except.error Err.dupPivot
        else match attachFrom hint k sl sr prio l with
          | .ok l2 => .ok (node j jsl jsr jp l2 r)
          | .error .useAfterFree =>
            match attachFrom hint k sl sr prio r with
            | .ok r2 => .ok (node j jsl jsr jp l r2)
            | .error e => .error e
          | .error e => .error e) := rfl
    rw [hred, if_neg hhj, attachFrom_not_mem l hhl, attachFrom_not_mem r hhr]

/-- Starting `insert_pivot`'s placement descent at the key's in-order
predecessor lands the new node at the same spot as starting at the
root. -/
theorem attachFrom_ok_pred : ∀ (t : PTree), IsBST t →
    ∀ (k l : Int) (sl sr : Bool) (prio : Nat) (t2 : PTree),
    k ∉ keys t → l ∈ keys t → l < k → (∀ j ∈ keys t, j < k → j ≤ l) →
    attach k sl sr prio t = some t2 →
    attachFrom l k sl sr prio t = .ok t2
  | leaf, _, k, l, sl, sr, prio, t2, _, hl, _, _, _ => absurd hl (by simp [keys])
  | node j jsl jsr jp tl tr, hbst, k, l, sl, sr, prio, t2, hk, hl, hlk, hmax, ha => by
    obtain ⟨hbl, hbr, hkl, hkr⟩ := isBST_node.mp hbst
    have hred : attachFrom l k sl sr prio (node j jsl jsr jp tl tr) =
        (if l = j then
          match attach k sl sr prio (node j jsl jsr jp tl tr) with
          | some t2 => Except.ok t2
          | none => Except.error Err.dupPivot
        else match attachFrom l k sl sr prio tl with
          | .ok l2 => .ok (node j jsl jsr jp l2 tr)
          | .error .useAfterFree =>
            match attachFrom l k sl sr prio tr with
            | .ok r2 => .ok (node j jsl jsr jp tl r2)
            | .error e => .error e
          | .error e => .error e) := rfl
    rw [show keys (node j jsl jsr jp tl tr) = keys tl ++ j :: keys tr from rfl] at hk hl
    simp only [List.mem_append, List.mem_cons, not_or] at hk
    obtain ⟨hknl, hkj, hknr⟩ := hk
    by_cases hlj : l = j
    · rw [hred, if_pos hlj, ha]
    · have hmax2 : ∀ i, i ∈ keys tl ++ j :: keys tr → i < k → i ≤ l := by
        intro i hi hik
        exact hmax i (by
          rw [show keys (node j jsl jsr jp tl tr) = keys tl ++ j :: keys tr from rfl]
          exact hi) hik
      rcases lt_trichotomy l j with hljlt | h | hljgt
      · -- the hint is in the left subtree, and k descends left too
        have hltl : l ∈ keys tl := by
          rcases List.mem_append.mp hl with h | h
          · exact h
          · rcases List.mem_cons.mp h with h | h
            · omega
            · exact absurd (hkr l h) (by omega)
        have hkj2 : k < j := by
          rcases lt_trichotomy j k with h2 | h2 | h2
          · exact absurd (hmax2 j (by simp) h2) (by omega)
          · exact absurd h2.symm hkj
          · exact h2
        -- reduce attach at the node
        have ha2 : ∃ l2, attach k sl sr prio tl = some l2 ∧
            t2 = node j jsl jsr jp l2 tr := by
          have hared : attach k sl sr prio (node j jsl jsr jp tl tr) =
              (if j < k then
                match attach k sl sr prio tr with
                | some r2 => some (node j jsl jsr jp tl r2)
                | none => none
              else if k < j then
                match attach k sl sr prio tl with
                | some l2 => some (node j jsl jsr jp l2 tr)
                | none => none
              else none) := rfl
          rw [hared, if_neg (by omega), if_pos hkj2] at ha
          cases hl2 : attach k sl sr prio tl with
          | none => rw [hl2] at ha; cases ha
          | some l2 =>
            rw [hl2] at ha
            refine ⟨l2, rfl, ?_⟩
            cases ha
            rfl
        obtain ⟨l2, hl2, ht2⟩ := ha2
        have hih := attachFrom_ok_pred tl hbl k l sl sr prio l2 hknl hltl hlk
          (fun i hi hik => hmax2 i (List.mem_append.mpr (Or.inl hi)) hik) hl2
        rw [hred, if_neg hlj, hih, ht2]
      · exact absurd h hlj
      · -- the hint is in the right subtree, and k descends right too
        have hltr : l ∈ keys tr := by
          rcases List.mem_append.mp hl with h | h
          · exact absurd (hkl l h) (by omega)
          · rcases List.mem_cons.mp h with h | h
            · omega
            · exact h
        have hjk2 : j < k := by omega
        have ha2 : ∃ r2, attach k sl sr prio tr = some r2 ∧
            t2 = node j jsl jsr jp tl r2 := by
          have hared : attach k sl sr prio (node j jsl jsr jp tl tr) =
              (if j < k then
                match attach k sl sr prio tr with
                | some r2 => some (node j jsl jsr jp tl r2)
                | none => none
              else if k < j then
                match attach k sl sr prio tl with
                | some l2 => some (node j jsl jsr jp l2 tr)
                | none => none
              else none) := rfl
          rw [hared, if_pos hjk2] at ha
          cases hr2 : attach k sl sr prio tr with
          | none => rw [hr2] at ha; cases ha
          | some r2 =>
            rw [hr2] at ha
            refine ⟨r2, rfl, ?_⟩
            cases ha
            rfl
        obtain ⟨r2, hr2, ht2⟩ := ha2
        have hih := attachFrom_ok_pred tr hbr k l sl sr prio r2 hknr hltr hlk
          (fun i hi hik => hmax2 i (List.mem_append.mpr (Or.inr (List.mem_cons.mpr (Or.inr hi)))) hik) hr2
        have hnotl : l ∉ keys tl := by
          intro hc
          exact absurd (hkl l hc) (by omega)
        rw [hred, if_neg hlj, attachFrom_not_mem tl hnotl, hih, ht2]

/-- Starting `insert_pivot`'s placement descent at the key's in-order
successor lands the new node at the same spot as starting at the
root. -/
theorem attachFrom_ok_succ : ∀ (t : PTree), IsBST t →
    ∀ (k r : Int) (sl sr : Bool) (prio : Nat) (t2 : PTree),
    k ∉ keys t → r ∈ keys t → k < r → (∀ j ∈ keys t, k < j → r ≤ j) →
    attach k sl sr prio t = some t2 →
    attachFrom r k sl sr prio t = .ok t2
  | leaf, _, k, r, sl, sr, prio, t2, _, hr, _, _, _ => absurd hr (by simp [keys])
  | node j jsl jsr jp tl tr, hbst, k, r, sl, sr, prio, t2, hk, hr, hkr2, hmin, ha => by
    obtain ⟨hbl, hbr, hkl, hkr⟩ := isBST_node.mp hbst
    have hred : attachFrom r k sl sr prio (node j jsl jsr jp tl tr) =
        (if r = j then
          match attach k sl sr prio (node j jsl jsr jp tl tr) with
          | some t2 => Except.ok t2
          | none => Except.error Err.dupPivot
        else match attachFrom r k sl sr prio tl with
          | .ok l2 => .ok (node j jsl jsr jp l2 tr)
          | .error .useAfterFree =>
            match attachFrom r k sl sr prio tr with
            | .ok r2 => .ok (node j jsl jsr jp tl r2)
            | .error e => .error e
          | .error e => .error e) := rfl
    rw [show keys (node j jsl jsr jp tl tr) = keys tl ++ j :: keys tr from rfl] at hk hr
    simp only [List.mem_append, List.mem_cons, not_or] at hk
    obtain ⟨hknl, hkj, hknr⟩ := hk
    by_cases hrj : r = j
    · rw [hred, if_pos hrj, ha]
    · have hmin2 : ∀ i, i ∈ keys tl ++ j :: keys tr → k < i → r ≤ i := by
        intro i hi hik
        exact hmin i (by
          rw [show keys (node j jsl jsr jp tl tr) = keys tl ++ j :: keys tr from rfl]
          exact hi) hik
      rcases lt_trichotomy r j with hrjlt | h | hrjgt
      · -- the hint is in the left subtree, and k descends left too
        have hrtl : r ∈ keys tl := by
          rcases List.mem_append.mp hr with h | h
          · exact h
          · rcases List.mem_cons.mp h with h | h
            · omega
            · exact absurd (hkr r h) (by omega)
        have hkj2 : k < j := by omega
        have ha2 : ∃ l2, attach k sl sr prio tl = some l2 ∧
            t2 = node j jsl jsr jp l2 tr := by
          have hared : attach k sl sr prio (node j jsl jsr jp tl tr) =
              (if j < k then
                match attach k sl sr prio tr with
                | some r2 => some (node j jsl jsr jp tl r2)
                | none => none
              else if k < j then
                match attach k sl sr prio tl with
                | some l2 => some (node j jsl jsr jp l2 tr)
                | none => none
              else none) := rfl
          rw [hared, if_neg (by omega), if_pos hkj2] at ha
          cases hl2 : attach k sl sr prio tl with
          | none => rw [hl2] at ha; cases ha
          | some l2 =>
            rw [hl2] at ha
            refine ⟨l2, rfl, ?_⟩
            cases ha
            rfl
        obtain ⟨l2, hl2, ht2⟩ := ha2
        have hih := attachFrom_ok_succ tl hbl k r sl sr prio l2 hknl hrtl hkr2
          (fun i hi hik => hmin2 i (List.mem_append.mpr (Or.inl hi)) hik) hl2
        rw [hred, if_neg hrj, hih, ht2]
      · exact absurd h hrj
      · -- the hint is in the right subtree, and k descends right too
        have hrtr : r ∈ keys tr := by
          rcases List.mem_append.mp hr with h | h
          · exact absurd (hkl r h) (by omega)
          · rcases List.mem_cons.mp h with h | h
            · omega
            · exact h
        have hjk2 : j < k := by
          rcases lt_trichotomy j k with h2 | h2 | h2
          · exact h2
          · exact absurd h2.symm hkj
          · exact absurd (hmin2 j (by simp) h2) (by omega)
        have ha2 : ∃ r2, attach k sl sr prio tr = some r2 ∧
            t2 = node j jsl jsr jp tl r2 := by
          have hared : attach k sl sr prio (node j jsl jsr jp tl tr) =
              (if j < k then
                match attach k sl sr prio tr with
                | some r2 => some (node j jsl jsr jp tl r2)
                | none => none
              else if k < j then
                match attach k sl sr prio tl with
                | some l2 => some (node j jsl jsr jp l2 tr)
                | none => none
              else none) := rfl
          rw [hared, if_pos hjk2] at ha
          cases hr2 : attach k sl sr prio tr with
          | none => rw [hr2] at ha; cases ha
          | some r2 =>
            rw [hr2] at ha
            refine ⟨r2, rfl, ?_⟩
            cases ha
            rfl
        obtain ⟨r2, hr2, ht2⟩ := ha2
        have hih := attachFrom_ok_succ tr hbr k r sl sr prio r2 hknr hrtr hkr2
          (fun i hi hik => hmin2 i (List.mem_append.mpr (Or.inr (List.mem_cons.mpr (Or.inr hi)))) hik) hr2
        have hnotl : r ∉ keys tl := by
          intro hc
          exact absurd (hkl r hc) (by omega)
        rw [hred, if_neg hrj, attachFrom_not_mem tl hnotl, hih, ht2]

end PTree

section Transport

variable {α : Type} [Inhabited α] [LinearOrder α]

theorem sortedSeg_congr {A B : List α} {a b : Int}
    (h : ∀ m : Int, a ≤ m → m < b → getI B m = getI A m)
    (hs : sortedSeg A a b) : sortedSeg B a b := by
  intro i j hi hij hj
  rw [h i hi (by omega), h j (by omega) hj]
  exact hs i j hi hij hj

theorem sortedSeg_mono {A : List α} {a b a2 b2 : Int}
    (hs : sortedSeg A a b) (ha : a ≤ a2) (hb : b2 ≤ b) : sortedSeg A a2 b2 := by
  intro i j hi hij hj
  exact hs i j (by omega) hij (by omega)

end Transport

namespace PTree

theorem nodup_keys {t : PTree} (hb : IsBST t) : (keys t).Nodup := hb.nodup

theorem isBST_of_keys_eq {t t2 : PTree} (h : keys t2 = keys t) (hb : IsBST t) :
    IsBST t2 := by
  unfold IsBST
  rw [h]
  exact hb

theorem succIdx_of_keys_eq {t t2 : PTree} (h : keys t2 = keys t) (i : Int) :
    succIdx t2 i = succIdx t i := by
  unfold succIdx
  rw [h]

theorem predIdx_of_keys_eq {t t2 : PTree} (h : keys t2 = keys t) (i : Int) :
    predIdx t2 i = predIdx t i := by
  unfold predIdx
  rw [h]

theorem memT_of_keys_eq {t t2 : PTree} (h : keys t2 = keys t) (i : Int) :
    memT t2 i = memT t i := by
  unfold memT
  rw [h]

theorem flagsAt_eq_none_iff (t : PTree) (i : Int) :
    flagsAt t i = none ↔ i ∉ keys t := by
  rw [← flagsAt_isSome_iff]
  cases flagsAt t i <;> simp

theorem flags_exists_of_mem {t : PTree} {i : Int} (hi : i ∈ keys t) :
    ∃ a b, flagsAt t i = some (a, b) := by
  have := (flagsAt_isSome_iff t i).mpr hi
  cases hf : flagsAt t i with
  | none => rw [hf] at this; cases this
  | some fl =>
    refine ⟨fl.1, fl.2, ?_⟩
    rw [Prod.mk.eta]

theorem slAt_of_flags {t : PTree} {i : Int} {a b : Bool}
    (h : flagsAt t i = some (a, b)) : slAt t i = a := by
  unfold slAt
  rw [h]

theorem srAt_of_flags {t : PTree} {i : Int} {a b : Bool}
    (h : flagsAt t i = some (a, b)) : srAt t i = b := by
  unfold srAt
  rw [h]

theorem slAt_of_not_mem {t : PTree} {i : Int} (h : i ∉ keys t) : slAt t i = false := by
  unfold slAt
  rw [(flagsAt_eq_none_iff t i).mpr h]

theorem srAt_of_not_mem {t : PTree} {i : Int} (h : i ∉ keys t) : srAt t i = false := by
  unfold srAt
  rw [(flagsAt_eq_none_iff t i).mpr h]

theorem flagsAt_map_entries {t t2 : PTree} {f : Int × Bool × Bool → Int × Bool × Bool}
    (hf : ∀ e, (f e).1 = e.1)
    (he2 : entries t2 = (entries t).map f) (j : Int) :
    flagsAt t2 j = ((entries t).find? (fun e => decide (e.1 = j))).map (fun e => (f e).2) := by
  unfold flagsAt
  rw [he2, List.find?_map]
  rw [show ((fun e : Int × Bool × Bool => decide (e.1 = j)) ∘ f) =
      (fun e : Int × Bool × Bool => decide (e.1 = j)) from funext fun e => by
    show decide ((f e).1 = j) = decide (e.1 = j)
    rw [hf]]
  rw [Option.map_map]
  rfl

theorem flagsAt_setFlagsAt_self {t : PTree} {i : Int} (hb : IsBST t)
    (hmem : i ∈ keys t) (a b : Bool) :
    flagsAt (setFlagsAt t i a b) i = some (a, b) := by
  rw [flagsAt_map_entries (f := fun e => if e.1 = i then (e.1, a, b) else e)
    (fun e => by by_cases h : e.1 = i <;> simp [h])
    (entries_setFlagsAt t (nodup_keys hb) i a b) i]
  obtain ⟨c, d, hcd⟩ := flags_exists_of_mem hmem
  unfold flagsAt at hcd
  cases hfind : (entries t).find? (fun e => decide (e.1 = i)) with
  | none => rw [hfind] at hcd; cases hcd
  | some e =>
    have hei : e.1 = i := by simpa using List.find?_some hfind
    simp only [Option.map_some']
    rw [if_pos hei, hei]

theorem flagsAt_setFlagsAt_other {t : PTree} {i : Int} (hb : IsBST t)
    (a b : Bool) (j : Int) (hji : j ≠ i) :
    flagsAt (setFlagsAt t i a b) j = flagsAt t j := by
  rw [flagsAt_map_entries (f := fun e => if e.1 = i then (e.1, a, b) else e)
    (fun e => by by_cases h : e.1 = i <;> simp [h])
    (entries_setFlagsAt t (nodup_keys hb) i a b) j]
  unfold flagsAt
  cases hfind : (entries t).find? (fun e => decide (e.1 = j)) with
  | none => rfl
  | some e =>
    have hej : e.1 = j := by simpa using List.find?_some hfind
    simp only [Option.map_some']
    rw [if_neg (by omega)]

theorem flagsAt_orFlagsAt_self {t : PTree} {i : Int} {c d : Bool} (hb : IsBST t)
    (hcd : flagsAt t i = some (c, d)) (a b : Bool) :
    flagsAt (orFlagsAt t i a b) i = some (c || a, d || b) := by
  rw [flagsAt_map_entries (f := fun e => if e.1 = i then (e.1, e.2.1 || a, e.2.2 || b) else e)
    (fun e => by by_cases h : e.1 = i <;> simp [h])
    (entries_orFlagsAt t (nodup_keys hb) i a b) i]
  unfold flagsAt at hcd
  cases hfind : (entries t).find? (fun e => decide (e.1 = i)) with
  | none => rw [hfind] at hcd; cases hcd
  | some e =>
    rw [hfind] at hcd
    have hei : e.1 = i := by simpa using List.find?_some hfind
    simp only [Option.map_some'] at hcd ⊢
    rw [if_pos hei]
    have : e.2 = (c, d) := by
      exact Option.some_inj.mp hcd
    rw [show e.2.1 = c from by rw [this], show e.2.2 = d from by rw [this]]

theorem flagsAt_orFlagsAt_other {t : PTree} {i : Int} (hb : IsBST t)
    (a b : Bool) (j : Int) (hji : j ≠ i) :
    flagsAt (orFlagsAt t i a b) j = flagsAt t j := by
  rw [flagsAt_map_entries (f := fun e => if e.1 = i then (e.1, e.2.1 || a, e.2.2 || b) else e)
    (fun e => by by_cases h : e.1 = i <;> simp [h])
    (entries_orFlagsAt t (nodup_keys hb) i a b) j]
  unfold flagsAt
  cases hfind : (entries t).find? (fun e => decide (e.1 = j)) with
  | none => rfl
  | some e =>
    have hej : e.1 = j := by simpa using List.find?_some hfind
    simp only [Option.map_some']
    rw [if_neg (by omega)]

end PTree

section InsertUniq

variable {α : Type} [Inhabited α] [LinearOrder α]

/-- The first half of `uniq_pivots` (the left-bound merge). -/
def uniqStep1 (ctx : Ctx α) (l m : Int) (st : St α) : St α × Except Err Unit :=
  if 0 ≤ l then
    match callEq ctx (getI st.xs l) (getI st.xs m) st with
    | (st1, Except.error e) => (st1, Except.error e)
    | (st1, Except.ok true) =>
      match st1.root.flagsAt l with
      | none => (st1, Except.error Err.useAfterFree)
      | some (lsl, lsr) =>
        ({ st1 with root := (st1.root.setFlagsAt m lsl lsr).deleteIdx l }, Except.ok ())
    | (st1, Except.ok false) => (st1, Except.ok ())
  else (st, Except.ok ())

/-- The second half of `uniq_pivots` (the right-bound merge). -/
def uniqStep2 (ctx : Ctx α) (m r : Int) (nN : Int) (stm : St α) : St α × Except Err Unit :=
  if r < nN then
    match callEq ctx (getI stm.xs m) (getI stm.xs r) stm with
    | (st2, Except.error e) => (st2, Except.error e)
    | (st2, Except.ok true) =>
      match st2.root.flagsAt r with
      | none => (st2, Except.error Err.useAfterFree)
      | some (rsl, rsr) =>
        ({ st2 with root := (st2.root.setFlagsAt m rsl rsr).deleteIdx r }, Except.ok ())
    | (st2, Except.ok false) => (st2, Except.ok ())
  else (stm, Except.ok ())

theorem uniq_pivots_eq (ctx : Ctx α) (l m r : Int) (st : St α) :
    uniq_pivots ctx l m r st =
      (match uniqStep1 ctx l m st with
       | (st1, Except.error e) => (st1, Except.error e)
       | (st1, Except.ok _) => uniqStep2 ctx m r (st.xs.length : Int) st1) := rfl

theorem uniq_glue (ctx : Ctx α) (m r : Int) (nN : Int) (s : St α) :
    (match ((s, Except.ok ()) : St α × Except Err Unit) with
     | (st1, Except.error e) => (st1, Except.error e)
     | (st1, Except.ok _) => uniqStep2 ctx m r nN st1) = uniqStep2 ctx m r nN s := rfl

theorem uniqStep1_skip (ctx : Ctx α) (l m : Int) (st : St α) (h0l : ¬ 0 ≤ l) :
    uniqStep1 ctx l m st = (st, .ok ()) := by
  simp only [uniqStep1, if_neg h0l]

theorem uniqStep1_nofire {ctx : Ctx α} (hceq : CanonEq ctx) (l m : Int) (st : St α)
    (h0l : 0 ≤ l) (hne : getI st.xs l ≠ getI st.xs m) :
    uniqStep1 ctx l m st = ({ st with cc := st.cc + 1 }, .ok ()) := by
  simp only [uniqStep1, if_pos h0l, callEq_canon hceq, decide_eq_false hne]

theorem uniqStep1_fire {ctx : Ctx α} (hceq : CanonEq ctx) (l m : Int) (st : St α)
    {a b : Bool} (h0l : 0 ≤ l) (heq : getI st.xs l = getI st.xs m)
    (hab : st.root.flagsAt l = some (a, b)) :
    uniqStep1 ctx l m st =
      ({ st with cc := st.cc + 1, root := (st.root.setFlagsAt m a b).deleteIdx l }, .ok ()) := by
  simp only [uniqStep1, if_pos h0l, callEq_canon hceq, decide_eq_true heq, hab]

theorem uniqStep2_skip (ctx : Ctx α) (m r : Int) (nN : Int) (stm : St α)
    (hrN : ¬ r < nN) : uniqStep2 ctx m r nN stm = (stm, .ok ()) := by
  simp only [uniqStep2, if_neg hrN]

theorem uniqStep2_nofire {ctx : Ctx α} (hceq : CanonEq ctx) (m r : Int) (nN : Int)
    (stm : St α) (hrN : r < nN) (hne : getI stm.xs m ≠ getI stm.xs r) :
    uniqStep2 ctx m r nN stm = ({ stm with cc := stm.cc + 1 }, .ok ()) := by
  simp only [uniqStep2, if_pos hrN, callEq_canon hceq, decide_eq_false hne]

theorem uniqStep2_fire {ctx : Ctx α} (hceq : CanonEq ctx) (m r : Int) (nN : Int)
    (stm : St α) {a b : Bool} (hrN : r < nN) (heq : getI stm.xs m = getI stm.xs r)
    (hab : stm.root.flagsAt r = some (a, b)) :
    uniqStep2 ctx m r nN stm =
      ({ stm with cc := stm.cc + 1, root := (stm.root.setFlagsAt m a b).deleteIdx r }, .ok ()) := by
  simp only [uniqStep2, if_pos hrN, callEq_canon hceq, decide_eq_true heq, hab]

/-- `insert_pivot` with a live hint on the predecessor/successor side of
a fresh key: it succeeds and splices the new entry at its in-order
position (the treap rotations do not change the entry list). -/
theorem insert_pivot_spec {ctx : Ctx α} {k hint : Int} {sl sr : Bool} {st : St α}
    (hbst : st.root.IsBST) (hk : k ∉ st.root.keys) (hhint : hint ∈ st.root.keys)
    (hside : (hint < k ∧ ∀ j ∈ st.root.keys, j < k → j ≤ hint) ∨
             (k < hint ∧ ∀ j ∈ st.root.keys, k < j → hint ≤ j)) :
    ∃ st2 e1 e2, insert_pivot ctx k sl sr hint st = (st2, .ok ()) ∧
      st2.xs = st.xs ∧ st2.cc = st.cc ∧ st2.rc = st.rc + 1 ∧
      PTree.entries st.root = e1 ++ e2 ∧ PTree.entries st2.root = e1 ++ (k, sl, sr) :: e2 ∧
      (∀ x ∈ e1, x.1 < k) ∧ (∀ x ∈ e2, k < x.1) := by
  obtain ⟨xs, root, rc, cc⟩ := st
  obtain ⟨t2, e1, e2, ha, he, he2, hb1, hb2⟩ :=
    PTree.attach_spec root hbst k sl sr (ctx.rng rc) hk
  have haf : PTree.attachFrom hint k sl sr (ctx.rng rc) root = .ok t2 := by
    rcases hside with ⟨h1, h2⟩ | ⟨h1, h2⟩
    · exact PTree.attachFrom_ok_pred root hbst k hint sl sr _ t2 hk hhint h1 h2 ha
    · exact PTree.attachFrom_ok_succ root hbst k hint sl sr _ t2 hk hhint h1 h2 ha
  refine ⟨⟨xs, PTree.bubbleUp k t2, rc + 1, cc⟩, e1, e2, ?_, rfl, rfl, rfl, he, ?_, hb1, hb2⟩
  · cases root with
    | leaf => exact absurd hhint (by simp [PTree.keys])
    | node j jsl jsr jp tl tr =>
      show (match PTree.attachFrom hint k sl sr (ctx.rng rc) (PTree.node j jsl jsr jp tl tr) with
        | Except.ok t3 => ((⟨xs, PTree.bubbleUp k t3, rc + 1, cc⟩ : St α), Except.ok ())
        | Except.error e => (⟨xs, PTree.node j jsl jsr jp tl tr, rc + 1, cc⟩, Except.error e)) =
        ((⟨xs, PTree.bubbleUp k t2, rc + 1, cc⟩ : St α), Except.ok ())
      rw [haf]
  · show PTree.entries (PTree.bubbleUp k t2) = _
    rw [PTree.entries_bubbleUp, he2]

/-- `uniq_pivots` under a canonical equality comparator, on bounds whose
values are not both equal to the middle (no in-range pivot pair shares a
value): it succeeds, and either merges one bound into the middle or
leaves the tree alone. -/
theorem uniq_pivots_spec {ctx : Ctx α} (hceq : CanonEq ctx) {l m r : Int} {st : St α}
    (hlmem : 0 ≤ l → l ∈ st.root.keys)
    (hrmem : r < (st.xs.length : Int) → r ∈ st.root.keys)
    (hnodbl : ¬(0 ≤ l ∧ r < (st.xs.length : Int) ∧
       getI st.xs l = getI st.xs m ∧ getI st.xs m = getI st.xs r)) :
    ∃ st2, uniq_pivots ctx l m r st = (st2, .ok ()) ∧
      st2.xs = st.xs ∧ st2.rc = st.rc ∧
      ((st2.root = st.root ∧
          (0 ≤ l → getI st.xs l ≠ getI st.xs m) ∧
          (r < (st.xs.length : Int) → getI st.xs m ≠ getI st.xs r)) ∨
       (∃ a b, 0 ≤ l ∧ getI st.xs l = getI st.xs m ∧
          st.root.flagsAt l = some (a, b) ∧
          st2.root = (st.root.setFlagsAt m a b).deleteIdx l ∧
          (r < (st.xs.length : Int) → getI st.xs m ≠ getI st.xs r)) ∨
       (∃ a b, r < (st.xs.length : Int) ∧ getI st.xs m = getI st.xs r ∧
          st.root.flagsAt r = some (a, b) ∧
          st2.root = (st.root.setFlagsAt m a b).deleteIdx r ∧
          (0 ≤ l → getI st.xs l ≠ getI st.xs m))) := by
  by_cases h0l : 0 ≤ l
  · by_cases heq1 : getI st.xs l = getI st.xs m
    · obtain ⟨a, b, hab⟩ := PTree.flags_exists_of_mem (hlmem h0l)
      have hne2 : r < (st.xs.length : Int) → getI st.xs m ≠ getI st.xs r := by
        intro hrN hc
        exact hnodbl ⟨h0l, hrN, heq1, hc⟩
      set stm : St α := { st with cc := st.cc + 1, root := (st.root.setFlagsAt m a b).deleteIdx l } with hstm
      have hstep1red : uniq_pivots ctx l m r st = uniqStep2 ctx m r (st.xs.length : Int) stm := by
        rw [uniq_pivots_eq, uniqStep1_fire hceq l m st h0l heq1 hab, uniq_glue]
      by_cases hrN : r < (st.xs.length : Int)
      · refine ⟨{ stm with cc := stm.cc + 1 }, ?_, rfl, rfl, ?_⟩
        · rw [hstep1red, uniqStep2_nofire hceq m r _ stm hrN (hne2 hrN)]
        · exact Or.inr (Or.inl ⟨a, b, h0l, heq1, hab, rfl, hne2⟩)
      · refine ⟨stm, ?_, rfl, rfl, ?_⟩
        · rw [hstep1red, uniqStep2_skip ctx m r _ stm hrN]
        · exact Or.inr (Or.inl ⟨a, b, h0l, heq1, hab, rfl, hne2⟩)
    · set stm : St α := { st with cc := st.cc + 1 } with hstm
      have hstep1red : uniq_pivots ctx l m r st = uniqStep2 ctx m r (st.xs.length : Int) stm := by
        rw [uniq_pivots_eq, uniqStep1_nofire hceq l m st h0l heq1, uniq_glue]
      by_cases hrN : r < (st.xs.length : Int)
      · by_cases heq2 : getI st.xs m = getI st.xs r
        · obtain ⟨a2, b2, hab2⟩ := PTree.flags_exists_of_mem (hrmem hrN)
          have hab2m : stm.root.flagsAt r = some (a2, b2) := hab2
          refine ⟨{ stm with cc := stm.cc + 1, root := (stm.root.setFlagsAt m a2 b2).deleteIdx r }, ?_, rfl, rfl, ?_⟩
          · rw [hstep1red, uniqStep2_fire hceq m r _ stm hrN heq2 hab2m]
          · exact Or.inr (Or.inr ⟨a2, b2, hrN, heq2, hab2, rfl, fun _ => heq1⟩)
        · refine ⟨{ stm with cc := stm.cc + 1 }, ?_, rfl, rfl, ?_⟩
          · rw [hstep1red, uniqStep2_nofire hceq m r _ stm hrN heq2]
          · exact Or.inl ⟨rfl, fun _ => heq1, fun _ => heq2⟩
      · refine ⟨stm, ?_, rfl, rfl, ?_⟩
        · rw [hstep1red, uniqStep2_skip ctx m r _ stm hrN]
        · exact Or.inl ⟨rfl, fun _ => heq1, fun hc => absurd hc hrN⟩
  · have hstep1red : uniq_pivots ctx l m r st = uniqStep2 ctx m r (st.xs.length : Int) st := by
      rw [uniq_pivots_eq, uniqStep1_skip ctx l m st h0l, uniq_glue]
    by_cases hrN : r < (st.xs.length : Int)
    · by_cases heq2 : getI st.xs m = getI st.xs r
      · obtain ⟨a2, b2, hab2⟩ := PTree.flags_exists_of_mem (hrmem hrN)
        refine ⟨{ st with cc := st.cc + 1, root := (st.root.setFlagsAt m a2 b2).deleteIdx r }, ?_, rfl, rfl, ?_⟩
        · rw [hstep1red, uniqStep2_fire hceq m r _ st hrN heq2 hab2]
        · exact Or.inr (Or.inr ⟨a2, b2, hrN, heq2, hab2, rfl, fun hc => absurd hc h0l⟩)
      · refine ⟨{ st with cc := st.cc + 1 }, ?_, rfl, rfl, ?_⟩
        · rw [hstep1red, uniqStep2_nofire hceq m r _ st hrN heq2]
        · exact Or.inl ⟨rfl, fun hc => absurd hc h0l, fun _ => heq2⟩
    · refine ⟨st, ?_, rfl, rfl, ?_⟩
      · rw [hstep1red, uniqStep2_skip ctx m r _ st hrN]
      · exact Or.inl ⟨rfl, fun hc => absurd hc h0l, fun hc => absurd hc hrN⟩

end InsertUniq

section ListSplit

/-- Two decompositions of a duplicate-free entry list at the same key
coincide. -/
theorem split_unique : ∀ {u1 : List (Int × Bool × Bool)} {v1 u2 v2 : List (Int × Bool × Bool)}
    {i : Int} {f f2 : Bool × Bool},
    ((u1 ++ (i, f) :: u2).map (fun e => e.1)).Nodup →
    u1 ++ (i, f) :: u2 = v1 ++ (i, f2) :: v2 →
    u1 = v1 ∧ f = f2 ∧ u2 = v2 := by
  intro u1
  induction u1 with
  | nil =>
    intro v1 u2 v2 i f f2 hnd heq
    cases v1 with
    | nil =>
      simp only [List.nil_append] at heq
      obtain ⟨h1, h2⟩ := List.cons.injEq _ _ _ _ ▸ heq
      exact ⟨rfl, (Prod.mk.injEq _ _ _ _ ▸ h1).2, h2⟩
    | cons x v1t =>
      exfalso
      simp only [List.nil_append, List.cons_append] at heq hnd
      obtain ⟨h1, h2⟩ := List.cons.injEq _ _ _ _ ▸ heq
      rw [List.map_cons] at hnd
      have hni := (List.nodup_cons.mp hnd).1
      apply hni
      rw [h2]
      exact List.mem_map.mpr ⟨(i, f2),
        List.mem_append.mpr (Or.inr (List.mem_cons_self _ _)), rfl⟩
  | cons x u1t ih =>
    intro v1 u2 v2 i f f2 hnd heq
    cases v1 with
    | nil =>
      exfalso
      simp only [List.nil_append, List.cons_append] at heq
      obtain ⟨h1, h2⟩ := List.cons.injEq _ _ _ _ ▸ heq
      rw [List.cons_append, List.map_cons] at hnd
      have hni := (List.nodup_cons.mp hnd).1
      apply hni
      have hxi : x.1 = i := by rw [h1]
      rw [hxi]
      exact List.mem_map.mpr ⟨(i, f),
        List.mem_append.mpr (Or.inr (List.mem_cons_self _ _)), rfl⟩
    | cons y v1t =>
      simp only [List.cons_append] at heq
      obtain ⟨h1, h2⟩ := List.cons.injEq _ _ _ _ ▸ heq
      rw [List.cons_append, List.map_cons] at hnd
      obtain ⟨hu, hfe, hv⟩ := ih (List.nodup_cons.mp hnd).2 h2
      exact ⟨by rw [h1, hu], hfe, hv⟩

/-- A targeted flag rewrite is the identity on entries whose key differs. -/
theorem map_entries_id {es : List (Int × Bool × Bool)} {i : Int}
    (h : ∀ x ∈ es, x.1 ≠ i) (g : Int × Bool × Bool → Int × Bool × Bool) :
    es.map (fun e => if e.1 = i then g e else e) = es := by
  have : ∀ e ∈ es, (if e.1 = i then g e else e) = e := by
    intro e he
    rw [if_neg (h e he)]
  calc es.map (fun e => if e.1 = i then g e else e)
      = es.map id := List.map_congr_left this
    _ = es := List.map_id _

end ListSplit

namespace PTree

/-- The caller's hint rule picks one of the two bounding pivots. -/
theorem hintOf_cases (t : PTree) (l r : Int) :
    (match t.findNode l with
     | some (PTree.node _ _ _ _ _ PTree.leaf) => l
     | _ => r) = l ∨
    (match t.findNode l with
     | some (PTree.node _ _ _ _ _ PTree.leaf) => l
     | _ => r) = r := by
  cases h : t.findNode l with
  | none =>
    right
    rfl
  | some t0 =>
    cases t0 with
    | leaf =>
      right
      rfl
    | node a b c d e f =>
      cases f with
      | leaf =>
        left
        rfl
      | node a2 b2 c2 d2 e2 f2 =>
        right
        rfl

end PTree

/-- A three-pivot treap (keys `-1, 1, 4`, heap-ordered priorities
`5 > 3, 2`) used to witness the hint-equivalence claim at `k = 2`. -/
def c7Tree : PTree :=
  .node 1 false false 5 (.node (-1) false false 3 .leaf .leaf)
    (.node 4 false false 2 .leaf .leaf)

namespace PTree

/-- No key lies strictly between two in-order neighbours. -/
theorem no_keys_between {t : PTree} (hbst : IsBST t) {l r : Int}
    (hadj : succIdx t l = some r) :
    ∀ j ∈ keys t, ¬ (l < j ∧ j < r) := by
  intro j hj ⟨h1, h2⟩
  exact absurd (succIdx_min hbst hadj j hj h1) (by omega)

end PTree

section PointLoopInv

variable {α : Type} [Inhabited α] [LinearOrder α]

/-- The state a successful `sort_point(k)` leaves behind: `k` is a
pivot, or the right bounding pivot of its region carries
`SORTED_RIGHT` (what the early-return test of the next call reads). -/
def PostPoint (st : St α) (k : Int) : Prop :=
  k ∈ st.root.keys ∨
    ∃ q, st.root.succIdx k = some q ∧ st.root.srAt q = true

/-- The `partition` call of the quickselect loops, at the invariant
level: between adjacent bounds it succeeds, permutes only the open
region, keeps every invariant, and value-partitions the region. -/
theorem partitionC_inv {ctx : Ctx α} (hclt : CanonLt ctx) {l r : Int} {st : St α}
    (hInv : RegInv st)
    (hl : l ∈ st.root.keys) (hr : r ∈ st.root.keys)
    (hadj : st.root.succIdx l = some r)
    (hsll : st.root.slAt l = false)
    (hlr : l + 1 < r) :
    ∃ piv st1, partitionC ctx (l + 1) r st = (st1, .ok piv) ∧
      st1.root = st.root ∧ st1.xs.length = st.xs.length ∧
      RegInv st1 ∧
      l + 1 ≤ piv ∧ piv < r ∧
      (∀ m : Int, m ≤ l ∨ r ≤ m → getI st1.xs m = getI st.xs m) ∧
      (∀ m : Int, l + 1 ≤ m → m < piv → getI st1.xs m < getI st1.xs piv) ∧
      (∀ m : Int, piv < m → m < r → getI st1.xs piv ≤ getI st1.xs m) ∧
      PermWithin st.xs st1.xs (l + 1) r := by
  obtain ⟨hEng, hSl⟩ := hInv
  have hrange := hEng.range
  have hbst := hEng.bst
  have hlN : -1 ≤ l := (hrange l hl).1
  have hrN : r ≤ (st.xs.length : Int) := (hrange r hr).2
  have h0 : (0 : Int) ≤ l + 1 := by omega
  obtain ⟨piv, st1, heq, hlts, hges⟩ := partitionC_canon hclt st hlr h0 hrN
  obtain ⟨hroot, hrc, hperm, hokb⟩ := partitionC_frame ctx st hlr h0 hrN
  rw [heq] at hroot hrc hperm hokb
  simp only at hroot hrc hperm hokb
  obtain ⟨hpiv1, hpiv2⟩ := hokb piv rfl
  have hlen1 : st1.xs.length = st.xs.length := hperm.1
  have hframe : ∀ m : Int, m ≤ l ∨ r ≤ m → getI st1.xs m = getI st.xs m := by
    intro m hm
    exact hperm.2.1 m (by omega)
  have hnob := PTree.no_keys_between hbst hadj
  have hout : ∀ j ∈ st.root.keys, j ≤ l ∨ r ≤ j := by
    intro j hj
    by_contra hc
    push_neg at hc
    exact hnob j hj ⟨by omega, by omega⟩
  refine ⟨piv, st1, heq, hroot, hlen1, ⟨?_, ?_⟩, hpiv1, hpiv2, hframe, hlts, hges, hperm⟩
  · -- the light invariant
    refine ⟨?_, ?_, ?_, ?_, ?_, ?_, ?_, ?_, ?_, ?_⟩
    · rw [hroot]
      exact hbst
    · rw [hroot]
      exact hEng.sentL
    · rw [hroot, show (st1.xs.length : Int) = (st.xs.length : Int) from by rw [hlen1]]
      exact hEng.sentR
    · rw [hroot, show (st1.xs.length : Int) = (st.xs.length : Int) from by rw [hlen1]]
      exact hEng.range
    · rw [hroot, show (st1.xs.length : Int) = (st.xs.length : Int) from by rw [hlen1]]
      intro j hj h0j hjN
      exact sepAt_of_permWithin hperm h0 hrN
        (by have h := hout j hj; omega)
        (hEng.seps j hj h0j hjN)
    · rw [hroot, show (st1.xs.length : Int) = (st.xs.length : Int) from by rw [hlen1]]
      intro p hp h0p q hq hpq hqN
      rw [hframe p (hout p hp), hframe q (hout q hq)]
      exact hEng.strictVals p hp h0p q hq hpq hqN
    · rw [hroot]
      exact hEng.slOK
    · rw [hroot]
      exact hEng.srOK
    · rw [hroot]
      exact hEng.sentLFlag
    · rw [hroot, show (st1.xs.length : Int) = (st.xs.length : Int) from by rw [hlen1]]
      exact hEng.sentRFlag
  · -- the sorted-region semantics
    rw [hroot]
    intro u hu hslu q hq
    have hne : u ≠ l := by
      intro hc
      rw [hc] at hslu
      rw [hslu] at hsll
      cases hsll
    have hsorted := hSl u hu hslu q hq
    obtain ⟨hqmem, huq⟩ := PTree.succIdx_mem hq
    rcases hout u hu with hul | hur
    · -- the whole region sits at or below l
      have hql : q ≤ l := by
        have := PTree.succIdx_min hbst hq l hl (by omega)
        omega
      exact sortedSeg_congr (fun m h1 h2 => hframe m (Or.inl (by omega))) hsorted
    · -- the whole region sits at or above r
      exact sortedSeg_congr (fun m h1 h2 => hframe m (Or.inr (by omega))) hsorted

end PointLoopInv

namespace PTree

/-- Key membership after `deleteIdx`, at the tree level. -/
theorem mem_keys_deleteIdx {t : PTree} (hb : IsBST t) {i : Int} (hi : i ∈ keys t)
    (j : Int) : j ∈ keys (deleteIdx i t) ↔ j ∈ keys t ∧ j ≠ i := by
  obtain ⟨fl, e1, e2, he, hd, hb1, hb2⟩ := deleteIdx_spec t hb i hi
  exact mem_keys_delete he hd hb1 hb2 j

/-- `deleteIdx` keeps the BST order. -/
theorem isBST_deleteIdx {t : PTree} (hb : IsBST t) {i : Int} (hi : i ∈ keys t) :
    IsBST (deleteIdx i t) := by
  obtain ⟨fl, e1, e2, he, hd, hb1, hb2⟩ := deleteIdx_spec t hb i hi
  exact isBST_of_delete hb he hd

/-- The deleted key's flags are gone. -/
theorem flagsAt_deleteIdx_self {t : PTree} (hb : IsBST t) {i : Int} (hi : i ∈ keys t) :
    flagsAt (deleteIdx i t) i = none := by
  obtain ⟨fl, e1, e2, he, hd, hb1, hb2⟩ := deleteIdx_spec t hb i hi
  exact flagsAt_delete_self hd hb1 hb2

/-- Other keys' flags survive `deleteIdx`. -/
theorem flagsAt_deleteIdx_other {t : PTree} (hb : IsBST t) {i : Int} (hi : i ∈ keys t)
    (j : Int) (hji : j ≠ i) : flagsAt (deleteIdx i t) j = flagsAt t j := by
  obtain ⟨fl, e1, e2, he, hd, hb1, hb2⟩ := deleteIdx_spec t hb i hi
  exact flagsAt_delete_other j hji he hd

/-- Key membership after `setFlagsAt` (keys are untouched). -/
theorem mem_keys_setFlagsAt (t : PTree) (i : Int) (a b : Bool) (j : Int) :
    j ∈ keys (setFlagsAt t i a b) ↔ j ∈ keys t := by
  rw [keys_setFlagsAt]

theorem slAt_congr {t t2 : PTree} {i : Int} (h : flagsAt t2 i = flagsAt t i) :
    slAt t2 i = slAt t i := by
  unfold slAt
  rw [h]

theorem srAt_congr {t t2 : PTree} {i : Int} (h : flagsAt t2 i = flagsAt t i) :
    srAt t2 i = srAt t i := by
  unfold srAt
  rw [h]

end PTree

section QuickStep

variable {α : Type} [Inhabited α] [LinearOrder α]

/-- Rebuilding the region invariant after a pivot insertion when
`uniq_pivots` merged nothing: the tree gained exactly the key `piv`
with clear flags, every older node keeping its flags. -/
theorem quickRebuild_nomerge {l piv r : Int} {st st3 : St α}
    (hInv : RegInv st)
    (hl : l ∈ st.root.keys) (hr : r ∈ st.root.keys)
    (hadj : st.root.succIdx l = some r)
    (hsll : st.root.slAt l = false) (hsrr : st.root.srAt r = false)
    (hlp : l < piv) (hpr : piv < r)
    (hsepPiv : sepAt st.xs piv)
    (hApl : 0 ≤ l → getI st.xs l ≤ getI st.xs piv)
    (hApr : r < (st.xs.length : Int) → getI st.xs piv ≤ getI st.xs r)
    (hnel : 0 ≤ l → getI st.xs l ≠ getI st.xs piv)
    (hner : r < (st.xs.length : Int) → getI st.xs piv ≠ getI st.xs r)
    (hx3 : st3.xs = st.xs)
    (hbst3 : st3.root.IsBST)
    (hmem3 : ∀ i : Int, i ∈ st3.root.keys ↔ i = piv ∨ i ∈ st.root.keys)
    (hfp3 : st3.root.flagsAt piv = some (false, false))
    (hfo3 : ∀ i : Int, i ≠ piv → st3.root.flagsAt i = st.root.flagsAt i) :
    RegInv st3 ∧ piv ∈ st3.root.keys ∧
      (r ∈ st3.root.keys ∧ st3.root.succIdx piv = some r ∧
        st3.root.slAt piv = false ∧ st3.root.srAt r = false) ∧
      (l ∈ st3.root.keys ∧ st3.root.succIdx l = some piv ∧
        st3.root.slAt l = false ∧ st3.root.srAt piv = false) := by
  obtain ⟨hEng, hSl⟩ := hInv
  have hbst := hEng.bst
  have hnob := PTree.no_keys_between hbst hadj
  have hpivnotold : piv ∉ st.root.keys := fun hc => hnob piv hc ⟨hlp, hpr⟩
  have hrle : r ≤ (st.xs.length : Int) := (hEng.range r hr).2
  have hlge : -1 ≤ l := (hEng.range l hl).1
  have hlenss : (st3.xs.length : Int) = (st.xs.length : Int) := by rw [hx3]
  have hslp3 : st3.root.slAt piv = false := PTree.slAt_of_flags hfp3
  have hsrp3 : st3.root.srAt piv = false := PTree.srAt_of_flags hfp3
  have hslo3 : ∀ i : Int, i ≠ piv → st3.root.slAt i = st.root.slAt i :=
    fun i hi => PTree.slAt_congr (hfo3 i hi)
  have hsro3 : ∀ i : Int, i ≠ piv → st3.root.srAt i = st.root.srAt i :=
    fun i hi => PTree.srAt_congr (hfo3 i hi)
  have hpivmem3 : piv ∈ st3.root.keys := (hmem3 piv).mpr (Or.inl rfl)
  have hrne : r ≠ piv := by omega
  have hlne : l ≠ piv := by omega
  -- the two new adjacencies
  have hsucc3piv : st3.root.succIdx piv = some r := by
    refine PTree.succIdx_eq_of hbst3 ((hmem3 r).mpr (Or.inr hr)) hpr ?_
    intro j hj hpj
    rcases (hmem3 j).mp hj with hj | hj
    · omega
    · exact PTree.succIdx_min hbst hadj j hj (by omega)
  have hsucc3l : st3.root.succIdx l = some piv := by
    refine PTree.succIdx_eq_of hbst3 hpivmem3 hlp ?_
    intro j hj hlj
    rcases (hmem3 j).mp hj with hj | hj
    · omega
    · have := PTree.succIdx_min hbst hadj j hj hlj
      omega
  -- the successor of an old flag-obligated node is unchanged
  have hsuccKeep : ∀ u ∈ st.root.keys, st.root.slAt u = true →
      ∀ q0, st.root.succIdx u = some q0 → st3.root.succIdx u = some q0 := by
    intro u hu hslu q0 hq0
    obtain ⟨hq0mem, huq0⟩ := PTree.succIdx_mem hq0
    refine PTree.succIdx_eq_of hbst3 ((hmem3 q0).mpr (Or.inr hq0mem)) huq0 ?_
    intro j hj huj
    rcases (hmem3 j).mp hj with hj | hj
    · -- j = piv: if piv < q0 then u = l, contradicting slAt l = false
      subst hj
      by_contra hc
      push_neg at hc
      have hlu : l ≤ u := by
        by_contra hlu
        push_neg at hlu
        have := PTree.succIdx_min hbst hq0 l hl hlu
        omega
      have hueql : u = l := by
        rcases eq_or_lt_of_le hlu with h | h
        · omega
        · exact absurd ⟨h, by omega⟩ (hnob u hu)
      rw [hueql] at hslu
      rw [hslu] at hsll
      cases hsll
    · exact PTree.succIdx_min hbst hq0 j hj huj
  -- the predecessor of an old flag-obligated node is unchanged
  have hpredKeep : ∀ v ∈ st.root.keys, st.root.srAt v = true →
      ∀ p0, st.root.predIdx v = some p0 → st3.root.predIdx v = some p0 := by
    intro v hv hsrv p0 hp0
    obtain ⟨hp0mem, hp0v⟩ := PTree.predIdx_mem hp0
    refine PTree.predIdx_eq_of hbst3 ((hmem3 p0).mpr (Or.inr hp0mem)) hp0v ?_
    intro j hj hjv
    rcases (hmem3 j).mp hj with hj | hj
    · subst hj
      by_contra hc
      push_neg at hc
      have hvr2 : v ≤ r := by
        by_contra hvr2
        push_neg at hvr2
        have := PTree.predIdx_max hbst hp0 r hr hvr2
        omega
      have hveqr : v = r := by
        rcases eq_or_lt_of_le hvr2 with h | h
        · exact h
        · exact absurd ⟨by omega, h⟩ (hnob v hv)
      rw [hveqr] at hsrv
      rw [hsrv] at hsrr
      cases hsrr
    · exact PTree.predIdx_max hbst hp0 j hj hjv
  refine ⟨⟨⟨hbst3, ?_, ?_, ?_, ?_, ?_, ?_, ?_, ?_, ?_⟩, ?_⟩,
    hpivmem3, ⟨(hmem3 r).mpr (Or.inr hr), hsucc3piv, hslp3, by
      rw [hsro3 r hrne]; exact hsrr⟩,
    ⟨(hmem3 l).mpr (Or.inr hl), hsucc3l, by
      rw [hslo3 l hlne]; exact hsll, hsrp3⟩⟩
  · -- sentL
    rw [PTree.memT_iff]
    exact (hmem3 (-1)).mpr (Or.inr ((PTree.memT_iff _ _).mp hEng.sentL))
  · -- sentR
    rw [PTree.memT_iff, hlenss]
    exact (hmem3 _).mpr (Or.inr ((PTree.memT_iff _ _).mp hEng.sentR))
  · -- range
    intro k hk
    rw [hlenss]
    rcases (hmem3 k).mp hk with hk | hk
    · subst hk
      omega
    · exact hEng.range k hk
  · -- seps
    intro k hk h0k hkN
    rw [hlenss] at hkN
    have hsep : sepAt st.xs k := by
      rcases (hmem3 k).mp hk with hk | hk
      · subst hk
        exact hsepPiv
      · exact hEng.seps k hk h0k hkN
    rw [hx3]
    exact hsep
  · -- strictVals
    intro p hp h0p q hq hpq hqN
    rw [hlenss] at hqN
    rw [hx3]
    rcases (hmem3 p).mp hp with hp | hp <;> rcases (hmem3 q).mp hq with hq | hq
    · omega
    · -- p = piv, q old
      subst hp
      have hrq : r ≤ q := PTree.succIdx_min hbst hadj q hq (by omega)
      rcases eq_or_lt_of_le hrq with h | h
      · rw [← h] at hqN ⊢
        exact lt_of_le_of_ne (hApr hqN) (hner hqN)
      · exact lt_of_le_of_lt (hApr (by omega))
          (hEng.strictVals r hr (by omega) q hq h hqN)
    · -- q = piv, p old
      subst hq
      have hpl : p ≤ l := by
        by_contra hc
        push_neg at hc
        exact hnob p hp ⟨hc, by omega⟩
      rcases eq_or_lt_of_le hpl with h | h
      · subst h
        exact lt_of_le_of_ne (hApl h0p) (hnel h0p)
      · exact lt_of_lt_of_le
          (hEng.strictVals p hp h0p l hl h (by omega))
          (hApl (by omega))
    · exact hEng.strictVals p hp h0p q hq hpq hqN
  · -- slOK
    intro u hu hslu
    rcases (hmem3 u).mp hu with hup | huo
    · subst hup
      rw [hslp3] at hslu
      cases hslu
    · have hne : u ≠ piv := fun hc => by
        rw [hc, hslp3] at hslu
        cases hslu
      rw [hslo3 u hne] at hslu
      obtain ⟨q0, hq0, hsrq0⟩ := hEng.slOK u huo hslu
      refine ⟨q0, hsuccKeep u huo hslu q0 hq0, ?_⟩
      have hq0ne : q0 ≠ piv := by
        intro hc
        rw [hc] at hq0
        exact absurd ((PTree.succIdx_mem hq0).1) hpivnotold
      rw [hsro3 q0 hq0ne]
      exact hsrq0
  · -- srOK
    intro v hv hsrv
    rcases (hmem3 v).mp hv with hvp | hvo
    · subst hvp
      rw [hsrp3] at hsrv
      cases hsrv
    · have hne : v ≠ piv := fun hc => by
        rw [hc, hsrp3] at hsrv
        cases hsrv
      rw [hsro3 v hne] at hsrv
      obtain ⟨p0, hp0, hslp0⟩ := hEng.srOK v hvo hsrv
      refine ⟨p0, hpredKeep v hvo hsrv p0 hp0, ?_⟩
      have hp0ne : p0 ≠ piv := by
        intro hc
        rw [hc] at hp0
        exact absurd ((PTree.predIdx_mem hp0).1) hpivnotold
      rw [hslo3 p0 hp0ne]
      exact hslp0
  · -- sentLFlag
    rw [hsro3 (-1) (by omega)]
    exact hEng.sentLFlag
  · -- sentRFlag
    rw [hlenss, hslo3 _ (by omega : (st.xs.length : Int) ≠ piv)]
    exact hEng.sentRFlag
  · -- slSorted
    intro u hu hslu q hq
    rcases (hmem3 u).mp hu with hup | huo
    · subst hup
      rw [hslp3] at hslu
      cases hslu
    · have hne : u ≠ piv := fun hc => by
        rw [hc, hslp3] at hslu
        cases hslu
      rw [hslo3 u hne] at hslu
      obtain ⟨q0, hq0, hsrq0⟩ := hEng.slOK u huo hslu
      have hq3 : st3.root.succIdx u = some q0 := hsuccKeep u huo hslu q0 hq0
      rw [hq3] at hq
      have hqq : q = q0 := by
        exact (Option.some_inj.mp hq).symm
      subst hqq
      rw [hx3]
      exact hSl u huo hslu q hq0

/-- Rebuilding the region invariant after `uniq_pivots` merged the left
bound into the fresh pivot: `l` is gone, `piv = l + 1` inherits `l`'s
flags (`SORTED_LEFT` was clear on `l`). -/
theorem quickRebuild_leftmerge {l piv r : Int} {st st3 : St α} {b : Bool}
    (hInv : RegInv st)
    (hl : l ∈ st.root.keys) (hr : r ∈ st.root.keys)
    (hadj : st.root.succIdx l = some r)
    (hsll : st.root.slAt l = false) (hsrr : st.root.srAt r = false)
    (hlp : l < piv) (hpr : piv < r)
    (h0l : 0 ≤ l)
    (heql : getI st.xs l = getI st.xs piv)
    (hpl1 : piv = l + 1)
    (hsepPiv : sepAt st.xs piv)
    (hApr : r < (st.xs.length : Int) → getI st.xs piv ≤ getI st.xs r)
    (hner : r < (st.xs.length : Int) → getI st.xs piv ≠ getI st.xs r)
    (hlb : st.root.flagsAt l = some (false, b))
    (hx3 : st3.xs = st.xs)
    (hbst3 : st3.root.IsBST)
    (hmem3 : ∀ i : Int, i ∈ st3.root.keys ↔ (i = piv ∨ i ∈ st.root.keys) ∧ i ≠ l)
    (hfp3 : st3.root.flagsAt piv = some (false, b))
    (hfo3 : ∀ i : Int, i ≠ piv → i ≠ l → st3.root.flagsAt i = st.root.flagsAt i) :
    RegInv st3 ∧ piv ∈ st3.root.keys ∧
      (r ∈ st3.root.keys ∧ st3.root.succIdx piv = some r ∧
        st3.root.slAt piv = false ∧ st3.root.srAt r = false) ∧
      (l ∉ st3.root.keys ∧ piv = l + 1) := by
  obtain ⟨hEng, hSl⟩ := hInv
  have hbst := hEng.bst
  have hnob := PTree.no_keys_between hbst hadj
  have hpivnotold : piv ∉ st.root.keys := fun hc => hnob piv hc ⟨hlp, hpr⟩
  have hrle : r ≤ (st.xs.length : Int) := (hEng.range r hr).2
  have hlN : l < (st.xs.length : Int) := by omega
  have hlenss : (st3.xs.length : Int) = (st.xs.length : Int) := by rw [hx3]
  have hslp3 : st3.root.slAt piv = false := PTree.slAt_of_flags hfp3
  have hsrp3 : st3.root.srAt piv = b := PTree.srAt_of_flags hfp3
  have hsrl : st.root.srAt l = b := PTree.srAt_of_flags hlb
  have hslo3 : ∀ i : Int, i ≠ piv → i ≠ l → st3.root.slAt i = st.root.slAt i :=
    fun i hi hi2 => PTree.slAt_congr (hfo3 i hi hi2)
  have hsro3 : ∀ i : Int, i ≠ piv → i ≠ l → st3.root.srAt i = st.root.srAt i :=
    fun i hi hi2 => PTree.srAt_congr (hfo3 i hi hi2)
  have hpivmem3 : piv ∈ st3.root.keys := (hmem3 piv).mpr ⟨Or.inl rfl, by omega⟩
  have hrmem3 : r ∈ st3.root.keys := (hmem3 r).mpr ⟨Or.inr hr, by omega⟩
  have hlnot3 : l ∉ st3.root.keys := fun hc => ((hmem3 l).mp hc).2 rfl
  have hsucc3piv : st3.root.succIdx piv = some r := by
    refine PTree.succIdx_eq_of hbst3 hrmem3 hpr ?_
    intro j hj hpj
    obtain ⟨hj1, hj2⟩ := (hmem3 j).mp hj
    rcases hj1 with hj1 | hj1
    · omega
    · exact PTree.succIdx_min hbst hadj j hj1 (by omega)
  -- successor recomputation for surviving flag-obligated nodes
  have hsuccKeep : ∀ u ∈ st.root.keys, u ≠ l → st.root.slAt u = true →
      ∀ q0, st.root.succIdx u = some q0 → q0 ≠ l →
        st3.root.succIdx u = some q0 := by
    intro u hu hul hslu q0 hq0 hq0l
    obtain ⟨hq0mem, huq0⟩ := PTree.succIdx_mem hq0
    refine PTree.succIdx_eq_of hbst3 ((hmem3 q0).mpr ⟨Or.inr hq0mem, hq0l⟩) huq0 ?_
    intro j hj huj
    obtain ⟨hj1, hj2⟩ := (hmem3 j).mp hj
    rcases hj1 with hj1 | hj1
    · subst hj1
      by_contra hc
      push_neg at hc
      have hlu : l ≤ u := by
        by_contra h2
        push_neg at h2
        have := PTree.succIdx_min hbst hq0 l hl h2
        omega
      exact hnob u hu ⟨by omega, by omega⟩
    · exact PTree.succIdx_min hbst hq0 j hj1 huj
  have hsuccInherit : ∀ u ∈ st.root.keys, u ≠ l →
      st.root.succIdx u = some l → st3.root.succIdx u = some piv := by
    intro u hu hul hq0
    refine PTree.succIdx_eq_of hbst3 hpivmem3 (by
      have := (PTree.succIdx_mem hq0).2
      omega) ?_
    intro j hj huj
    obtain ⟨hj1, hj2⟩ := (hmem3 j).mp hj
    rcases hj1 with hj1 | hj1
    · omega
    · have := PTree.succIdx_min hbst hq0 j hj1 huj
      omega
  refine ⟨⟨⟨hbst3, ?_, ?_, ?_, ?_, ?_, ?_, ?_, ?_, ?_⟩, ?_⟩,
    hpivmem3, ⟨hrmem3, hsucc3piv, hslp3, by
      rw [hsro3 r (by omega) (by omega)]; exact hsrr⟩,
    ⟨hlnot3, hpl1⟩⟩
  · -- sentL
    rw [PTree.memT_iff]
    exact (hmem3 (-1)).mpr ⟨Or.inr ((PTree.memT_iff _ _).mp hEng.sentL), by omega⟩
  · -- sentR
    rw [PTree.memT_iff, hlenss]
    exact (hmem3 _).mpr ⟨Or.inr ((PTree.memT_iff _ _).mp hEng.sentR), by omega⟩
  · -- range
    intro k hk
    rw [hlenss]
    obtain ⟨hk1, _⟩ := (hmem3 k).mp hk
    rcases hk1 with hk1 | hk1
    · subst hk1
      omega
    · exact hEng.range k hk1
  · -- seps
    intro k hk h0k hkN
    rw [hlenss] at hkN
    rw [hx3]
    obtain ⟨hk1, _⟩ := (hmem3 k).mp hk
    rcases hk1 with hk1 | hk1
    · subst hk1
      exact hsepPiv
    · exact hEng.seps k hk1 h0k hkN
  · -- strictVals
    intro p hp h0p q hq hpq hqN
    rw [hlenss] at hqN
    rw [hx3]
    obtain ⟨hp1, hpne⟩ := (hmem3 p).mp hp
    obtain ⟨hq1, hqne⟩ := (hmem3 q).mp hq
    rcases hp1 with hp1 | hp1 <;> rcases hq1 with hq1 | hq1
    · omega
    · subst hp1
      have hrq : r ≤ q := PTree.succIdx_min hbst hadj q hq1 (by omega)
      rcases eq_or_lt_of_le hrq with h | h
      · rw [← h] at hqN ⊢
        exact lt_of_le_of_ne (hApr hqN) (hner hqN)
      · exact lt_of_le_of_lt (hApr (by omega))
          (hEng.strictVals r hr (by omega) q hq1 h hqN)
    · subst hq1
      have hpl : p < l := by
        by_contra hc
        push_neg at hc
        rcases eq_or_lt_of_le hc with h | h
        · exact hpne h.symm
        · exact hnob p hp1 ⟨h, by omega⟩
      rw [← heql]
      exact hEng.strictVals p hp1 h0p l hl hpl hlN
    · exact hEng.strictVals p hp1 h0p q hq1 hpq hqN
  · -- slOK
    intro u hu hslu
    obtain ⟨hu1, hune⟩ := (hmem3 u).mp hu
    rcases hu1 with hu1 | hu1
    · subst hu1
      rw [hslp3] at hslu
      cases hslu
    · have hnep : u ≠ piv := fun hc => by
        rw [hc, hslp3] at hslu
        cases hslu
      rw [hslo3 u hnep hune] at hslu
      obtain ⟨q0, hq0, hsrq0⟩ := hEng.slOK u hu1 hslu
      by_cases hq0l : q0 = l
      · rw [hq0l] at hq0 hsrq0
        rw [hsrl] at hsrq0
        refine ⟨piv, hsuccInherit u hu1 hune hq0, ?_⟩
        rw [hsrp3]
        exact hsrq0
      · refine ⟨q0, hsuccKeep u hu1 hune hslu q0 hq0 hq0l, ?_⟩
        have hq0nep : q0 ≠ piv := by
          intro hc
          rw [hc] at hq0
          exact hpivnotold (PTree.succIdx_mem hq0).1
        rw [hsro3 q0 hq0nep hq0l]
        exact hsrq0
  · -- srOK
    intro v hv hsrv
    obtain ⟨hv1, hvne⟩ := (hmem3 v).mp hv
    rcases hv1 with hv1 | hv1
    · -- v = piv inherits l's SORTED_RIGHT obligation
      subst hv1
      rw [hsrp3] at hsrv
      rw [hsrv] at hsrl
      obtain ⟨p0, hp0, hslp0⟩ := hEng.srOK l hl hsrl
      obtain ⟨hp0mem, hp0l⟩ := PTree.predIdx_mem hp0
      have hp0nel : p0 ≠ l := by omega
      refine ⟨p0, ?_, ?_⟩
      · refine PTree.predIdx_eq_of hbst3 ((hmem3 p0).mpr ⟨Or.inr hp0mem, hp0nel⟩)
          (by omega) ?_
        intro j hj hjp
        obtain ⟨hj1, hj2⟩ := (hmem3 j).mp hj
        rcases hj1 with hj1 | hj1
        · omega
        · exact PTree.predIdx_max hbst hp0 j hj1 (by omega)
      · rw [hslo3 p0 (by omega) hp0nel]
        exact hslp0
    · have hnep : v ≠ piv := fun hc => hpivnotold (hc ▸ hv1)
      rw [hsro3 v hnep hvne] at hsrv
      obtain ⟨p0, hp0, hslp0⟩ := hEng.srOK v hv1 hsrv
      have hp0nel : p0 ≠ l := by
        intro hc
        rw [hc] at hslp0
        rw [hslp0] at hsll
        cases hsll
      obtain ⟨hp0mem, hp0v⟩ := PTree.predIdx_mem hp0
      have hp0nep : p0 ≠ piv := fun hc => hpivnotold (hc ▸ hp0mem)
      refine ⟨p0, ?_, ?_⟩
      · refine PTree.predIdx_eq_of hbst3 ((hmem3 p0).mpr ⟨Or.inr hp0mem, hp0nel⟩) hp0v ?_
        intro j hj hjv
        obtain ⟨hj1, hj2⟩ := (hmem3 j).mp hj
        rcases hj1 with hj1 | hj1
        · subst hj1
          by_contra hc
          push_neg at hc
          have hlp0 : l ≤ p0 := PTree.predIdx_max hbst hp0 l hl (by omega)
          exact hp0nel (by omega)
        · exact PTree.predIdx_max hbst hp0 j hj1 hjv
      · rw [hslo3 p0 hp0nep hp0nel]
        exact hslp0
  · -- sentLFlag
    rw [hsro3 (-1) (by omega) (by omega)]
    exact hEng.sentLFlag
  · -- sentRFlag
    rw [hlenss, hslo3 _ (by omega : (st.xs.length : Int) ≠ piv)
      (by omega : (st.xs.length : Int) ≠ l)]
    exact hEng.sentRFlag
  · -- slSorted
    intro u hu hslu q hq
    obtain ⟨hu1, hune⟩ := (hmem3 u).mp hu
    rcases hu1 with hu1 | hu1
    · subst hu1
      rw [hslp3] at hslu
      cases hslu
    · have hnep : u ≠ piv := fun hc => hpivnotold (hc ▸ hu1)
      rw [hslo3 u hnep hune] at hslu
      obtain ⟨q0, hq0, hsrq0⟩ := hEng.slOK u hu1 hslu
      by_cases hq0l : q0 = l
      · rw [hq0l] at hq0
        rw [hsuccInherit u hu1 hune hq0] at hq
        have hqpiv : q = piv := (Option.some_inj.mp hq).symm
        subst hqpiv
        have hold := hSl u hu1 hslu l hq0
        rw [hx3]
        intro i j hi hij hj
        have h0i : 0 ≤ i := by
          have := (hEng.range u hu1).1
          omega
        by_cases hjl : j < l
        · exact hold i j hi hij hjl
        · have hjeq : j = l := by omega
          rw [hjeq]
          rcases eq_or_lt_of_le (show i ≤ l by omega) with h | h
          · exact le_of_eq (by rw [h])
          · exact (hEng.seps l hl h0l hlN).1 i h0i h
      · rw [hsuccKeep u hu1 hune hslu q0 hq0 hq0l] at hq
        have hqq : q = q0 := (Option.some_inj.mp hq).symm
        rw [hx3, hqq]
        exact hSl u hu1 hslu q0 hq0

/-- Rebuilding the region invariant after `uniq_pivots` merged the right
bound into the fresh pivot: `r` is gone (the whole run `(piv, r]` holds
one value), `piv` inherits `r`'s flags (`SORTED_RIGHT` was clear on
`r`). -/
theorem quickRebuild_rightmerge {l piv r : Int} {st st3 : St α} {a : Bool}
    (hInv : RegInv st)
    (hl : l ∈ st.root.keys) (hr : r ∈ st.root.keys)
    (hadj : st.root.succIdx l = some r)
    (hsll : st.root.slAt l = false) (hsrr : st.root.srAt r = false)
    (hlp : l < piv) (hpr : piv < r)
    (hrN : r < (st.xs.length : Int))
    (heqr : getI st.xs piv = getI st.xs r)
    (hvr : ∀ m : Int, piv < m → m < r → getI st.xs piv ≤ getI st.xs m)
    (hsepPiv : sepAt st.xs piv)
    (hApl : 0 ≤ l → getI st.xs l ≤ getI st.xs piv)
    (hnel : 0 ≤ l → getI st.xs l ≠ getI st.xs piv)
    (hrb : st.root.flagsAt r = some (a, false))
    (hx3 : st3.xs = st.xs)
    (hbst3 : st3.root.IsBST)
    (hmem3 : ∀ i : Int, i ∈ st3.root.keys ↔ (i = piv ∨ i ∈ st.root.keys) ∧ i ≠ r)
    (hfp3 : st3.root.flagsAt piv = some (a, false))
    (hfo3 : ∀ i : Int, i ≠ piv → i ≠ r → st3.root.flagsAt i = st.root.flagsAt i) :
    RegInv st3 ∧ piv ∈ st3.root.keys ∧
      r ∉ st3.root.keys ∧
      (l ∈ st3.root.keys ∧ st3.root.succIdx l = some piv ∧
        st3.root.slAt l = false ∧ st3.root.srAt piv = false) := by
  obtain ⟨hEng, hSl⟩ := hInv
  have hbst := hEng.bst
  have hnob := PTree.no_keys_between hbst hadj
  have hpivnotold : piv ∉ st.root.keys := fun hc => hnob piv hc ⟨hlp, hpr⟩
  have hlge : -1 ≤ l := (hEng.range l hl).1
  have hlenss : (st3.xs.length : Int) = (st.xs.length : Int) := by rw [hx3]
  have hslp3 : st3.root.slAt piv = a := PTree.slAt_of_flags hfp3
  have hsrp3 : st3.root.srAt piv = false := PTree.srAt_of_flags hfp3
  have hslr : st.root.slAt r = a := PTree.slAt_of_flags hrb
  have hslo3 : ∀ i : Int, i ≠ piv → i ≠ r → st3.root.slAt i = st.root.slAt i :=
    fun i hi hi2 => PTree.slAt_congr (hfo3 i hi hi2)
  have hsro3 : ∀ i : Int, i ≠ piv → i ≠ r → st3.root.srAt i = st.root.srAt i :=
    fun i hi hi2 => PTree.srAt_congr (hfo3 i hi hi2)
  have hpivmem3 : piv ∈ st3.root.keys := (hmem3 piv).mpr ⟨Or.inl rfl, by omega⟩
  have hlmem3 : l ∈ st3.root.keys := (hmem3 l).mpr ⟨Or.inr hl, by omega⟩
  have hrnot3 : r ∉ st3.root.keys := fun hc => ((hmem3 r).mp hc).2 rfl
  -- the run (piv, r] holds a single value
  have hconst : ∀ m : Int, piv < m → m ≤ r → getI st.xs m = getI st.xs piv := by
    intro m h1 h2
    rcases eq_or_lt_of_le h2 with h | h
    · rw [h, heqr]
    · refine le_antisymm ?_ (hvr m h1 h)
      rw [heqr]
      exact (hEng.seps r hr (by omega) hrN).1 m (by omega) h
  have hsucc3l : st3.root.succIdx l = some piv := by
    refine PTree.succIdx_eq_of hbst3 hpivmem3 hlp ?_
    intro j hj hlj
    obtain ⟨hj1, hj2⟩ := (hmem3 j).mp hj
    rcases hj1 with hj1 | hj1
    · omega
    · have := PTree.succIdx_min hbst hadj j hj1 hlj
      omega
  have hsuccKeep : ∀ u ∈ st.root.keys, st.root.slAt u = true →
      ∀ q0, st.root.succIdx u = some q0 → q0 ≠ r →
        st3.root.succIdx u = some q0 := by
    intro u hu hslu q0 hq0 hq0r
    obtain ⟨hq0mem, huq0⟩ := PTree.succIdx_mem hq0
    refine PTree.succIdx_eq_of hbst3 ((hmem3 q0).mpr ⟨Or.inr hq0mem, hq0r⟩) huq0 ?_
    intro j hj huj
    obtain ⟨hj1, hj2⟩ := (hmem3 j).mp hj
    rcases hj1 with hj1 | hj1
    · subst hj1
      by_contra hc
      push_neg at hc
      have hlu : l ≤ u := by
        by_contra h2
        push_neg at h2
        have := PTree.succIdx_min hbst hq0 l hl h2
        omega
      have hueql : u = l := by
        rcases eq_or_lt_of_le hlu with h | h
        · omega
        · exact absurd ⟨h, by omega⟩ (hnob u hu)
      rw [hueql] at hslu
      rw [hslu] at hsll
      cases hsll
    · exact PTree.succIdx_min hbst hq0 j hj1 huj
  have hpredKeep : ∀ v ∈ st.root.keys, st.root.srAt v = true →
      ∀ p0, st.root.predIdx v = some p0 → p0 ≠ r →
        st3.root.predIdx v = some p0 := by
    intro v hv hsrv p0 hp0 hp0r
    obtain ⟨hp0mem, hp0v⟩ := PTree.predIdx_mem hp0
    have hvner : v ≠ r := by
      intro hc
      rw [hc] at hsrv
      rw [hsrv] at hsrr
      cases hsrr
    refine PTree.predIdx_eq_of hbst3 ((hmem3 p0).mpr ⟨Or.inr hp0mem, hp0r⟩) hp0v ?_
    intro j hj hjv
    obtain ⟨hj1, hj2⟩ := (hmem3 j).mp hj
    rcases hj1 with hj1 | hj1
    · subst hj1
      by_contra hc
      push_neg at hc
      have hvr2 : v ≤ r := by
        by_contra hvr2
        push_neg at hvr2
        have := PTree.predIdx_max hbst hp0 r hr hvr2
        omega
      have : v < r := by omega
      exact hnob v hv ⟨by omega, this⟩
    · exact PTree.predIdx_max hbst hp0 j hj1 hjv
  -- the inherited SORTED_LEFT obligation of the new pivot
  have hinherit : st.root.slAt r = true →
      ∃ q0, st.root.succIdx r = some q0 ∧ st.root.srAt q0 = true ∧
        st3.root.succIdx piv = some q0 := by
    intro hslrt
    obtain ⟨q0, hq0, hsrq0⟩ := hEng.slOK r hr hslrt
    obtain ⟨hq0mem, hrq0⟩ := PTree.succIdx_mem hq0
    refine ⟨q0, hq0, hsrq0, ?_⟩
    refine PTree.succIdx_eq_of hbst3 ((hmem3 q0).mpr ⟨Or.inr hq0mem, by omega⟩)
      (by omega) ?_
    intro j hj hpj
    obtain ⟨hj1, hj2⟩ := (hmem3 j).mp hj
    rcases hj1 with hj1 | hj1
    · omega
    · have hjr : r < j := by
        rcases lt_trichotomy j r with h | h | h
        · exact absurd ⟨by omega, h⟩ (hnob j hj1)
        · exact absurd h hj2
        · exact h
      exact PTree.succIdx_min hbst hq0 j hj1 hjr
  refine ⟨⟨⟨hbst3, ?_, ?_, ?_, ?_, ?_, ?_, ?_, ?_, ?_⟩, ?_⟩,
    hpivmem3, hrnot3,
    ⟨hlmem3, hsucc3l, by
      rw [hslo3 l (by omega) (by omega)]; exact hsll, hsrp3⟩⟩
  · -- sentL
    rw [PTree.memT_iff]
    exact (hmem3 (-1)).mpr ⟨Or.inr ((PTree.memT_iff _ _).mp hEng.sentL), by omega⟩
  · -- sentR
    rw [PTree.memT_iff, hlenss]
    exact (hmem3 _).mpr ⟨Or.inr ((PTree.memT_iff _ _).mp hEng.sentR), by omega⟩
  · -- range
    intro k hk
    rw [hlenss]
    obtain ⟨hk1, _⟩ := (hmem3 k).mp hk
    rcases hk1 with hk1 | hk1
    · subst hk1
      omega
    · exact hEng.range k hk1
  · -- seps
    intro k hk h0k hkN
    rw [hlenss] at hkN
    rw [hx3]
    obtain ⟨hk1, _⟩ := (hmem3 k).mp hk
    rcases hk1 with hk1 | hk1
    · subst hk1
      exact hsepPiv
    · exact hEng.seps k hk1 h0k hkN
  · -- strictVals
    intro p hp h0p q hq hpq hqN
    rw [hlenss] at hqN
    rw [hx3]
    obtain ⟨hp1, hpne⟩ := (hmem3 p).mp hp
    obtain ⟨hq1, hqne⟩ := (hmem3 q).mp hq
    rcases hp1 with hp1 | hp1 <;> rcases hq1 with hq1 | hq1
    · omega
    · subst hp1
      have hrq : r < q := by
        have := PTree.succIdx_min hbst hadj q hq1 (by omega)
        omega
      rw [heqr]
      exact hEng.strictVals r hr (by omega) q hq1 hrq hqN
    · subst hq1
      have hpl : p ≤ l := by
        by_contra hc
        push_neg at hc
        exact hnob p hp1 ⟨hc, by omega⟩
      rcases eq_or_lt_of_le hpl with h | h
      · rw [h]
        rw [h] at h0p
        exact lt_of_le_of_ne (hApl h0p) (hnel h0p)
      · exact lt_of_lt_of_le
          (hEng.strictVals p hp1 h0p l hl h (by omega))
          (hApl (by omega))
    · exact hEng.strictVals p hp1 h0p q hq1 hpq hqN
  · -- slOK
    intro u hu hslu
    obtain ⟨hu1, hune⟩ := (hmem3 u).mp hu
    rcases hu1 with hu1 | hu1
    · rw [hu1] at hslu ⊢
      rw [hslp3] at hslu
      rw [hslu] at hslr
      obtain ⟨q0, hq0, hsrq0, hq0new⟩ := hinherit hslr
      refine ⟨q0, hq0new, ?_⟩
      have hq0ner : q0 ≠ r := by
        have := (PTree.succIdx_mem hq0).2
        omega
      have hq0nep : q0 ≠ piv := by
        have := (PTree.succIdx_mem hq0).2
        omega
      rw [hsro3 q0 hq0nep hq0ner]
      exact hsrq0
    · have hnep : u ≠ piv := fun hc => hpivnotold (hc ▸ hu1)
      rw [hslo3 u hnep hune] at hslu
      obtain ⟨q0, hq0, hsrq0⟩ := hEng.slOK u hu1 hslu
      have hq0ner : q0 ≠ r := by
        intro hc
        rw [hc] at hsrq0
        rw [hsrq0] at hsrr
        cases hsrr
      refine ⟨q0, hsuccKeep u hu1 hslu q0 hq0 hq0ner, ?_⟩
      have hq0nep : q0 ≠ piv := by
        intro hc
        rw [hc] at hq0
        exact hpivnotold (PTree.succIdx_mem hq0).1
      rw [hsro3 q0 hq0nep hq0ner]
      exact hsrq0
  · -- srOK
    intro v hv hsrv
    obtain ⟨hv1, hvne⟩ := (hmem3 v).mp hv
    rcases hv1 with hv1 | hv1
    · subst hv1
      rw [hsrp3] at hsrv
      cases hsrv
    · have hnep : v ≠ piv := fun hc => hpivnotold (hc ▸ hv1)
      rw [hsro3 v hnep hvne] at hsrv
      obtain ⟨p0, hp0, hslp0⟩ := hEng.srOK v hv1 hsrv
      obtain ⟨hp0mem, hp0v⟩ := PTree.predIdx_mem hp0
      by_cases hp0r : p0 = r
      · -- v's predecessor was r: the merged pivot now fills that role
        rw [hp0r] at hp0 hslp0
        rw [hslp0] at hslr
        refine ⟨piv, ?_, ?_⟩
        · refine PTree.predIdx_eq_of hbst3 hpivmem3 (by omega) ?_
          intro j hj hjv
          obtain ⟨hj1, hj2⟩ := (hmem3 j).mp hj
          rcases hj1 with hj1 | hj1
          · omega
          · have hjr : j ≤ r := PTree.predIdx_max hbst hp0 j hj1 hjv
            have hjr2 : j < r := by omega
            by_contra hc
            push_neg at hc
            exact hnob j hj1 ⟨by omega, hjr2⟩
        · rw [hslp3]
          exact hslr.symm
      · have hp0nep : p0 ≠ piv := fun hc => hpivnotold (hc ▸ hp0mem)
        refine ⟨p0, hpredKeep v hv1 hsrv p0 hp0 hp0r, ?_⟩
        rw [hslo3 p0 hp0nep hp0r]
        exact hslp0
  · -- sentLFlag
    rw [hsro3 (-1) (by omega) (by omega)]
    exact hEng.sentLFlag
  · -- sentRFlag
    rw [hlenss, hslo3 _ (by omega : (st.xs.length : Int) ≠ piv)
      (by omega : (st.xs.length : Int) ≠ r)]
    exact hEng.sentRFlag
  · -- slSorted
    intro u hu hslu q hq
    obtain ⟨hu1, hune⟩ := (hmem3 u).mp hu
    rcases hu1 with hu1 | hu1
    · -- the merged pivot: constant run, the old value at r, then r's
      -- old sorted region
      subst hu1
      rw [hslp3] at hslu
      rw [hslu] at hslr
      obtain ⟨q0, hq0, hsrq0, hq0new⟩ := hinherit hslr
      rw [hq0new] at hq
      have hqq : q = q0 := (Option.some_inj.mp hq).symm
      have hold := hSl r hr hslr q0 hq0
      have hq0le : q0 ≤ (st.xs.length : Int) :=
        (hEng.range q0 (PTree.succIdx_mem hq0).1).2
      rw [hx3, hqq]
      intro i j hi hij hj
      by_cases hjr : j ≤ r
      · rw [hconst j (by omega) hjr, hconst i (by omega) (by omega)]
      · by_cases hir : i ≤ r
        · rw [hconst i (by omega) hir, heqr]
          rcases eq_or_lt_of_le (show r ≤ j by omega) with h | h
          · exact le_of_eq (by rw [h])
          · exact (hEng.seps r hr (by omega) hrN).2 j h (by omega)
        · exact hold i j (by omega) hij hj
    · have hnep : u ≠ piv := fun hc => hpivnotold (hc ▸ hu1)
      rw [hslo3 u hnep hune] at hslu
      obtain ⟨q0, hq0, hsrq0⟩ := hEng.slOK u hu1 hslu
      have hq0ner : q0 ≠ r := by
        intro hc
        rw [hc] at hsrq0
        rw [hsrq0] at hsrr
        cases hsrr
      rw [hsuccKeep u hu1 hslu q0 hq0 hq0ner] at hq
      have hqq : q = q0 := (Option.some_inj.mp hq).symm
      rw [hx3, hqq]
      exact hSl u hu1 hslu q0 hq0
/-- One full pivot step of the quickselect loops: `insert_pivot` of the
partition result between live adjacent bounds, then `uniq_pivots`,
under a canonical equality comparator.  Both calls succeed, the region
invariant is re-established, and each continuation region is either
fully live with clear flags or has had its stale bound merged away. -/
theorem quickstep_spec {ctx : Ctx α} (hceq : CanonEq ctx) {l piv r hint : Int}
    {st : St α} (hInv : RegInv st)
    (hl : l ∈ st.root.keys) (hr : r ∈ st.root.keys)
    (hadj : st.root.succIdx l = some r)
    (hsll : st.root.slAt l = false) (hsrr : st.root.srAt r = false)
    (hlp : l < piv) (hpr : piv < r)
    (hvl : ∀ m : Int, l < m → m < piv → getI st.xs m < getI st.xs piv)
    (hvr : ∀ m : Int, piv < m → m < r → getI st.xs piv ≤ getI st.xs m)
    (hhint : hint = l ∨ hint = r) :
    ∃ st2 st3, insert_pivot ctx piv false false hint st = (st2, .ok ()) ∧
      uniq_pivots ctx l piv r st2 = (st3, .ok ()) ∧
      st3.xs = st.xs ∧ RegInv st3 ∧ piv ∈ st3.root.keys ∧
      ((r ∈ st3.root.keys ∧ st3.root.succIdx piv = some r ∧
          st3.root.slAt piv = false ∧ st3.root.srAt r = false) ∨
        r ∉ st3.root.keys) ∧
      ((l ∈ st3.root.keys ∧ st3.root.succIdx l = some piv ∧
          st3.root.slAt l = false ∧ st3.root.srAt piv = false) ∨
        (l ∉ st3.root.keys ∧ piv = l + 1)) := by
  obtain ⟨hEng, hSl⟩ := hInv
  have hbst := hEng.bst
  have hnob := PTree.no_keys_between hbst hadj
  have hpivnotold : piv ∉ st.root.keys := fun hc => hnob piv hc ⟨hlp, hpr⟩
  have hlge : -1 ≤ l := (hEng.range l hl).1
  have hrle : r ≤ (st.xs.length : Int) := (hEng.range r hr).2
  have hApl : 0 ≤ l → getI st.xs l ≤ getI st.xs piv := fun h0l =>
    (hEng.seps l hl h0l (by omega)).2 piv hlp (by omega)
  have hApr : r < (st.xs.length : Int) → getI st.xs piv ≤ getI st.xs r := fun hrN =>
    (hEng.seps r hr (by omega) hrN).1 piv (by omega) hpr
  have hsepPiv : sepAt st.xs piv := by
    constructor
    · intro j h0j hjp
      by_cases hjl : l < j
      · exact le_of_lt (hvl j hjl hjp)
      · have h0l : 0 ≤ l := by omega
        have h1 : getI st.xs j ≤ getI st.xs l := by
          rcases eq_or_lt_of_le (show j ≤ l by omega) with he | hlt
          · exact le_of_eq (by rw [he])
          · exact (hEng.seps l hl h0l (by omega)).1 j h0j hlt
        exact le_trans h1 (hApl h0l)
    · intro j hpj hjN
      by_cases hjr : j < r
      · exact hvr j hpj hjr
      · have hrN : r < (st.xs.length : Int) := by omega
        rcases eq_or_lt_of_le (show r ≤ j by omega) with he | hlt
        · rw [← he]
          exact hApr hrN
        · exact le_trans (hApr hrN) ((hEng.seps r hr (by omega) hrN).2 j hlt hjN)
  have hhintmem : hint ∈ st.root.keys := by
    rcases hhint with h | h
    · rw [h]
      exact hl
    · rw [h]
      exact hr
  have hside : (hint < piv ∧ ∀ j ∈ st.root.keys, j < piv → j ≤ hint) ∨
      (piv < hint ∧ ∀ j ∈ st.root.keys, piv < j → hint ≤ j) := by
    rcases hhint with h | h
    · subst h
      left
      refine ⟨hlp, ?_⟩
      intro j hj hjp
      by_contra hc
      push_neg at hc
      exact hnob j hj ⟨hc, by omega⟩
    · subst h
      right
      refine ⟨hpr, ?_⟩
      intro j hj hpj
      by_contra hc
      push_neg at hc
      exact hnob j hj ⟨by omega, hc⟩
  obtain ⟨st2, e1, e2, heqI, hxs2, hcc2, hrc2, heS, heS2, hbe1, hbe2⟩ :=
    insert_pivot_spec hbst hpivnotold hhintmem hside
  have hbst2 : st2.root.IsBST := PTree.isBST_of_insert hbst heS heS2 hbe1 hbe2
  have hmem2 : ∀ i : Int, i ∈ st2.root.keys ↔ i = piv ∨ i ∈ st.root.keys :=
    PTree.mem_keys_insert heS heS2
  have hfp2 : st2.root.flagsAt piv = some (false, false) :=
    PTree.flagsAt_insert_self heS2 hbe1
  have hfo2 : ∀ i : Int, i ≠ piv → st2.root.flagsAt i = st.root.flagsAt i :=
    fun i hi => PTree.flagsAt_insert_other i hi heS heS2
  obtain ⟨st3, heqU, hxs3, hrc3, hcases⟩ := uniq_pivots_spec hceq
    (fun _ => (hmem2 l).mpr (Or.inr hl))
    (fun _ => (hmem2 r).mpr (Or.inr hr))
    (show ¬(0 ≤ l ∧ r < (st2.xs.length : Int) ∧
        getI st2.xs l = getI st2.xs piv ∧ getI st2.xs piv = getI st2.xs r) by
      rw [hxs2]
      intro ⟨h0l, hrN, h1, h2⟩
      have hsv := hEng.strictVals l hl h0l r hr (by omega) hrN
      rw [h1, h2] at hsv
      exact lt_irrefl _ hsv)
  have hx3 : st3.xs = st.xs := by rw [hxs3, hxs2]
  rcases hcases with ⟨hroot3, hne1, hne2⟩ | ⟨a, b, h0l, heql2, habl2, hroot3, hne2⟩ |
    ⟨a, b, hrN2, heqr2, habr2, hroot3, hne1⟩
  · -- no merge
    have hnel : 0 ≤ l → getI st.xs l ≠ getI st.xs piv := by
      intro h0l
      have h := hne1 h0l
      rw [hxs2] at h
      exact h
    have hner : r < (st.xs.length : Int) → getI st.xs piv ≠ getI st.xs r := by
      intro hrN
      have h := hne2 (by rw [hxs2]; exact hrN)
      rw [hxs2] at h
      exact h
    have hbst3 : st3.root.IsBST := by
      rw [hroot3]
      exact hbst2
    have hmem3 : ∀ i : Int, i ∈ st3.root.keys ↔ i = piv ∨ i ∈ st.root.keys := by
      intro i
      rw [hroot3]
      exact hmem2 i
    have hfp3 : st3.root.flagsAt piv = some (false, false) := by
      rw [hroot3]
      exact hfp2
    have hfo3 : ∀ i : Int, i ≠ piv → st3.root.flagsAt i = st.root.flagsAt i := by
      intro i hi
      rw [hroot3]
      exact hfo2 i hi
    obtain ⟨hInv3, hp3, hD1, hD2⟩ := quickRebuild_nomerge ⟨hEng, hSl⟩ hl hr hadj
      hsll hsrr hlp hpr hsepPiv hApl hApr hnel hner hx3 hbst3 hmem3 hfp3 hfo3
    exact ⟨st2, st3, heqI, heqU, hx3, hInv3, hp3, Or.inl hD1, Or.inl hD2⟩
  · -- left merge
    have heql : getI st.xs l = getI st.xs piv := by
      rw [hxs2] at heql2
      exact heql2
    have hner : r < (st.xs.length : Int) → getI st.xs piv ≠ getI st.xs r := by
      intro hrN
      have h := hne2 (by rw [hxs2]; exact hrN)
      rw [hxs2] at h
      exact h
    have hfl : st.root.flagsAt l = some (a, b) := by
      rw [← hfo2 l (by omega)]
      exact habl2
    have ha : a = false := by
      have h := PTree.slAt_of_flags hfl
      rw [hsll] at h
      exact h.symm
    subst ha
    have hpl1 : piv = l + 1 := by
      by_contra hc
      have hlt : l + 1 < piv := by omega
      have h1 := hvl (l + 1) (by omega) hlt
      have h2 := (hEng.seps l hl h0l (by omega)).2 (l + 1) (by omega) (by omega)
      rw [heql] at h2
      exact absurd h1 (not_lt.mpr h2)
    have hbstT : (st2.root.setFlagsAt piv false b).IsBST :=
      PTree.isBST_of_keys_eq (PTree.keys_setFlagsAt st2.root piv false b) hbst2
    have hlT : l ∈ (st2.root.setFlagsAt piv false b).keys :=
      (PTree.mem_keys_setFlagsAt st2.root piv false b l).mpr
        ((hmem2 l).mpr (Or.inr hl))
    have hbst3 : st3.root.IsBST := by
      rw [hroot3]
      exact PTree.isBST_deleteIdx hbstT hlT
    have hmem3 : ∀ i : Int, i ∈ st3.root.keys ↔
        (i = piv ∨ i ∈ st.root.keys) ∧ i ≠ l := by
      intro i
      rw [hroot3, PTree.mem_keys_deleteIdx hbstT hlT i,
        PTree.mem_keys_setFlagsAt st2.root piv false b i, hmem2 i]
    have hfp3 : st3.root.flagsAt piv = some (false, b) := by
      rw [hroot3, PTree.flagsAt_deleteIdx_other hbstT hlT piv (by omega),
        PTree.flagsAt_setFlagsAt_self hbst2 ((hmem2 piv).mpr (Or.inl rfl)) false b]
    have hfo3 : ∀ i : Int, i ≠ piv → i ≠ l →
        st3.root.flagsAt i = st.root.flagsAt i := by
      intro i hip hil
      rw [hroot3, PTree.flagsAt_deleteIdx_other hbstT hlT i hil,
        PTree.flagsAt_setFlagsAt_other hbst2 false b i hip, hfo2 i hip]
    obtain ⟨hInv3, hp3, hD1, hD2⟩ := quickRebuild_leftmerge ⟨hEng, hSl⟩ hl hr hadj
      hsll hsrr hlp hpr h0l heql hpl1 hsepPiv hApr hner hfl hx3 hbst3 hmem3 hfp3 hfo3
    exact ⟨st2, st3, heqI, heqU, hx3, hInv3, hp3, Or.inl hD1, Or.inr hD2⟩
  · -- right merge
    have hrN : r < (st.xs.length : Int) := by
      rw [hxs2] at hrN2
      exact hrN2
    have heqr : getI st.xs piv = getI st.xs r := by
      rw [hxs2] at heqr2
      exact heqr2
    have hnel : 0 ≤ l → getI st.xs l ≠ getI st.xs piv := by
      intro h0l
      have h := hne1 h0l
      rw [hxs2] at h
      exact h
    have hfr : st.root.flagsAt r = some (a, b) := by
      rw [← hfo2 r (by omega)]
      exact habr2
    have hb : b = false := by
      have h := PTree.srAt_of_flags hfr
      rw [hsrr] at h
      exact h.symm
    subst hb
    have hbstT : (st2.root.setFlagsAt piv a false).IsBST :=
      PTree.isBST_of_keys_eq (PTree.keys_setFlagsAt st2.root piv a false) hbst2
    have hrT : r ∈ (st2.root.setFlagsAt piv a false).keys :=
      (PTree.mem_keys_setFlagsAt st2.root piv a false r).mpr
        ((hmem2 r).mpr (Or.inr hr))
    have hbst3 : st3.root.IsBST := by
      rw [hroot3]
      exact PTree.isBST_deleteIdx hbstT hrT
    have hmem3 : ∀ i : Int, i ∈ st3.root.keys ↔
        (i = piv ∨ i ∈ st.root.keys) ∧ i ≠ r := by
      intro i
      rw [hroot3, PTree.mem_keys_deleteIdx hbstT hrT i,
        PTree.mem_keys_setFlagsAt st2.root piv a false i, hmem2 i]
    have hfp3 : st3.root.flagsAt piv = some (a, false) := by
      rw [hroot3, PTree.flagsAt_deleteIdx_other hbstT hrT piv (by omega),
        PTree.flagsAt_setFlagsAt_self hbst2 ((hmem2 piv).mpr (Or.inl rfl)) a false]
    have hfo3 : ∀ i : Int, i ≠ piv → i ≠ r →
        st3.root.flagsAt i = st.root.flagsAt i := by
      intro i hip hir
      rw [hroot3, PTree.flagsAt_deleteIdx_other hbstT hrT i hir,
        PTree.flagsAt_setFlagsAt_other hbst2 a false i hip, hfo2 i hip]
    obtain ⟨hInv3, hp3, hrnot3, hD2⟩ := quickRebuild_rightmerge ⟨hEng, hSl⟩ hl hr hadj
      hsll hsrr hlp hpr hrN heqr hvr hsepPiv hApl hnel hfr hx3 hbst3 hmem3 hfp3 hfo3
    exact ⟨st2, st3, heqI, heqU, hx3, hInv3, hp3, Or.inr hrnot3, Or.inl hD2⟩
end QuickStep

namespace PTree

/-- A present key is the successor of its own predecessor. -/
theorem succIdx_pred_self {t : PTree} {u p : Int} (hbst : IsBST t)
    (hu : u ∈ keys t) (hp : predIdx t u = some p) :
    succIdx t p = some u := by
  obtain ⟨hpmem, hpu⟩ := predIdx_mem hp
  refine succIdx_eq_of hbst hu hpu ?_
  intro j hj hpj
  by_contra hc
  push_neg at hc
  exact absurd (predIdx_max hbst hp j hj hc) (by omega)

/-- A present key is the predecessor of its own successor. -/
theorem predIdx_succ_self {t : PTree} {u q : Int} (hbst : IsBST t)
    (hu : u ∈ keys t) (hq : succIdx t u = some q) :
    predIdx t q = some u := by
  obtain ⟨hqmem, huq⟩ := succIdx_mem hq
  refine predIdx_eq_of hbst hu huq ?_
  intro j hj hjq
  by_contra hc
  push_neg at hc
  exact absurd (succIdx_min hbst hq j hj hc) (by omega)

end PTree

section RegionExit

variable {α : Type} [Inhabited α] [LinearOrder α]

/-- Two sorted runs glued at a separator position form one sorted run. -/
theorem sortedSeg_glue {A : List α} {p u q : Int}
    (h1 : sortedSeg A (p + 1) u) (h2 : sortedSeg A (u + 1) q)
    (hsep : sepAt A u) (hp : -1 ≤ p) (hq : q ≤ (A.length : Int)) :
    sortedSeg A (p + 1) q := by
  intro i j hi hij hj
  by_cases hju : j < u
  · exact h1 i j hi hij hju
  · by_cases hiu : u < i
    · exact h2 i j hiu hij hj
    · have ha : getI A i ≤ getI A u := by
        rcases eq_or_lt_of_le (show i ≤ u by omega) with h | h
        · exact le_of_eq (by rw [h])
        · exact hsep.1 i (by omega) h
      have hb : getI A u ≤ getI A j := by
        rcases eq_or_lt_of_le (show u ≤ j by omega) with h | h
        · exact le_of_eq (by rw [h])
        · exact hsep.2 j h (by omega)
      exact le_trans ha hb

/-- The region invariant survives an in-region permutation of the array
(the tree untouched) between adjacent bounds whose left flag is clear. -/
theorem regInv_of_permWithin {l r : Int} {st st1 : St α}
    (hInv : RegInv st)
    (hl : l ∈ st.root.keys) (hr : r ∈ st.root.keys)
    (hadj : st.root.succIdx l = some r)
    (hsll : st.root.slAt l = false)
    (hroot1 : st1.root = st.root)
    (hperm : PermWithin st.xs st1.xs (l + 1) r) :
    RegInv st1 := by
  obtain ⟨hEng, hSl⟩ := hInv
  have hbst := hEng.bst
  have hnob := PTree.no_keys_between hbst hadj
  have hlge : -1 ≤ l := (hEng.range l hl).1
  have hrle : r ≤ (st.xs.length : Int) := (hEng.range r hr).2
  have h0 : (0 : Int) ≤ l + 1 := by omega
  have hlen1 : st1.xs.length = st.xs.length := hperm.1
  have hframe : ∀ m : Int, m ≤ l ∨ r ≤ m → getI st1.xs m = getI st.xs m := by
    intro m hm
    exact hperm.2.1 m (by omega)
  have hout : ∀ j ∈ st.root.keys, j ≤ l ∨ r ≤ j := by
    intro j hj
    by_contra hc
    push_neg at hc
    exact hnob j hj ⟨by omega, by omega⟩
  refine ⟨⟨?_, ?_, ?_, ?_, ?_, ?_, ?_, ?_, ?_, ?_⟩, ?_⟩
  · rw [hroot1]
    exact hbst
  · rw [hroot1]
    exact hEng.sentL
  · rw [hroot1, show (st1.xs.length : Int) = (st.xs.length : Int) from by rw [hlen1]]
    exact hEng.sentR
  · rw [hroot1, show (st1.xs.length : Int) = (st.xs.length : Int) from by rw [hlen1]]
    exact hEng.range
  · rw [hroot1, show (st1.xs.length : Int) = (st.xs.length : Int) from by rw [hlen1]]
    intro j hj h0j hjN
    exact sepAt_of_permWithin hperm h0 hrle
      (by have h := hout j hj; omega)
      (hEng.seps j hj h0j hjN)
  · rw [hroot1, show (st1.xs.length : Int) = (st.xs.length : Int) from by rw [hlen1]]
    intro p hp h0p q hq hpq hqN
    rw [hframe p (hout p hp), hframe q (hout q hq)]
    exact hEng.strictVals p hp h0p q hq hpq hqN
  · rw [hroot1]
    exact hEng.slOK
  · rw [hroot1]
    exact hEng.srOK
  · rw [hroot1]
    exact hEng.sentLFlag
  · rw [hroot1, show (st1.xs.length : Int) = (st.xs.length : Int) from by rw [hlen1]]
    exact hEng.sentRFlag
  · rw [hroot1]
    intro u hu hslu q hq
    have hne : u ≠ l := by
      intro hc
      rw [hc] at hslu
      rw [hslu] at hsll
      cases hsll
    have hsorted := hSl u hu hslu q hq
    obtain ⟨hqmem, huq⟩ := PTree.succIdx_mem hq
    rcases hout u hu with hul | hur
    · have hql : q ≤ l := by
        have := PTree.succIdx_min hbst hq l hl (by omega)
        omega
      exact sortedSeg_congr (fun m h1 h2 => hframe m (Or.inl (by omega))) hsorted
    · exact sortedSeg_congr (fun m h1 h2 => hframe m (Or.inr (by omega))) hsorted

/-- Deleting a `SORTED_BOTH` pivot (both flags set) keeps the region
invariant: its two sorted neighbour regions glue into one. -/
theorem deleteBoth_inv {u : Int} {st st2 : St α}
    (hInv : RegInv st) (hu : u ∈ st.root.keys)
    (hslu : st.root.slAt u = true) (hsru : st.root.srAt u = true)
    (hx2 : st2.xs = st.xs)
    (hroot2 : st2.root = st.root.deleteIdx u) :
    RegInv st2 ∧ (∀ i : Int, i ∈ st2.root.keys ↔ i ∈ st.root.keys ∧ i ≠ u) ∧
      (∀ i : Int, i ≠ u → st2.root.flagsAt i = st.root.flagsAt i) := by
  obtain ⟨hEng, hSl⟩ := hInv
  have hbst := hEng.bst
  have hlenss : (st2.xs.length : Int) = (st.xs.length : Int) := by rw [hx2]
  have hune1 : u ≠ -1 := by
    intro hc
    rw [hc] at hsru
    rw [hEng.sentLFlag] at hsru
    cases hsru
  have huneN : u ≠ (st.xs.length : Int) := by
    intro hc
    rw [hc] at hslu
    rw [hEng.sentRFlag] at hslu
    cases hslu
  have h0u : 0 ≤ u := by
    have := (hEng.range u hu).1
    omega
  have huN : u < (st.xs.length : Int) := by
    have := (hEng.range u hu).2
    omega
  obtain ⟨q, hq, hsrq⟩ := hEng.slOK u hu hslu
  obtain ⟨p, hp, hslp⟩ := hEng.srOK u hu hsru
  obtain ⟨hqmem, huq⟩ := PTree.succIdx_mem hq
  obtain ⟨hpmem, hpu⟩ := PTree.predIdx_mem hp
  have hsuccp : st.root.succIdx p = some u := PTree.succIdx_pred_self hbst hu hp
  have hmem2 : ∀ i : Int, i ∈ st2.root.keys ↔ i ∈ st.root.keys ∧ i ≠ u := by
    intro i
    rw [hroot2]
    exact PTree.mem_keys_deleteIdx hbst hu i
  have hfo2 : ∀ i : Int, i ≠ u → st2.root.flagsAt i = st.root.flagsAt i := by
    intro i hi
    rw [hroot2]
    exact PTree.flagsAt_deleteIdx_other hbst hu i hi
  have hslo2 : ∀ i : Int, i ≠ u → st2.root.slAt i = st.root.slAt i :=
    fun i hi => PTree.slAt_congr (hfo2 i hi)
  have hsro2 : ∀ i : Int, i ≠ u → st2.root.srAt i = st.root.srAt i :=
    fun i hi => PTree.srAt_congr (hfo2 i hi)
  have hbst2 : st2.root.IsBST := by
    rw [hroot2]
    exact PTree.isBST_deleteIdx hbst hu
  have hsuccSub : ∀ w q0 : Int, st.root.succIdx w = some q0 → q0 ≠ u →
      st2.root.succIdx w = some q0 := by
    intro w q0 hq0 hq0u
    obtain ⟨hq0mem, hwq0⟩ := PTree.succIdx_mem hq0
    refine PTree.succIdx_eq_of hbst2 ((hmem2 q0).mpr ⟨hq0mem, hq0u⟩) hwq0 ?_
    intro j hj hwj
    exact PTree.succIdx_min hbst hq0 j ((hmem2 j).mp hj).1 hwj
  have hpredSub : ∀ w p0 : Int, st.root.predIdx w = some p0 → p0 ≠ u →
      st2.root.predIdx w = some p0 := by
    intro w p0 hp0 hp0u
    obtain ⟨hp0mem, hp0w⟩ := PTree.predIdx_mem hp0
    refine PTree.predIdx_eq_of hbst2 ((hmem2 p0).mpr ⟨hp0mem, hp0u⟩) hp0w ?_
    intro j hj hjw
    exact PTree.predIdx_max hbst hp0 j ((hmem2 j).mp hj).1 hjw
  have hsucc2p : st2.root.succIdx p = some q := by
    refine PTree.succIdx_eq_of hbst2 ((hmem2 q).mpr ⟨hqmem, by omega⟩) (by omega) ?_
    intro j hj hpj
    obtain ⟨hjmem, hjneu⟩ := (hmem2 j).mp hj
    have h1 := PTree.succIdx_min hbst hsuccp j hjmem hpj
    have h2 : u < j := by omega
    exact PTree.succIdx_min hbst hq j hjmem h2
  have hpred2q : st2.root.predIdx q = some p := by
    have hpredq : st.root.predIdx q = some u := PTree.predIdx_succ_self hbst hu hq
    refine PTree.predIdx_eq_of hbst2 ((hmem2 p).mpr ⟨hpmem, by omega⟩) (by omega) ?_
    intro j hj hjq
    obtain ⟨hjmem, hjneu⟩ := (hmem2 j).mp hj
    have h1 := PTree.predIdx_max hbst hpredq j hjmem hjq
    have h2 : j < u := by omega
    exact PTree.predIdx_max hbst hp j hjmem h2
  have hpu_unique : ∀ w ∈ st.root.keys, st.root.succIdx w = some u → w = p := by
    intro w hwmem hw
    have h1 : st.root.predIdx u = some w := PTree.predIdx_succ_self hbst hwmem hw
    rw [h1] at hp
    exact Option.some_inj.mp hp
  have hqu_unique : ∀ w ∈ st.root.keys, st.root.predIdx w = some u → w = q := by
    intro w hwmem hw
    have h1 : st.root.succIdx u = some w := PTree.succIdx_pred_self hbst hwmem hw
    rw [h1] at hq
    exact Option.some_inj.mp hq
  refine ⟨⟨⟨hbst2, ?_, ?_, ?_, ?_, ?_, ?_, ?_, ?_, ?_⟩, ?_⟩, hmem2, hfo2⟩
  · rw [PTree.memT_iff]
    exact (hmem2 (-1)).mpr ⟨(PTree.memT_iff _ _).mp hEng.sentL, hune1.symm⟩
  · rw [PTree.memT_iff, hlenss]
    exact (hmem2 _).mpr ⟨(PTree.memT_iff _ _).mp hEng.sentR, fun hc => huneN hc.symm⟩
  · intro k hk
    rw [hlenss]
    exact hEng.range k ((hmem2 k).mp hk).1
  · intro k hk h0k hkN
    rw [hlenss] at hkN
    rw [hx2]
    exact hEng.seps k ((hmem2 k).mp hk).1 h0k hkN
  · intro a ha h0a c hc hac hcN
    rw [hlenss] at hcN
    rw [hx2]
    exact hEng.strictVals a ((hmem2 a).mp ha).1 h0a c ((hmem2 c).mp hc).1 hac hcN
  · -- slOK
    intro w hw hslw
    obtain ⟨hwmem, hwneu⟩ := (hmem2 w).mp hw
    rw [hslo2 w hwneu] at hslw
    obtain ⟨q0, hq0, hsrq0⟩ := hEng.slOK w hwmem hslw
    by_cases hq0u : q0 = u
    · rw [hq0u] at hq0
      have hwp : w = p := hpu_unique w hwmem hq0
      rw [hwp]
      refine ⟨q, hsucc2p, ?_⟩
      rw [hsro2 q (by omega)]
      exact hsrq
    · refine ⟨q0, hsuccSub w q0 hq0 hq0u, ?_⟩
      rw [hsro2 q0 hq0u]
      exact hsrq0
  · -- srOK
    intro w hw hsrw
    obtain ⟨hwmem, hwneu⟩ := (hmem2 w).mp hw
    rw [hsro2 w hwneu] at hsrw
    obtain ⟨p0, hp0, hslp0⟩ := hEng.srOK w hwmem hsrw
    by_cases hp0u : p0 = u
    · rw [hp0u] at hp0
      have hwq : w = q := hqu_unique w hwmem hp0
      rw [hwq]
      refine ⟨p, hpred2q, ?_⟩
      rw [hslo2 p (by omega)]
      exact hslp
    · refine ⟨p0, hpredSub w p0 hp0 hp0u, ?_⟩
      rw [hslo2 p0 hp0u]
      exact hslp0
  · rw [hsro2 (-1) (fun hc => hune1 hc.symm)]
    exact hEng.sentLFlag
  · rw [hlenss, hslo2 _ (fun hc => huneN hc.symm)]
    exact hEng.sentRFlag
  · -- slSorted
    intro w hw hslw q1 hq1
    obtain ⟨hwmem, hwneu⟩ := (hmem2 w).mp hw
    rw [hslo2 w hwneu] at hslw
    obtain ⟨q0, hq0, hsrq0⟩ := hEng.slOK w hwmem hslw
    rw [hx2]
    by_cases hq0u : q0 = u
    · rw [hq0u] at hq0
      have hwp : w = p := hpu_unique w hwmem hq0
      rw [hwp] at hq1 ⊢
      rw [hsucc2p] at hq1
      have hq1q : q1 = q := (Option.some_inj.mp hq1).symm
      rw [hq1q]
      have hs1 : sortedSeg st.xs (p + 1) u := by
        have := hSl p hpmem (by rw [← hwp]; exact hslw) u hsuccp
        exact this
      have hs2 : sortedSeg st.xs (u + 1) q := hSl u hu hslu q hq
      exact sortedSeg_glue hs1 hs2 (hEng.seps u hu h0u huN)
        (by have := (hEng.range p hpmem).1; omega)
        (hEng.range q hqmem).2
    · rw [hsuccSub w q0 hq0 hq0u] at hq1
      have hq1q : q1 = q0 := (Option.some_inj.mp hq1).symm
      rw [hq1q]
      exact hSl w hwmem hslw q0 hq0

/-- `PostPoint` via an explicit successor computation. -/
theorem postPoint_succ {st4 : St α} {k tgt : Int}
    (hbst4 : st4.root.IsBST) (htmem : tgt ∈ st4.root.keys) (hkt : k < tgt)
    (hmin : ∀ j ∈ st4.root.keys, k < j → tgt ≤ j)
    (hsr : st4.root.srAt tgt = true) : PostPoint st4 k :=
  Or.inr ⟨tgt, PTree.succIdx_eq_of hbst4 htmem hkt hmin, hsr⟩

/-- The small-region exit of the quickselect loops: `insertion_sort` on
the open region, `SORTED_LEFT` on the left bound, `SORTED_RIGHT` on the
right bound, then `depivot`.  It succeeds, keeps the invariant, sorts
the region in place, and leaves every interior index on the early-return
path of the next point query. -/
theorem regionExit_spec {ctx : Ctx α} (hclt : CanonLt ctx) {l r : Int} {st : St α}
    (hInv : RegInv st)
    (hl : l ∈ st.root.keys) (hr : r ∈ st.root.keys)
    (hadj : st.root.succIdx l = some r)
    (hsll : st.root.slAt l = false) (hsrr : st.root.srAt r = false)
    (hlr : l < r) :
    ∃ st4, depivot l r { insertion_sort ctx (l + 1) r st with root := ((insertion_sort ctx (l + 1) r st).root.orFlagsAt l true false).orFlagsAt r false true } = (st4, .ok ()) ∧
      RegInv st4 ∧ st4.xs.length = st.xs.length ∧
      (∀ m : Int, m ≤ l ∨ r ≤ m → getI st4.xs m = getI st.xs m) ∧
      sortedSeg st4.xs (l + 1) r ∧
      (∀ k : Int, l < k → k < r → PostPoint st4 k) := by
  have hEng := hInv.toEngInv
  have hSl := hInv.slSorted
  have hbst := hEng.bst
  have hnob := PTree.no_keys_between hbst hadj
  have hlge : -1 ≤ l := (hEng.range l hl).1
  have hrle : r ≤ (st.xs.length : Int) := (hEng.range r hr).2
  set st1 := insertion_sort ctx (l + 1) r st with hst1
  obtain ⟨hlen1, hroot1, hrc1⟩ := insertion_sort_state ctx (l + 1) r st
  have hB : 0 < l + 1 → ∀ m, l + 1 ≤ m → m < r →
      getI st.xs (l + 1 - 1) ≤ getI st.xs m := by
    intro h0l m h1 h2
    rw [show (l + 1 - 1 : Int) = l from by omega]
    exact (hEng.seps l hl (by omega) (by omega)).2 m (by omega) (by omega)
  obtain ⟨hperm, hsorted⟩ := insertion_sort_canon hclt st (by omega) hrle hB
  have hInv1 : RegInv st1 := regInv_of_permWithin hInv hl hr hadj hsll hroot1 hperm
  have hframe1 : ∀ m : Int, m ≤ l ∨ r ≤ m → getI st1.xs m = getI st.xs m := by
    intro m hm
    exact hperm.2.1 m (by omega)
  obtain ⟨al, bl0, habl⟩ := PTree.flags_exists_of_mem hl
  have hal : al = false := by
    have h := PTree.slAt_of_flags habl
    rw [hsll] at h
    exact h.symm
  subst hal
  obtain ⟨rl0, br, habr⟩ := PTree.flags_exists_of_mem hr
  have hbr : br = false := by
    have h := PTree.srAt_of_flags habr
    rw [hsrr] at h
    exact h.symm
  subst hbr
  have hsrl : st.root.srAt l = bl0 := by
    unfold PTree.srAt
    rw [habl]
  have hslr : st.root.slAt r = rl0 := by
    unfold PTree.slAt
    rw [habr]
  set T2 := (st1.root.orFlagsAt l true false).orFlagsAt r false true with hT2
  have hT2e : T2 = (st.root.orFlagsAt l true false).orFlagsAt r false true := by
    rw [hT2, hroot1]
  set st2 : St α := { st1 with root := T2 } with hst2
  have hx2 : st2.xs = st1.xs := rfl
  have hroot2 : st2.root = T2 := rfl
  have hkeysT2 : T2.keys = st.root.keys := by
    rw [hT2e, PTree.keys_orFlagsAt, PTree.keys_orFlagsAt]
  have hbstIn : (st.root.orFlagsAt l true false).IsBST :=
    PTree.isBST_of_keys_eq (PTree.keys_orFlagsAt st.root l true false) hbst
  have hbstT2 : T2.IsBST := PTree.isBST_of_keys_eq hkeysT2 hbst
  have hfT2l : T2.flagsAt l = some (true, bl0) := by
    rw [hT2e, PTree.flagsAt_orFlagsAt_other hbstIn false true l (by omega),
      PTree.flagsAt_orFlagsAt_self hbst habl true false]
    rw [show (false || true) = true from rfl, Bool.or_false]
  have hfT2r : T2.flagsAt r = some (rl0, true) := by
    have hinner : (st.root.orFlagsAt l true false).flagsAt r = some (rl0, false) := by
      rw [PTree.flagsAt_orFlagsAt_other hbst true false r (by omega)]
      exact habr
    rw [hT2e, PTree.flagsAt_orFlagsAt_self hbstIn hinner false true]
    rw [Bool.or_false, show (false || true) = true from rfl]
  have hfT2o : ∀ i : Int, i ≠ l → i ≠ r → T2.flagsAt i = st.root.flagsAt i := by
    intro i hil hir
    rw [hT2e, PTree.flagsAt_orFlagsAt_other hbstIn false true i hir,
      PTree.flagsAt_orFlagsAt_other hbst true false i hil]
  have hslT2l : T2.slAt l = true := PTree.slAt_of_flags hfT2l
  have hsrT2l : T2.srAt l = bl0 := PTree.srAt_of_flags hfT2l
  have hslT2r : T2.slAt r = rl0 := PTree.slAt_of_flags hfT2r
  have hsrT2r : T2.srAt r = true := PTree.srAt_of_flags hfT2r
  have hsuccT2 : ∀ i : Int, T2.succIdx i = st.root.succIdx i :=
    PTree.succIdx_of_keys_eq hkeysT2
  have hpredT2 : ∀ i : Int, T2.predIdx i = st.root.predIdx i :=
    PTree.predIdx_of_keys_eq hkeysT2
  have hmemT2 : ∀ i : Int, i ∈ T2.keys ↔ i ∈ st.root.keys := by
    intro i
    rw [hkeysT2]
  have hsrmono : ∀ i : Int, st.root.srAt i = true → T2.srAt i = true := by
    intro i hi
    by_cases hil : i = l
    · rw [hil, hsrT2l, ← hsrl, ← hil]
      exact hi
    · by_cases hir : i = r
      · rw [hir, hsrT2r]
      · rw [PTree.srAt_congr (hfT2o i hil hir)]
        exact hi
  have hslmono : ∀ i : Int, st.root.slAt i = true → T2.slAt i = true := by
    intro i hi
    by_cases hil : i = l
    · rw [hil] at hi
      rw [hi] at hsll
      cases hsll
    · by_cases hir : i = r
      · rw [hir, hslT2r, ← hslr, ← hir]
        exact hi
      · rw [PTree.slAt_congr (hfT2o i hil hir)]
        exact hi
  have hlenss2 : (st2.xs.length : Int) = (st.xs.length : Int) := by
    rw [hx2, hlen1]
  have hInv2 : RegInv st2 := by
    obtain ⟨hEng1, hSl1⟩ := hInv1
    refine ⟨⟨hbstT2, ?_, ?_, ?_, ?_, ?_, ?_, ?_, ?_, ?_⟩, ?_⟩
    · rw [show st2.root.memT (-1) = st.root.memT (-1) from
        PTree.memT_of_keys_eq hkeysT2 (-1)]
      exact hEng.sentL
    · rw [hlenss2, show st2.root.memT ((st.xs.length : Int)) =
        st.root.memT ((st.xs.length : Int)) from PTree.memT_of_keys_eq hkeysT2 _]
      exact hEng.sentR
    · intro k hk
      rw [hlenss2]
      exact hEng.range k ((hmemT2 k).mp hk)
    · intro k hk h0k hkN
      rw [hlenss2] at hkN
      rw [hx2]
      have hk1 : k ∈ st1.root.keys := by
        rw [hroot1]
        exact (hmemT2 k).mp hk
      exact hEng1.seps k hk1 h0k (by rw [hlen1]; exact hkN)
    · intro p hp h0p q hq hpq hqN
      rw [hlenss2] at hqN
      rw [hx2]
      have hp1 : p ∈ st1.root.keys := by
        rw [hroot1]
        exact (hmemT2 p).mp hp
      have hq1 : q ∈ st1.root.keys := by
        rw [hroot1]
        exact (hmemT2 q).mp hq
      exact hEng1.strictVals p hp1 h0p q hq1 hpq (by rw [hlen1]; exact hqN)
    · -- slOK
      intro w hw hslw
      by_cases hwl : w = l
      · rw [hwl]
        refine ⟨r, ?_, ?_⟩
        · rw [show st2.root.succIdx l = T2.succIdx l from rfl, hsuccT2]
          exact hadj
        · exact hsrT2r
      · have hwmem : w ∈ st.root.keys := (hmemT2 w).mp hw
        have hslw0 : st.root.slAt w = true := by
          by_cases hwr : w = r
          · rw [hwr] at hslw ⊢
            rw [hslT2r] at hslw
            rw [hslr]
            exact hslw
          · rw [← PTree.slAt_congr (hfT2o w hwl hwr)]
            exact hslw
        obtain ⟨q0, hq0, hsrq0⟩ := hEng.slOK w hwmem hslw0
        refine ⟨q0, ?_, hsrmono q0 hsrq0⟩
        rw [show st2.root.succIdx w = T2.succIdx w from rfl, hsuccT2]
        exact hq0
    · -- srOK
      intro w hw hsrw
      by_cases hwr : w = r
      · rw [hwr]
        refine ⟨l, ?_, ?_⟩
        · rw [show st2.root.predIdx r = T2.predIdx r from rfl, hpredT2]
          exact PTree.predIdx_succ_self hbst hl hadj
        · exact hslT2l
      · have hwmem : w ∈ st.root.keys := (hmemT2 w).mp hw
        have hsrw0 : st.root.srAt w = true := by
          by_cases hwl : w = l
          · rw [hwl] at hsrw ⊢
            rw [hsrT2l] at hsrw
            rw [hsrl]
            exact hsrw
          · rw [← PTree.srAt_congr (hfT2o w hwl hwr)]
            exact hsrw
        obtain ⟨p0, hp0, hslp0⟩ := hEng.srOK w hwmem hsrw0
        refine ⟨p0, ?_, hslmono p0 hslp0⟩
        rw [show st2.root.predIdx w = T2.predIdx w from rfl, hpredT2]
        exact hp0
    · -- sentLFlag
      by_cases hcl : l = -1
      · rw [show st2.root.srAt (-1) = T2.srAt (-1) from rfl, ← hcl, hsrT2l, ← hsrl]
        rw [hcl]
        exact hEng.sentLFlag
      · rw [show st2.root.srAt (-1) = T2.srAt (-1) from rfl,
          PTree.srAt_congr (hfT2o (-1) (fun hc => hcl hc.symm) (by omega))]
        exact hEng.sentLFlag
    · -- sentRFlag
      rw [hlenss2]
      by_cases hcr : r = (st.xs.length : Int)
      · rw [show st2.root.slAt _ = T2.slAt _ from rfl, ← hcr, hslT2r, ← hslr]
        rw [hcr]
        exact hEng.sentRFlag
      · rw [show st2.root.slAt _ = T2.slAt _ from rfl,
          PTree.slAt_congr (hfT2o _ (by omega) (fun hc => hcr hc.symm))]
        exact hEng.sentRFlag
    · -- slSorted
      intro w hw hslw q1 hq1
      rw [show st2.root.succIdx w = T2.succIdx w from rfl, hsuccT2] at hq1
      by_cases hwl : w = l
      · rw [hwl] at hq1
        rw [hadj] at hq1
        have hq1r : q1 = r := (Option.some_inj.mp hq1).symm
        rw [hx2, hq1r, hwl]
        exact hsorted
      · have hwmem : w ∈ st.root.keys := (hmemT2 w).mp hw
        have hslw0 : st.root.slAt w = true := by
          by_cases hwr : w = r
          · rw [hwr] at hslw ⊢
            rw [hslT2r] at hslw
            rw [hslr]
            exact hslw
          · rw [← PTree.slAt_congr (hfT2o w hwl hwr)]
            exact hslw
        have hw1 : w ∈ st1.root.keys := by
          rw [hroot1]
          exact hwmem
        have hslw1 : st1.root.slAt w = true := by
          rw [hroot1]
          exact hslw0
        rw [hx2]
        refine hSl1 w hw1 hslw1 q1 ?_
        rw [hroot1]
        exact hq1
  have hfl2 : st2.root.flagsAt l = some (true, bl0) := hfT2l
  have hfr2 : st2.root.flagsAt r = some (rl0, true) := hfT2r
  have hminT2 : ∀ k : Int, l < k → ∀ j ∈ st.root.keys, k < j → r ≤ j := by
    intro k hk j hj hkj
    by_contra hc
    push_neg at hc
    exact hnob j hj ⟨by omega, by omega⟩
  cases bl0 with
  | false =>
    cases rl0 with
    | false =>
      refine ⟨st2, ?_, hInv2, by rw [hx2, hlen1], hframe1, hsorted, ?_⟩
      · simp [depivot, hfl2, hfr2]
      · intro k hk1 hk2
        refine postPoint_succ hbstT2 ((hmemT2 r).mpr hr) hk2 ?_ hsrT2r
        intro j hj hkj
        exact hminT2 k hk1 j ((hmemT2 j).mp hj) hkj
    | true =>
      obtain ⟨q, hq2, hsrq2⟩ := hInv2.toEngInv.slOK r ((hmemT2 r).mpr hr) hslT2r
      obtain ⟨hqmem2, hrq⟩ := PTree.succIdx_mem hq2
      set st4 : St α := { st2 with root := st2.root.deleteIdx r } with hst4
      obtain ⟨hInv4, hkeys4, hflags4⟩ := deleteBoth_inv hInv2 ((hmemT2 r).mpr hr)
        hslT2r hsrT2r (show st4.xs = st2.xs from rfl)
        (show st4.root = st2.root.deleteIdx r from rfl)
      refine ⟨st4, ?_, hInv4, by rw [show st4.xs = st1.xs from rfl, hlen1],
        hframe1, hsorted, ?_⟩
      · simp [depivot, hfl2, hfr2, hst4]
      · intro k hk1 hk2
        refine postPoint_succ hInv4.toEngInv.bst
          ((hkeys4 q).mpr ⟨hqmem2, by omega⟩) (by omega) ?_ ?_
        · intro j hj hkj
          obtain ⟨hjmem, hjner⟩ := (hkeys4 j).mp hj
          have hjr : r ≤ j := hminT2 k hk1 j ((hmemT2 j).mp hjmem) hkj
          exact PTree.succIdx_min hbstT2 hq2 j hjmem (by omega)
        · rw [PTree.srAt_congr (hflags4 q (by omega))]
          exact hsrq2
  | true =>
    set st4a : St α := { st2 with root := st2.root.deleteIdx l } with hst4a
    obtain ⟨hInv4a, hkeys4a, hflags4a⟩ := deleteBoth_inv hInv2 ((hmemT2 l).mpr hl)
      hslT2l hsrT2l (show st4a.xs = st2.xs from rfl)
      (show st4a.root = st2.root.deleteIdx l from rfl)
    cases rl0 with
    | false =>
      refine ⟨st4a, ?_, hInv4a, by rw [show st4a.xs = st1.xs from rfl, hlen1],
        hframe1, hsorted, ?_⟩
      · simp [depivot, hfl2, hfr2, hst4a]
      · intro k hk1 hk2
        refine postPoint_succ hInv4a.toEngInv.bst
          ((hkeys4a r).mpr ⟨(hmemT2 r).mpr hr, by omega⟩) hk2 ?_ ?_
        · intro j hj hkj
          obtain ⟨hjmem, _⟩ := (hkeys4a j).mp hj
          exact hminT2 k hk1 j ((hmemT2 j).mp hjmem) hkj
        · rw [PTree.srAt_congr (hflags4a r (by omega))]
          exact hsrT2r
    | true =>
      obtain ⟨q, hq2, hsrq2⟩ := hInv2.toEngInv.slOK r ((hmemT2 r).mpr hr) hslT2r
      obtain ⟨hqmem2, hrq⟩ := PTree.succIdx_mem hq2
      have hrmem4a : r ∈ st4a.root.keys :=
        (hkeys4a r).mpr ⟨(hmemT2 r).mpr hr, by omega⟩
      have hslr4a : st4a.root.slAt r = true := by
        rw [PTree.slAt_congr (hflags4a r (by omega))]
        exact hslT2r
      have hsrr4a : st4a.root.srAt r = true := by
        rw [PTree.srAt_congr (hflags4a r (by omega))]
        exact hsrT2r
      set st4 : St α := { st4a with root := st4a.root.deleteIdx r } with hst4
      obtain ⟨hInv4, hkeys4, hflags4⟩ := deleteBoth_inv hInv4a hrmem4a hslr4a hsrr4a
        (show st4.xs = st4a.xs from rfl)
        (show st4.root = st4a.root.deleteIdx r from rfl)
      refine ⟨st4, ?_, hInv4, by rw [show st4.xs = st1.xs from rfl, hlen1],
        hframe1, hsorted, ?_⟩
      · simp [depivot, hfl2, hfr2, hst4, hst4a]
      · intro k hk1 hk2
        refine postPoint_succ hInv4.toEngInv.bst
          ((hkeys4 q).mpr ⟨(hkeys4a q).mpr ⟨hqmem2, by omega⟩, by omega⟩)
          (by omega) ?_ ?_
        · intro j hj hkj
          obtain ⟨hj1, hjner⟩ := (hkeys4 j).mp hj
          obtain ⟨hjmem, _⟩ := (hkeys4a j).mp hj1
          have hjr : r ≤ j := hminT2 k hk1 j ((hmemT2 j).mp hjmem) hkj
          exact PTree.succIdx_min hbstT2 hq2 j hjmem (by omega)
        · rw [PTree.srAt_congr (hflags4 q (by omega)),
            PTree.srAt_congr (hflags4a q (by omega))]
          exact hsrq2

end RegionExit

section PointLoop

variable {α : Type} [Inhabited α] [LinearOrder α]

/-- One unfolding of the quickselect loop of `sort_point`. -/
theorem sortPointLoop_step (ctx : Ctx α) (k : Int) (fuel : Nat) (l r : Int)
    (st : St α) :
    sortPointLoop ctx k (fuel + 1) l r st =
      if ¬ st.root.memT l then (st, .error .useAfterFree)
      else if ¬ st.root.memT r then (st, .error .useAfterFree)
      else if l + 1 + (ctx.thresh : Int) ≤ r then
        match partitionC ctx (l + 1) r st with
        | (st1, .error e) => (st1, .error e)
        | (st1, .ok piv) =>
          match insert_pivot ctx piv false false (match st1.root.findNode l with
            | some (.node _ _ _ _ _ .leaf) => l
            | _ => r) st1 with
          | (st2, .error e) => (st2, .error e)
          | (st2, .ok _) =>
            match uniq_pivots ctx l piv r st2 with
            | (st3, .error e) => (st3, .error e)
            | (st3, .ok _) =>
              if piv < k then sortPointLoop ctx k fuel piv r st3
              else if k < piv then sortPointLoop ctx k fuel l piv st3
              else (st3, .ok ())
      else depivot l r { insertion_sort ctx (l + 1) r st with root := ((insertion_sort ctx (l + 1) r st).root.orFlagsAt l true false).orFlagsAt r false true } := rfl

/-- The quickselect loop of `sort_point` preserves the region invariant
along every path (also aborts), and a successful return leaves `k` on
the early-return path.  The bound-liveness facts are carried
conditionally: a dead bound aborts at the loop head, which trivially
preserves the invariant. -/
theorem sortPointLoop_inv {ctx : Ctx α} (hclt : CanonLt ctx) (hceq : CanonEq ctx)
    (hth : 1 ≤ ctx.thresh) {k : Int} :
    ∀ (fuel : Nat) (l r : Int) (st : St α), RegInv st →
      (l ∈ st.root.keys → r ∈ st.root.keys →
        st.root.succIdx l = some r ∧ st.root.slAt l = false ∧
        st.root.srAt r = false ∧ l < k ∧ k < r) →
      ∃ st2 res, sortPointLoop ctx k fuel l r st = (st2, res) ∧
        RegInv st2 ∧ st2.xs.length = st.xs.length ∧
        (res = .ok () → PostPoint st2 k) := by
  intro fuel
  induction fuel with
  | zero =>
    intro l r st hInv hcond
    exact ⟨st, .error .unreachable, rfl, hInv, rfl, fun h => Except.noConfusion h⟩
  | succ fuel ih =>
    intro l r st hInv hcond
    by_cases hml : st.root.memT l = true
    · by_cases hmr : st.root.memT r = true
      · obtain ⟨hadj, hsll, hsrr, hlk, hkr⟩ :=
          hcond ((PTree.memT_iff _ _).mp hml) ((PTree.memT_iff _ _).mp hmr)
        have hl : l ∈ st.root.keys := (PTree.memT_iff _ _).mp hml
        have hr : r ∈ st.root.keys := (PTree.memT_iff _ _).mp hmr
        by_cases hguard : l + 1 + (ctx.thresh : Int) ≤ r
        · -- partition step
          obtain ⟨piv, st1, heqP, hroot1, hlen1, hInv1, hpb1, hpb2, hframe, hlts,
            hges, hperm⟩ := partitionC_inv hclt hInv hl hr hadj hsll (by omega)
          obtain ⟨st2, st3, heqI, heqU, hx3, hInv3, hpmem3, hD1, hD2⟩ :=
            quickstep_spec hceq hInv1
              (by rw [hroot1]; exact hl) (by rw [hroot1]; exact hr)
              (by rw [hroot1]; exact hadj) (by rw [hroot1]; exact hsll)
              (by rw [hroot1]; exact hsrr) (by omega) hpb2
              (fun m h1 h2 => hlts m (by omega) h2) hges
              (PTree.hintOf_cases st1.root l r)
          have hlen3 : st3.xs.length = st.xs.length := by
            rw [hx3, hlen1]
          rcases lt_trichotomy piv k with hpk | hpk | hpk
          · -- recurse right on (piv, r)
            obtain ⟨st5, res, heqL, hInv5, hlen5, hpost⟩ := ih piv r st3 hInv3
              (by
                intro hpm hrm
                rcases hD1 with ⟨h1, h2, h3, h4⟩ | h1
                · exact ⟨h2, h3, h4, hpk, hkr⟩
                · exact absurd hrm h1)
            refine ⟨st5, res, ?_, hInv5, by rw [hlen5, hlen3], hpost⟩
            rw [sortPointLoop_step, if_neg (fun hc => hc hml),
              if_neg (fun hc => hc hmr), if_pos hguard]
            simp only [heqP, heqI, heqU]
            rw [if_pos hpk]
            exact heqL
          · -- exact hit
            refine ⟨st3, .ok (), ?_, hInv3, hlen3, fun _ => Or.inl (hpk ▸ hpmem3)⟩
            rw [sortPointLoop_step, if_neg (fun hc => hc hml),
              if_neg (fun hc => hc hmr), if_pos hguard]
            simp only [heqP, heqI, heqU]
            rw [if_neg (by omega), if_neg (by omega)]
          · -- recurse left on (l, piv)
            obtain ⟨st5, res, heqL, hInv5, hlen5, hpost⟩ := ih l piv st3 hInv3
              (by
                intro hlm hpm
                rcases hD2 with ⟨h1, h2, h3, h4⟩ | ⟨h1, h2⟩
                · exact ⟨h2, h3, h4, hlk, hpk⟩
                · exact absurd hlm h1)
            refine ⟨st5, res, ?_, hInv5, by rw [hlen5, hlen3], hpost⟩
            rw [sortPointLoop_step, if_neg (fun hc => hc hml),
              if_neg (fun hc => hc hmr), if_pos hguard]
            simp only [heqP, heqI, heqU]
            rw [if_neg (by omega), if_pos hpk]
            exact heqL
        · -- small region: sort it in place and mark it
          obtain ⟨st4, hdep, hInv4, hlen4, hframe4, hsorted4, hpost4⟩ :=
            regionExit_spec hclt hInv hl hr hadj hsll hsrr (by omega)
          refine ⟨st4, .ok (), ?_, hInv4, hlen4, fun _ => hpost4 k hlk hkr⟩
          rw [sortPointLoop_step, if_neg (fun hc => hc hml),
            if_neg (fun hc => hc hmr), if_neg hguard]
          exact hdep
      · refine ⟨st, .error .useAfterFree, ?_, hInv, rfl, fun h => Except.noConfusion h⟩
        rw [sortPointLoop_step, if_neg (fun hc => hc hml), if_pos hmr]
    · refine ⟨st, .error .useAfterFree, ?_, hInv, rfl, fun h => Except.noConfusion h⟩
      rw [sortPointLoop_step, if_pos hml]

end PointLoop

section PointTop

variable {α : Type} [Inhabited α] [LinearOrder α]

/-- `sort_point` preserves the region invariant on every path, and on
success leaves `k` on its early-return path. -/
theorem sort_point_inv {ctx : Ctx α} (hclt : CanonLt ctx) (hceq : CanonEq ctx)
    (hth : 1 ≤ ctx.thresh) {k : Int} {st : St α} (hInv : RegInv st) :
    ∃ st2 res, sort_point ctx k st = (st2, res) ∧
      RegInv st2 ∧ st2.xs.length = st.xs.length ∧
      (res = .ok () → PostPoint st2 k) := by
  have hbst := hInv.toEngInv.bst
  by_cases hk : k ∈ st.root.keys
  · rcases hb : st.root.boundIdx k with ⟨b1, b2⟩
    have hb1 : b1 = some k := by
      have h := PTree.boundIdx_mem hbst hk
      rw [hb] at h
      exact h
    refine ⟨st, .ok (), ?_, hInv, rfl, fun _ => Or.inl hk⟩
    rw [hb1] at hb
    simp only [sort_point, hb]
    rw [if_pos trivial]
  · have hbnm := PTree.boundIdx_not_mem hbst hk
    rcases hpk : st.root.predIdx k with _ | l
    · refine ⟨st, .error .nullDeref, ?_, hInv, rfl, fun h => Except.noConfusion h⟩
      rw [hpk] at hbnm
      simp only [sort_point, hbnm]
    · have hlk : l < k := (PTree.predIdx_mem hpk).2
      have hlmem : l ∈ st.root.keys := (PTree.predIdx_mem hpk).1
      rcases hsk : st.root.succIdx k with _ | r
      · refine ⟨st, .error .nullDeref, ?_, hInv, rfl, fun h => Except.noConfusion h⟩
        rw [hpk, hsk] at hbnm
        simp only [sort_point, hbnm]
        rw [if_neg (by omega)]
      · have hkr : k < r := (PTree.succIdx_mem hsk).2
        have hrmem : r ∈ st.root.keys := (PTree.succIdx_mem hsk).1
        obtain ⟨rl, rsr, habr⟩ := PTree.flags_exists_of_mem hrmem
        rw [hpk, hsk] at hbnm
        cases rsr with
        | true =>
          refine ⟨st, .ok (), ?_, hInv, rfl,
            fun _ => Or.inr ⟨r, hsk, PTree.srAt_of_flags habr⟩⟩
          simp only [sort_point, hbnm, habr]
          rw [if_neg (by omega), if_pos trivial]
        | false =>
          have hadj : st.root.succIdx l = some r := by
            rw [PTree.succIdx_of_predIdx hbst hk hpk]
            exact hsk
          have hsrr : st.root.srAt r = false := PTree.srAt_of_flags habr
          have hsll : st.root.slAt l = false := by
            by_contra hc
            have hc2 : st.root.slAt l = true := by
              cases h : st.root.slAt l
              · exact absurd h hc
              · rfl
            obtain ⟨q, hq, hsrq⟩ := hInv.toEngInv.slOK l hlmem hc2
            rw [hadj] at hq
            have : q = r := (Option.some_inj.mp hq).symm
            rw [this] at hsrq
            rw [hsrq] at hsrr
            cases hsrr
          obtain ⟨st2, res, heqL, hInv2, hlen2, hpost⟩ :=
            sortPointLoop_inv hclt hceq hth ((r - l).toNat + 1) l r st hInv
              (fun _ _ => ⟨hadj, hsll, hsrr, hlk, hkr⟩)
          refine ⟨st2, res, ?_, hInv2, hlen2, hpost⟩
          simp only [sort_point, hbnm, habr]
          rw [if_neg (by omega), if_neg (by simp)]
          exact heqL

/-- A point already on its early-return path: `sort_point` is a no-op
that reports success without touching the state. -/
theorem sort_point_again {ctx : Ctx α} {k : Int} {st : St α}
    (hInv : RegInv st) (h0k : 0 ≤ k)
    (hpost : PostPoint st k) :
    sort_point ctx k st = (st, .ok ()) := by
  have hbst := hInv.toEngInv.bst
  by_cases hk : k ∈ st.root.keys
  · rcases hb : st.root.boundIdx k with ⟨b1, b2⟩
    have hb1 : b1 = some k := by
      have h := PTree.boundIdx_mem hbst hk
      rw [hb] at h
      exact h
    rw [hb1] at hb
    simp only [sort_point, hb]
    rw [if_pos trivial]
  · rcases hpost with hmem | ⟨q, hq, hsrq⟩
    · exact absurd hmem hk
    · have hbnm := PTree.boundIdx_not_mem hbst hk
      have hsentl : (-1 : Int) ∈ st.root.keys :=
        (PTree.memT_iff _ _).mp hInv.toEngInv.sentL
      obtain ⟨l, hpk⟩ := PTree.predIdx_isSome hsentl (by omega : (-1 : Int) < k)
      have hlk : l < k := (PTree.predIdx_mem hpk).2
      obtain ⟨a2, b2, habq⟩ := PTree.flags_exists_of_mem (PTree.succIdx_mem hq).1
      have hb2 : b2 = true := by
        have h := PTree.srAt_of_flags habq
        rw [hsrq] at h
        exact h.symm
      subst hb2
      rw [hpk, hq] at hbnm
      simp only [sort_point, hbnm, habq]
      rw [if_neg (by omega), if_pos trivial]

end PointTop

section MarkRegion

variable {α : Type} [Inhabited α] [LinearOrder α]

/-- Marking a freshly sorted region: `SORTED_LEFT` on its left bound and
`SORTED_RIGHT` on its right bound re-establishes the region invariant
(used by the exits of `sort_point`, `sort_range` and `find_item`). -/
theorem markRegion_inv {l r : Int} {st st1 st2 : St α}
    (hInv : RegInv st)
    (hl : l ∈ st.root.keys) (hr : r ∈ st.root.keys)
    (hadj : st.root.succIdx l = some r)
    (hsll : st.root.slAt l = false)
    (hroot1 : st1.root = st.root)
    (hperm : PermWithin st.xs st1.xs (l + 1) r)
    (hsorted : sortedSeg st1.xs (l + 1) r)
    (hx2 : st2.xs = st1.xs)
    (hroot2 : st2.root = (st1.root.orFlagsAt l true false).orFlagsAt r false true) :
    RegInv st2 ∧ (∀ i : Int, i ∈ st2.root.keys ↔ i ∈ st.root.keys) ∧
      st2.root.flagsAt l = some (true, st.root.srAt l) ∧
      st2.root.flagsAt r = some (st.root.slAt r, true) ∧
      (∀ i : Int, i ≠ l → i ≠ r → st2.root.flagsAt i = st.root.flagsAt i) ∧
      (∀ i : Int, st2.root.succIdx i = st.root.succIdx i) := by
  have hEng := hInv.toEngInv
  have hSl := hInv.slSorted
  have hbst := hEng.bst
  have hlr : l < r := (PTree.succIdx_mem hadj).2
  have hlge : -1 ≤ l := (hEng.range l hl).1
  have hrle : r ≤ (st.xs.length : Int) := (hEng.range r hr).2
  have hlen1 : st1.xs.length = st.xs.length := hperm.1
  have hInv1 : RegInv st1 := regInv_of_permWithin hInv hl hr hadj hsll hroot1 hperm
  obtain ⟨al, bl0, habl⟩ := PTree.flags_exists_of_mem hl
  have hal : al = false := by
    have h := PTree.slAt_of_flags habl
    rw [hsll] at h
    exact h.symm
  subst hal
  obtain ⟨rl0, br, habr⟩ := PTree.flags_exists_of_mem hr
  have hsrl : st.root.srAt l = bl0 := by
    unfold PTree.srAt
    rw [habl]
  have hslr : st.root.slAt r = rl0 := by
    unfold PTree.slAt
    rw [habr]
  have hsrr0 : st.root.srAt r = br := by
    unfold PTree.srAt
    rw [habr]
  have hT2e : st2.root = (st.root.orFlagsAt l true false).orFlagsAt r false true := by
    rw [hroot2, hroot1]
  have hkeysT2 : st2.root.keys = st.root.keys := by
    rw [hT2e, PTree.keys_orFlagsAt, PTree.keys_orFlagsAt]
  have hbstIn : (st.root.orFlagsAt l true false).IsBST :=
    PTree.isBST_of_keys_eq (PTree.keys_orFlagsAt st.root l true false) hbst
  have hbstT2 : st2.root.IsBST := PTree.isBST_of_keys_eq hkeysT2 hbst
  have hfT2l : st2.root.flagsAt l = some (true, bl0) := by
    rw [hT2e, PTree.flagsAt_orFlagsAt_other hbstIn false true l (by omega),
      PTree.flagsAt_orFlagsAt_self hbst habl true false]
    rw [show (false || true) = true from rfl, Bool.or_false]
  have hfT2r : st2.root.flagsAt r = some (rl0, true) := by
    have hinner : (st.root.orFlagsAt l true false).flagsAt r = some (rl0, br) := by
      rw [PTree.flagsAt_orFlagsAt_other hbst true false r (by omega)]
      exact habr
    rw [hT2e, PTree.flagsAt_orFlagsAt_self hbstIn hinner false true]
    rw [Bool.or_false, Bool.or_true]
  have hfT2o : ∀ i : Int, i ≠ l → i ≠ r → st2.root.flagsAt i = st.root.flagsAt i := by
    intro i hil hir
    rw [hT2e, PTree.flagsAt_orFlagsAt_other hbstIn false true i hir,
      PTree.flagsAt_orFlagsAt_other hbst true false i hil]
  have hslT2l : st2.root.slAt l = true := PTree.slAt_of_flags hfT2l
  have hsrT2l : st2.root.srAt l = bl0 := PTree.srAt_of_flags hfT2l
  have hslT2r : st2.root.slAt r = rl0 := PTree.slAt_of_flags hfT2r
  have hsrT2r : st2.root.srAt r = true := PTree.srAt_of_flags hfT2r
  have hsuccT2 : ∀ i : Int, st2.root.succIdx i = st.root.succIdx i :=
    PTree.succIdx_of_keys_eq hkeysT2
  have hpredT2 : ∀ i : Int, st2.root.predIdx i = st.root.predIdx i :=
    PTree.predIdx_of_keys_eq hkeysT2
  have hmemT2 : ∀ i : Int, i ∈ st2.root.keys ↔ i ∈ st.root.keys := by
    intro i
    rw [hkeysT2]
  have hsrmono : ∀ i : Int, st.root.srAt i = true → st2.root.srAt i = true := by
    intro i hi
    by_cases hil : i = l
    · rw [hil, hsrT2l, ← hsrl, ← hil]
      exact hi
    · by_cases hir : i = r
      · rw [hir, hsrT2r]
      · rw [PTree.srAt_congr (hfT2o i hil hir)]
        exact hi
  have hslmono : ∀ i : Int, st.root.slAt i = true → st2.root.slAt i = true := by
    intro i hi
    by_cases hil : i = l
    · rw [hil] at hi
      rw [hi] at hsll
      cases hsll
    · by_cases hir : i = r
      · rw [hir, hslT2r, ← hslr, ← hir]
        exact hi
      · rw [PTree.slAt_congr (hfT2o i hil hir)]
        exact hi
  have hlenss2 : (st2.xs.length : Int) = (st.xs.length : Int) := by
    rw [hx2, hlen1]
  have hInvOut : RegInv st2 := by
    obtain ⟨hEng1, hSl1⟩ := hInv1
    refine ⟨⟨hbstT2, ?_, ?_, ?_, ?_, ?_, ?_, ?_, ?_, ?_⟩, ?_⟩
    · rw [show st2.root.memT (-1) = st.root.memT (-1) from
        PTree.memT_of_keys_eq hkeysT2 (-1)]
      exact hEng.sentL
    · rw [hlenss2, show st2.root.memT ((st.xs.length : Int)) =
        st.root.memT ((st.xs.length : Int)) from PTree.memT_of_keys_eq hkeysT2 _]
      exact hEng.sentR
    · intro k hk
      rw [hlenss2]
      exact hEng.range k ((hmemT2 k).mp hk)
    · intro k hk h0k hkN
      rw [hlenss2] at hkN
      rw [hx2]
      have hk1 : k ∈ st1.root.keys := by
        rw [hroot1]
        exact (hmemT2 k).mp hk
      exact hEng1.seps k hk1 h0k (by rw [hlen1]; exact hkN)
    · intro p hp h0p q hq hpq hqN
      rw [hlenss2] at hqN
      rw [hx2]
      have hp1 : p ∈ st1.root.keys := by
        rw [hroot1]
        exact (hmemT2 p).mp hp
      have hq1 : q ∈ st1.root.keys := by
        rw [hroot1]
        exact (hmemT2 q).mp hq
      exact hEng1.strictVals p hp1 h0p q hq1 hpq (by rw [hlen1]; exact hqN)
    · intro w hw hslw
      by_cases hwl : w = l
      · rw [hwl]
        refine ⟨r, ?_, ?_⟩
        · rw [hsuccT2]
          exact hadj
        · exact hsrT2r
      · have hwmem : w ∈ st.root.keys := (hmemT2 w).mp hw
        have hslw0 : st.root.slAt w = true := by
          by_cases hwr : w = r
          · rw [hwr] at hslw ⊢
            rw [hslT2r] at hslw
            rw [hslr]
            exact hslw
          · rw [← PTree.slAt_congr (hfT2o w hwl hwr)]
            exact hslw
        obtain ⟨q0, hq0, hsrq0⟩ := hEng.slOK w hwmem hslw0
        refine ⟨q0, ?_, hsrmono q0 hsrq0⟩
        rw [hsuccT2]
        exact hq0
    · intro w hw hsrw
      by_cases hwr : w = r
      · rw [hwr]
        refine ⟨l, ?_, ?_⟩
        · rw [hpredT2]
          exact PTree.predIdx_succ_self hbst hl hadj
        · exact hslT2l
      · have hwmem : w ∈ st.root.keys := (hmemT2 w).mp hw
        have hsrw0 : st.root.srAt w = true := by
          by_cases hwl : w = l
          · rw [hwl] at hsrw ⊢
            rw [hsrT2l] at hsrw
            rw [hsrl]
            exact hsrw
          · rw [← PTree.srAt_congr (hfT2o w hwl hwr)]
            exact hsrw
        obtain ⟨p0, hp0, hslp0⟩ := hEng.srOK w hwmem hsrw0
        refine ⟨p0, ?_, hslmono p0 hslp0⟩
        rw [hpredT2]
        exact hp0
    · by_cases hcl : l = -1
      · rw [← hcl, hsrT2l, ← hsrl]
        rw [hcl]
        exact hEng.sentLFlag
      · rw [PTree.srAt_congr (hfT2o (-1) (fun hc => hcl hc.symm) (by omega))]
        exact hEng.sentLFlag
    · rw [hlenss2]
      by_cases hcr : r = (st.xs.length : Int)
      · rw [← hcr, hslT2r, ← hslr]
        rw [hcr]
        exact hEng.sentRFlag
      · rw [PTree.slAt_congr (hfT2o _ (by omega) (fun hc => hcr hc.symm))]
        exact hEng.sentRFlag
    · intro w hw hslw q1 hq1
      rw [hsuccT2] at hq1
      by_cases hwl : w = l
      · rw [hwl] at hq1
        rw [hadj] at hq1
        have hq1r : q1 = r := (Option.some_inj.mp hq1).symm
        rw [hx2, hq1r, hwl]
        exact hsorted
      · have hwmem : w ∈ st.root.keys := (hmemT2 w).mp hw
        have hslw0 : st.root.slAt w = true := by
          by_cases hwr : w = r
          · rw [hwr] at hslw ⊢
            rw [hslT2r] at hslw
            rw [hslr]
            exact hslw
          · rw [← PTree.slAt_congr (hfT2o w hwl hwr)]
            exact hslw
        have hw1 : w ∈ st1.root.keys := by
          rw [hroot1]
          exact hwmem
        have hslw1 : st1.root.slAt w = true := by
          rw [hroot1]
          exact hslw0
        rw [hx2]
        refine hSl1 w hw1 hslw1 q1 ?_
        rw [hroot1]
        exact hq1
  rw [hsrl, hslr] at *
  exact ⟨hInvOut, hmemT2, hfT2l, hfT2r, hfT2o, hsuccT2⟩

end MarkRegion

section QuickSortCanon

variable {α : Type} [Inhabited α] [LinearOrder α]

/-- `quick_sort`'s recursion under a canonical comparator: it succeeds,
never touches the tree, and sorts the region in place. -/
theorem quickSortF_canon {ctx : Ctx α} (hclt : CanonLt ctx) :
    ∀ (fuel : Nat) (l r : Int) (st : St α), (r - l).toNat < fuel → 0 ≤ l →
      r ≤ (st.xs.length : Int) →
      (0 < l → ∀ m : Int, l ≤ m → m < r → getI st.xs (l - 1) ≤ getI st.xs m) →
      ∃ st1, quickSortF ctx fuel l r st = (st1, .ok ()) ∧ st1.root = st.root ∧
        st1.xs.length = st.xs.length ∧
        PermWithin st.xs st1.xs l r ∧ sortedSeg st1.xs l r := by
  intro fuel
  induction fuel with
  | zero =>
    intro l r st hf
    exact absurd hf (by omega)
  | succ fuel ih =>
    intro l r st hf h0 hrlen hB
    by_cases hsmall : r - l ≤ (ctx.thresh : Int)
    · obtain ⟨hperm, hsorted⟩ := insertion_sort_canon hclt st h0 hrlen hB
      obtain ⟨hlen, hroot, hrc⟩ := insertion_sort_state ctx l r st
      refine ⟨insertion_sort ctx l r st, ?_, hroot, hlen, hperm, hsorted⟩
      simp only [quickSortF]
      rw [if_pos hsmall]
    · have hlr : l < r := by
        have : (0 : Int) ≤ (ctx.thresh : Int) := by positivity
        omega
      obtain ⟨piv, st1, heqP, hlts, hges⟩ := partitionC_canon hclt st hlr h0 hrlen
      obtain ⟨hroot1, hrc1, hperm1, hokb1⟩ := partitionC_frame ctx st hlr h0 hrlen
      rw [heqP] at hroot1 hrc1 hperm1 hokb1
      simp only at hroot1 hrc1 hperm1 hokb1
      obtain ⟨hpb1, hpb2⟩ := hokb1 piv rfl
      have hlen1 : st1.xs.length = st.xs.length := hperm1.1
      -- left recursion on [l, piv)
      obtain ⟨st2, heq2, hroot2, hlen2, hperm2, hsorted2⟩ := ih l piv st1
        (by omega) h0 (by omega)
        (by
          intro h0l m h1 h2
          have hfr : getI st1.xs (l - 1) = getI st.xs (l - 1) :=
            hperm1.2.1 (l - 1) (by omega)
          rw [hfr]
          obtain ⟨m0, hm0a, hm0b, hm0e⟩ := hperm1.2.2 m (by omega) (by omega)
          rw [hm0e]
          exact hB h0l m0 hm0a (by omega))
      -- right recursion on [piv + 1, r)
      obtain ⟨st3, heq3, hroot3, hlen3, hperm3, hsorted3⟩ := ih (piv + 1) r st2
        (by omega) (by omega) (by omega)
        (by
          intro _ m h1 h2
          rw [show (piv + 1 - 1 : Int) = piv from by omega]
          have hfp : getI st2.xs piv = getI st1.xs piv :=
            hperm2.2.1 piv (by omega)
          have hfm : getI st2.xs m = getI st1.xs m :=
            hperm2.2.1 m (by omega)
          rw [hfp, hfm]
          exact hges m (by omega) h2)
      have hA3piv : getI st3.xs piv = getI st1.xs piv := by
        rw [hperm3.2.1 piv (by omega), hperm2.2.1 piv (by omega)]
      refine ⟨st3, ?_, by rw [hroot3, hroot2, hroot1],
        by rw [hlen3, hlen2, hlen1], ?_, ?_⟩
      · simp only [quickSortF]
        rw [if_neg hsmall, heqP]
        simp only [heq2]
        exact heq3
      · exact permWithin_trans hperm1
          (permWithin_trans (permWithin_mono hperm2 le_rfl (by omega))
            (permWithin_mono hperm3 (by omega) le_rfl))
      · -- sortedness across the three zones
        intro i j hi hij hj
        have hleft : ∀ m : Int, l ≤ m → m < piv → getI st3.xs m = getI st2.xs m :=
          fun m h1 h2 => hperm3.2.1 m (by omega)
        by_cases hjp : j < piv
        · rw [hleft i (by omega) (by omega), hleft j (by omega) hjp]
          exact hsorted2 i j hi hij hjp
        · by_cases hip : piv < i
          · exact hsorted3 i j (by omega) hij hj
          · -- i ≤ piv ≤ j
            have hApivj : getI st3.xs piv ≤ getI st3.xs j := by
              rcases eq_or_lt_of_le (show piv ≤ j by omega) with h | h
              · exact le_of_eq (by rw [h])
              · obtain ⟨j0, hj0a, hj0b, hj0e⟩ := hperm3.2.2 j (by omega) hj
                rw [hj0e, hA3piv, hperm2.2.1 j0 (by omega)]
                exact hges j0 (by omega) hj0b
            have hAipiv : getI st3.xs i ≤ getI st3.xs piv := by
              rcases eq_or_lt_of_le (show i ≤ piv by omega) with h | h
              · exact le_of_eq (by rw [h])
              · rw [hleft i (by omega) h]
                obtain ⟨i0, hi0a, hi0b, hi0e⟩ := hperm2.2.2 i (by omega) h
                rw [hi0e, hA3piv]
                exact le_of_lt (hlts i0 hi0a hi0b)
            exact le_trans hAipiv hApivj

/-- `quick_sort` under a canonical comparator. -/
theorem quick_sort_canon {ctx : Ctx α} (hclt : CanonLt ctx) {l r : Int} (st : St α)
    (h0 : 0 ≤ l) (hrlen : r ≤ (st.xs.length : Int))
    (hB : 0 < l → ∀ m : Int, l ≤ m → m < r → getI st.xs (l - 1) ≤ getI st.xs m) :
    ∃ st1, quick_sort ctx l r st = (st1, .ok ()) ∧ st1.root = st.root ∧
      st1.xs.length = st.xs.length ∧
      PermWithin st.xs st1.xs l r ∧ sortedSeg st1.xs l r :=
  quickSortF_canon hclt ((r - l).toNat + 1) l r st (by omega) h0 hrlen hB

end QuickSortCanon

section RangeLoop

variable {α : Type} [Inhabited α] [LinearOrder α]

/-- One unfolding of the region walk of `sort_range`. -/
theorem sortRangeLoop_step (ctx : Ctx α) (stop : Int) (fuel : Nat) (cur : Int)
    (st : St α) :
    sortRangeLoop ctx stop (fuel + 1) cur st =
      (if cur < stop then
        match st.root.flagsAt cur with
        | none => (st, .error .useAfterFree)
        | some (csl1, _) =>
          match st.root.succIdx cur with
          | none => (st, .error .nullDeref)
          | some nxt1 =>
            let stA := if csl1 then st
              else
                let (stq1, _) := quick_sort ctx (cur + 1) nxt1 st
                { stq1 with root := (stq1.root.orFlagsAt cur true false).orFlagsAt nxt1 false true }
            match stA.root.flagsAt cur with
            | none => (stA, .error .useAfterFree)
            | some (_, csr1) =>
              let stB := if csr1 then { stA with root := stA.root.deleteIdx cur } else stA
              sortRangeLoop ctx stop fuel nxt1 stB
      else sortRangeExit stop cur st) := rfl

/-- The region walk of `sort_range` preserves the region invariant along
every path.  The conditional hypothesis covers the after-loop deletion:
when the walk stops on a live pivot with `SORTED_LEFT` set, that pivot
carries `SORTED_RIGHT` too. -/
theorem sortRangeLoop_inv {ctx : Ctx α} (hclt : CanonLt ctx) {stop : Int} :
    ∀ (fuel : Nat) (cur : Int) (st : St α), RegInv st →
      (stop ≤ cur → cur ∈ st.root.keys → st.root.srAt cur = true) →
      ∃ st2 res, sortRangeLoop ctx stop fuel cur st = (st2, res) ∧
        RegInv st2 ∧ st2.xs.length = st.xs.length := by
  intro fuel
  induction fuel with
  | zero =>
    intro cur st hInv hpack
    exact ⟨st, .error .unreachable, rfl, hInv, rfl⟩
  | succ fuel ih =>
    intro cur st hInv hpack
    have hEng := hInv.toEngInv
    have hbst := hEng.bst
    by_cases hcur : cur < stop
    · rcases hfl : st.root.flagsAt cur with _ | ⟨csl, csr0⟩
      · refine ⟨st, .error .useAfterFree, ?_, hInv, rfl⟩
        rw [sortRangeLoop_step, if_pos hcur]
        simp only [hfl]
      · have hcurmem : cur ∈ st.root.keys := by
          by_contra hc
          rw [(PTree.flagsAt_eq_none_iff _ _).mpr hc] at hfl
          cases hfl
        have hslcur : st.root.slAt cur = csl := by
          unfold PTree.slAt
          rw [hfl]
        have hsrcur : st.root.srAt cur = csr0 := by
          unfold PTree.srAt
          rw [hfl]
        rcases hsucc : st.root.succIdx cur with _ | nxt
        · refine ⟨st, .error .nullDeref, ?_, hInv, rfl⟩
          rw [sortRangeLoop_step, if_pos hcur]
          simp only [hfl, hsucc]
        · have hnxtmem : nxt ∈ st.root.keys := (PTree.succIdx_mem hsucc).1
          have hcurnxt : cur < nxt := (PTree.succIdx_mem hsucc).2
          cases csl with
          | true =>
            -- region already sorted: maybe drop cur, then walk on
            obtain ⟨q0, hq0, hsrq0⟩ := hEng.slOK cur hcurmem hslcur
            have hq0nxt : q0 = nxt := by
              rw [hsucc] at hq0
              exact (Option.some_inj.mp hq0).symm
            rw [hq0nxt] at hsrq0
            cases csr0 with
            | false =>
              obtain ⟨st5, res, heqL, hInv5, hlen5⟩ := ih nxt st hInv
                (fun _ _ => hsrq0)
              refine ⟨st5, res, ?_, hInv5, hlen5⟩
              rw [sortRangeLoop_step, if_pos hcur]
              simp only [hfl, hsucc]
              rw [if_pos trivial]
              simp only [hfl]
              rw [if_neg (by simp)]
              exact heqL
            | true =>
              obtain ⟨hInv2, hkeys2, hflags2⟩ := deleteBoth_inv hInv hcurmem
                hslcur hsrcur
                (show ({ st with root := st.root.deleteIdx cur } : St α).xs = st.xs from rfl)
                (show ({ st with root := st.root.deleteIdx cur } : St α).root = st.root.deleteIdx cur from rfl)
              obtain ⟨st5, res, heqL, hInv5, hlen5⟩ :=
                ih nxt { st with root := st.root.deleteIdx cur } hInv2
                (fun _ _ => by
                  rw [PTree.srAt_congr (hflags2 nxt (by omega))]
                  exact hsrq0)
              refine ⟨st5, res, ?_, hInv5, hlen5⟩
              rw [sortRangeLoop_step, if_pos hcur]
              simp only [hfl, hsucc]
              rw [if_pos trivial]
              simp only [hfl]
              rw [if_pos trivial]
              exact heqL
          | false =>
            -- sort the region, mark it, maybe drop cur, walk on
            have hrle : nxt ≤ (st.xs.length : Int) := (hEng.range nxt hnxtmem).2
            have hlge : -1 ≤ cur := (hEng.range cur hcurmem).1
            have hB : 0 < cur + 1 → ∀ m : Int, cur + 1 ≤ m → m < nxt →
                getI st.xs (cur + 1 - 1) ≤ getI st.xs m := by
              intro h0c m h1 h2
              have he : (cur + 1 - 1 : Int) = cur := by omega
              rw [he]
              exact (hEng.seps cur hcurmem (by omega) (by omega)).2 m
                (by omega) (by omega)
            obtain ⟨stq, heqQ, hrootQ, hlenQ, hpermQ, hsortedQ⟩ :=
              quick_sort_canon (l := cur + 1) (r := nxt) hclt st (by omega) hrle hB
            obtain ⟨stM, hstM⟩ : ∃ stM : St α,
                stM = { stq with root := (stq.root.orFlagsAt cur true false).orFlagsAt nxt false true } :=
              ⟨_, rfl⟩
            obtain ⟨hInvM, hmemM, hflM, hfrM, hfoM, hsuccM⟩ := markRegion_inv hInv
              hcurmem hnxtmem hsucc hslcur hrootQ hpermQ hsortedQ
              (show stM.xs = stq.xs from by rw [hstM])
              (show stM.root = (stq.root.orFlagsAt cur true false).orFlagsAt nxt false true from by rw [hstM])
            rw [hsrcur] at hflM
            have hsrMnxt : stM.root.srAt nxt = true := PTree.srAt_of_flags hfrM
            have hslMcur : stM.root.slAt cur = true := PTree.slAt_of_flags hflM
            have hsrMcur : stM.root.srAt cur = csr0 := PTree.srAt_of_flags hflM
            have hlenM : stM.xs.length = st.xs.length := by
              rw [hstM]
              exact hlenQ
            have hXr : (stq.root.orFlagsAt cur true false).orFlagsAt nxt false true = stM.root := by rw [hstM]
            cases csr0 with
            | false =>
              have hflX : ((stq.root.orFlagsAt cur true false).orFlagsAt nxt false true).flagsAt cur = some (true, false) := by
                rw [hXr]
                exact hflM
              obtain ⟨st5, res, heqL, hInv5, hlen5⟩ := ih nxt stM hInvM
                (fun _ _ => hsrMnxt)
              refine ⟨st5, res, ?_, hInv5, by rw [hlen5, hlenM]⟩
              rw [sortRangeLoop_step, if_pos hcur]
              simp only [hfl, hsucc]
              rw [if_neg (by simp)]
              simp only [heqQ, hflX]
              rw [if_neg (by simp)]
              rw [hstM] at heqL
              exact heqL
            | true =>
              have hflX : ((stq.root.orFlagsAt cur true false).orFlagsAt nxt false true).flagsAt cur = some (true, true) := by
                rw [hXr]
                exact hflM
              obtain ⟨hInv2, hkeys2, hflags2⟩ := deleteBoth_inv hInvM
                ((hmemM cur).mpr hcurmem) hslMcur hsrMcur
                (show ({ stM with root := stM.root.deleteIdx cur } : St α).xs = stM.xs from rfl)
                (show ({ stM with root := stM.root.deleteIdx cur } : St α).root = stM.root.deleteIdx cur from rfl)
              obtain ⟨st5, res, heqL, hInv5, hlen5⟩ := ih nxt
                { stM with root := stM.root.deleteIdx cur } hInv2
                (fun _ _ => by
                  rw [PTree.srAt_congr (hflags2 nxt (by omega))]
                  exact hsrMnxt)
              refine ⟨st5, res, ?_, hInv5, by rw [hlen5]; exact hlenM⟩
              rw [sortRangeLoop_step, if_pos hcur]
              simp only [hfl, hsucc]
              rw [if_neg (by simp)]
              simp only [heqQ, hflX]
              rw [if_pos trivial]
              rw [hstM] at heqL
              exact heqL
    · -- exit: maybe drop a SORTED_BOTH cur
      rcases hfl : st.root.flagsAt cur with _ | ⟨csl, csr0⟩
      · refine ⟨st, .error .useAfterFree, ?_, hInv, rfl⟩
        rw [sortRangeLoop_step, if_neg hcur]
        simp [sortRangeExit, hfl]
      · have hcurmem : cur ∈ st.root.keys := by
          by_contra hc
          rw [(PTree.flagsAt_eq_none_iff _ _).mpr hc] at hfl
          cases hfl
        have hslcur : st.root.slAt cur = csl := by
          unfold PTree.slAt
          rw [hfl]
        cases csl with
        | false =>
          refine ⟨st, .ok (), ?_, hInv, rfl⟩
          rw [sortRangeLoop_step, if_neg hcur]
          simp [sortRangeExit, hfl]
        | true =>
          have hsrcur : st.root.srAt cur = true := hpack (by omega) hcurmem
          obtain ⟨hInv2, hkeys2, hflags2⟩ := deleteBoth_inv hInv hcurmem
            hslcur hsrcur
            (show ({ st with root := st.root.deleteIdx cur } : St α).xs = st.xs from rfl)
            (show ({ st with root := st.root.deleteIdx cur } : St α).root = st.root.deleteIdx cur from rfl)
          refine ⟨{ st with root := st.root.deleteIdx cur }, .ok (), ?_, hInv2, rfl⟩
          rw [sortRangeLoop_step, if_neg hcur]
          simp [sortRangeExit, hfl]

end RangeLoop

section RangeTop

variable {α : Type} [Inhabited α] [LinearOrder α]

/-- `sort_range` preserves the region invariant on every path. -/
theorem sort_range_inv {ctx : Ctx α} (hclt : CanonLt ctx) (hceq : CanonEq ctx)
    (hth : 1 ≤ ctx.thresh) {start stop : Int} {st : St α} (hInv : RegInv st) :
    ∃ st2 res, sort_range ctx start stop st = (st2, res) ∧
      RegInv st2 ∧ st2.xs.length = st.xs.length := by
  by_cases hg : 0 ≤ start ∧ start < stop ∧ stop ≤ (st.xs.length : Int)
  · obtain ⟨st1, res1, heq1, hInv1, hlen1, _⟩ := sort_point_inv hclt hceq hth hInv (k := start)
    cases res1 with
    | error e =>
      refine ⟨st1, .error e, ?_, hInv1, hlen1⟩
      simp only [sort_range]
      rw [if_pos hg]
      simp only [heq1]
    | ok u =>
      obtain ⟨st2, res2, heq2, hInv2, hlen2, _⟩ := sort_point_inv hclt hceq hth hInv1 (k := stop)
      cases res2 with
      | error e =>
        refine ⟨st2, .error e, ?_, hInv2, by rw [hlen2, hlen1]⟩
        simp only [sort_range]
        rw [if_pos hg]
        simp only [heq1, heq2]
      | ok u2 =>
        have hbst2 := hInv2.toEngInv.bst
        rcases hb : st2.root.boundIdx start with ⟨b1, b2⟩
        cases hb1 : b1 with
        | none =>
          refine ⟨st2, .error .nullDeref, ?_, hInv2, by rw [hlen2, hlen1]⟩
          simp only [sort_range]
          rw [if_pos hg]
          rw [hb1] at hb
          simp only [heq1, heq2, hb]
        | some cur =>
          have hcs : cur ≤ start := by
            by_cases hk : start ∈ st2.root.keys
            · have h := PTree.boundIdx_mem hbst2 hk
              rw [hb] at h
              have h2 : b1 = some start := h
              rw [hb1] at h2
              have : cur = start := Option.some_inj.mp h2
              omega
            · have h := PTree.boundIdx_not_mem hbst2 hk
              rw [hb] at h
              have hfst : b1 = st2.root.predIdx start := congrArg Prod.fst h
              have hb1' : st2.root.predIdx start = some cur := by
                rw [← hfst, hb1]
              have := (PTree.predIdx_mem hb1').2
              omega
          obtain ⟨st3, res3, heq3, hInv3, hlen3⟩ :=
            sortRangeLoop_inv hclt ((stop - cur).toNat + 1) cur st2 hInv2
              (show stop ≤ cur → cur ∈ st2.root.keys → st2.root.srAt cur = true from
                fun hsc _ => absurd hsc (by omega))
          refine ⟨st3, res3, ?_, hInv3, by rw [hlen3, hlen2, hlen1]⟩
          simp only [sort_range]
          rw [if_pos hg]
          rw [hb1] at hb
          simp only [heq1, heq2, hb]
          exact heq3
  · exact ⟨st, .error .assertViol, by simp only [sort_range]; rw [if_neg hg], hInv, rfl⟩

end RangeTop

/-! ## Claims -/

/-- C1 (code_bug): `get(k)` is claimed to answer every point query like
a fully sorted array, for every list.  On `uafList` (which has three
equal elements 50) the first three queries answer `sorted(A)[k] = 50`
correctly, but their `uniq_pivots` deduplications leave stale copies of
50 behind live pivots; in the fourth query a partition pivot equal to
the right bounding pivot's value makes `uniq_pivots` delete that bound
while `sort_point` keeps its pointer, and the next loop-condition read
dereferences the freed node (model abort `useAfterFree`) instead of
producing `sorted(A)[13] = 50`. -/
theorem C1_point_query_use_after_free :
    (ls_subscript_int uafCtx 12 uafState0).2 = .ok 50 ∧
    (ls_subscript_int uafCtx 13 uafState1).2 = .ok 50 ∧
    (ls_subscript_int uafCtx 14 uafState2).2 = .ok 50 ∧
    getI (sortedL uafList) 13 = 50 ∧
    (ls_subscript_int uafCtx 13 uafState3).2 = .error .useAfterFree :=
  ⟨rfl, rfl, rfl, by decide, rfl⟩

/-- C4 (code_bug): a comparator failure inside the `quick_sort` step of
`sort_range` is claimed to abort `sort_range` with the in-progress
region left unmarked.  The code ignores `quick_sort`'s return value:
from the valid state `srState`, `quick_sort` alone on the region
reports the failure, yet `sort_range(12, 26)` returns success and marks
pivot 12 `SORTED_LEFT` and pivot 26 `SORTED_RIGHT` although the region
between them is not sorted. -/
theorem C4_sort_range_swallows_comparator_failure :
    (quick_sort srCtx 13 26 srState).2 = .error .cmpFail ∧
    (sort_range srCtx 12 26 srState).2 = .ok () ∧
    (sort_range srCtx 12 26 srState).1.root.flagsAt 12 = some (true, false) ∧
    (sort_range srCtx 12 26 srState).1.root.flagsAt 26 = some (false, true) ∧
    ¬ sortedSeg (sort_range srCtx 12 26 srState).1.xs 13 26 := by
  refine ⟨rfl, rfl, rfl, rfl, fun h => ?_⟩
  have := h 14 16 (by decide) (by decide) (by decide)
  revert this
  decide

/-- C9 (code_bug): `between` is claimed to clamp its arguments into the
valid range before any sorting work, for all inputs including
`a < -N`.  The clamp adds `N` only once: on a 3-element engine,
`between(-5, 2)` passes `-2 ∉ [0, N]` to `sort_point`, whose
`bound_idx` finds no left bound (the asserted postcondition of
`bound_idx` fails, and the release build dereferences NULL). -/
theorem C9_between_passes_unclamped_index :
    (sort_point (intCtx [] 12) (-2 : Int) btwState).2 = .error .nullDeref ∧
    (between (intCtx [] 12) (-5) 2 btwState).2 = .error .nullDeref :=
  ⟨rfl, rfl⟩

/-- C3 (counterexample to the claim as stated): the claim says an
aborted partition leaves the swaps all completed or all undone.  On
`pfList` the failing comparator aborts `partition` after the initial
pivot swap: the array differs from the input (not all undone) and from
the array the completed partition produces under the never-failing
comparator with the same pivot drawing (not all completed). -/
theorem C3_partition_torn_counterexample :
    (partitionC pfCtx 0 5 pfState).2 = .error .cmpFail ∧
    (partitionC pfCtx 0 5 pfState).1.xs = [5, 1, 2, 999, 0] ∧
    pfState.xs = [1, 5, 2, 999, 0] ∧
    (partitionC pfOkCtx 0 5 pfState).1.xs = [0, 1, 2, 5, 999] :=
  ⟨rfl, by decide, rfl, by decide⟩

/-- C3 (amended): if the `lt` comparator raises during a partition
step, the operation aborts with an error, but the swaps already
performed remain in place (no rollback): the array is a permutation of
its previous contents confined to the partitioned range `[l, r)` — it
agrees with the old array outside and every position inside holds one
of the old region values — so the pivot tree is untouched and every
separator outside the open region, hence the order-statistic invariant
of section 3, still holds. -/
theorem C3_partition_abort_keeps_invariants {α : Type} [Inhabited α] [LinearOrder α]
    (ctx : Ctx α) {l r : Int} (st : St α) (e : Err) (hlr : l < r) (h0 : 0 ≤ l)
    (hlen : r ≤ (st.xs.length : Int))
    (herr : (partitionC ctx l r st).2 = .error e) :
    (partitionC ctx l r st).1.root = st.root ∧
    PermWithin st.xs (partitionC ctx l r st).1.xs l r ∧
    (∀ p : Int, p < l ∨ r ≤ p → sepAt st.xs p → sepAt (partitionC ctx l r st).1.xs p) := by
  obtain ⟨hroot, _, hperm, _⟩ := partitionC_frame ctx st hlr h0 hlen
  exact ⟨hroot, hperm, fun p hp hs => sepAt_of_permWithin hperm h0 hlen hp hs⟩

/-- Witness for the amended C3 at the concrete aborted partition. -/
theorem C3_partition_abort_keeps_invariants_witness :
    ((0 : Int) < 5 ∧ (0 : Int) ≤ 0 ∧ (5 : Int) ≤ (pfState.xs.length : Int) ∧
      (partitionC pfCtx 0 5 pfState).2 = .error .cmpFail) ∧
    ((partitionC pfCtx 0 5 pfState).1.root = pfState.root ∧
      PermWithin pfState.xs (partitionC pfCtx 0 5 pfState).1.xs 0 5 ∧
      (∀ p : Int, p < 0 ∨ 5 ≤ p → sepAt pfState.xs p →
        sepAt (partitionC pfCtx 0 5 pfState).1.xs p)) :=
  ⟨⟨by decide, by decide, by decide, rfl⟩,
    C3_partition_abort_keeps_invariants pfCtx pfState .cmpFail (by decide) (by decide)
      (by decide) rfl⟩

/-- C10 (confirmed): when `insertion_sort(A, left.idx+1, right.idx)` is
invoked with a left bounding pivot satisfying the order-statistic
invariant (position `l-1`; for the `-1` sentinel the boundary is
position 0, guarded by `j > 0`) and a comparator that never fails,
every array position outside `[l, r)` is left unchanged: the inner
shift always stops at the region boundary because `A[l-1]` is below
every region element. -/
theorem C10_insertion_sort_frame {α : Type} [Inhabited α] [LinearOrder α] {ctx : Ctx α}
    (hc : CanonLt ctx) {l r : Int} (st : St α) (h0 : 0 ≤ l)
    (hrlen : r ≤ (st.xs.length : Int))
    (hsep : 0 < l → sepAt st.xs (l - 1)) :
    ∀ m : Int, m < l ∨ r ≤ m → getI (insertion_sort ctx l r st).xs m = getI st.xs m := by
  have hB : 0 < l → ∀ m, l ≤ m → m < r → getI st.xs (l - 1) ≤ getI st.xs m := by
    intro hl m hm1 hm2
    exact (hsep hl).2 m (by omega) (by omega)
  obtain ⟨hperm, _⟩ := insertion_sort_canon hc st h0 hrlen hB
  intro m hm
  exact hperm.2.1 m hm

/-- Witness for C10 at a concrete region with a real separator. -/
theorem C10_insertion_sort_frame_witness :
    ((0 : Int) ≤ 2 ∧ (4 : Int) ≤ (insFrameState.xs.length : Int)) ∧
    getI (insertion_sort (intCtx [] 12) 2 4 insFrameState).xs 4 =
      getI insFrameState.xs 4 :=
  ⟨⟨by decide, by decide⟩,
    C10_insertion_sort_frame (intCtx_lt [] 12) insFrameState (by decide) (by decide)
      (fun _ => ⟨fun j h1 h2 => by
          have hj : j = 0 := by omega
          rw [hj]
          decide,
        fun j h1 h2 => by
          have hlen : insFrameState.xs.length = 5 := rfl
          rw [hlen] at h2
          have hj : j = 2 ∨ j = 3 ∨ j = 4 := by omega
          rcases hj with h | h | h <;> (rw [h]; decide)⟩)
      4 (Or.inr (by decide))⟩

/-- C7 (confirmed): the hint passed to `insert_pivot` by its callers
(the left bounding pivot of the fresh index when that pivot has no
right child, otherwise the right bounding pivot) is only an
optimization: on a tree satisfying the treap invariants the BST descent
from the hint attaches the fresh node at exactly the position the
descent from the root would pick, yielding the same tree. -/
theorem C7_hint_is_only_an_optimization {T : PTree} (hbst : T.IsBST) (hheap : T.IsHeap)
    {k lv rv : Int} (hk : k ∉ T.keys)
    (hbound : T.boundIdx k = (some lv, some rv)) (sl sr : Bool) (prio : Nat) :
    ∃ t2, PTree.attach k sl sr prio T = some t2 ∧
      PTree.attachFrom
        (match T.findNode lv with
         | some (PTree.node _ _ _ _ _ PTree.leaf) => lv
         | _ => rv) k sl sr prio T = .ok t2 := by
  have hbi := PTree.boundIdx_not_mem hbst hk
  rw [hbound] at hbi
  have hpred : T.predIdx k = some lv := by
    have := congrArg (fun q => q.1) hbi
    exact this.symm
  have hsucc : T.succIdx k = some rv := by
    have := congrArg (fun q => q.2) hbi
    exact this.symm
  obtain ⟨hlv_mem, hlv_lt⟩ := PTree.predIdx_mem hpred
  obtain ⟨hrv_mem, hrv_gt⟩ := PTree.succIdx_mem hsucc
  obtain ⟨t2, e1, e2, ha, _, _, _, _⟩ := PTree.attach_spec T hbst k sl sr prio hk
  refine ⟨t2, ha, ?_⟩
  rcases PTree.hintOf_cases T lv rv with hh | hh
  · rw [hh]
    exact PTree.attachFrom_ok_pred T hbst k lv sl sr prio t2 hk hlv_mem hlv_lt
      (fun j hj hjk => PTree.predIdx_max hbst hpred j hj hjk) ha
  · rw [hh]
    exact PTree.attachFrom_ok_succ T hbst k rv sl sr prio t2 hk hrv_mem hrv_gt
      (fun j hj hkj => PTree.succIdx_min hbst hsucc j hj hkj) ha

/-- Witness for C7 on a concrete three-pivot treap at `k = 2`. -/
theorem C7_hint_is_only_an_optimization_witness :
    (c7Tree.IsBST ∧ c7Tree.IsHeap ∧ (2 : Int) ∉ c7Tree.keys ∧
      c7Tree.boundIdx 2 = (some 1, some 4)) ∧
    (∃ t2, PTree.attach 2 false false 7 c7Tree = some t2 ∧
      PTree.attachFrom
        (match c7Tree.findNode 1 with
         | some (PTree.node _ _ _ _ _ PTree.leaf) => (1 : Int)
         | _ => (4 : Int)) 2 false false 7 c7Tree = .ok t2) :=
  by
  have hbst : c7Tree.IsBST := by
    show ([-1, 1, 4] : List Int).Sorted (· < ·)
    rw [List.sorted_cons, List.sorted_cons, List.sorted_cons]
    exact ⟨by decide, by decide, by decide, List.sorted_nil⟩
  have hheap : c7Tree.IsHeap :=
    ⟨show (3 : Nat) ≤ 5 by decide, show (2 : Nat) ≤ 5 by decide,
     ⟨trivial, trivial, trivial, trivial⟩, ⟨trivial, trivial, trivial, trivial⟩⟩
  have hk : (2 : Int) ∉ c7Tree.keys := by decide
  have hbound : c7Tree.boundIdx 2 = (some 1, some 4) := rfl
  exact ⟨⟨hbst, hheap, hk, hbound⟩,
    C7_hint_is_only_an_optimization hbst hheap hk hbound false false 7⟩
